import Mathlib

/-! # Conway's Game of Life by convolution: the three steppers

A shallow embedding of the Go programs `go_conv_simple`, `go_conv_bench` and
`go_conv_fft_bench`.

* Go `int` values are `Int`.  Every index the programs compute is bounded by
  the length of a slice that exists in memory, so no wrap-around modulo `2^64`
  is modelled; a statement about coordinates the programs never pass is restricted
  to the values of `int` (`inInt64`).
* A run-time panic (index out of range, slice bounds, length mismatch inside
  the transform library) is a `Run.panic` carrying the memory as it stands at
  the moment of the panic.
* The package-level variable `size` is an explicit argument.
* In the steppers `float64` and `complex128` are read over an exact ordered field `R`:
  rounding is not modelled.  The transform library is a parameter (`Fourier`); `exactDFT` is
  its reading as the exact discrete Fourier transform.
* In `nextPow2` the conversions between `int` and `float64` are modelled with their rounding
  and range; what the source leaves to the math library and the platform is a parameter
  (`FloatEnv`).
-/

namespace ConvConway

/-! ## Memory model -/

/-- Outcome of running a piece of stateful code: it ran to its end, or it was
stopped by a run-time panic.  Both carry the memory reached. -/
inductive Run (σ : Type) where
  | done : σ → Run σ
  | panic : σ → Run σ
  deriving DecidableEq

/-- The memory a run ends with, finished or not. -/
def Run.mem {σ : Type} : Run σ → σ
  | .done s => s
  | .panic s => s

/-- Whether the run reached its end. -/
def Run.finished {σ : Type} : Run σ → Bool
  | .done _ => true
  | .panic _ => false

/-- The Go loop `for i := start; i < start + k; i++ { body }`, with `k` the number of
iterations still to run. -/
def loopFrom {σ : Type} (body : Int → σ → Run σ) : Nat → Int → σ → Run σ
  | 0, _, s => .done s
  | k + 1, i, s =>
    match body i s with
    | .done s' => loopFrom body k (i + 1) s'
    | .panic s' => .panic s'

/-- The Go loop `for i := 0; i < n; i++ { body }`: it runs `max n 0` times. -/
def forRange {σ : Type} (n : Int) (body : Int → σ → Run σ) (s : σ) : Run σ :=
  loopFrom body n.toNat 0 s

/-- Go's slice read `g[i]` with `i` an `int`; `none` is the bounds panic. -/
def index {α : Type} (g : List α) (i : Int) : Option α :=
  if 0 ≤ i ∧ i < g.length then g[i.toNat]? else none

/-- Go's slice write `g[i] = v`; `none` is the bounds panic. -/
def assign {α : Type} (g : List α) (i : Int) (v : α) : Option (List α) :=
  if 0 ≤ i ∧ i < g.length then some (g.set i.toNat v) else none

/-- Go's `%` on `int`: the remainder of truncated division. -/
def goMod (a b : Int) : Int := Int.tmod a b

/-- The values of Go's `int` on the 64-bit platforms the programs are built for.  Go computes
`+`, `-` and `*` on `int` modulo `2^64`; an expression has the value the model computes on
`Int` whenever that value is in this range. -/
def inInt64 (i : Int) : Prop := -2 ^ 63 ≤ i ∧ i < 2 ^ 63

instance inInt64.instDecidable (i : Int) : Decidable (inInt64 i) :=
  inferInstanceAs (Decidable (-2 ^ 63 ≤ i ∧ i < 2 ^ 63))

/-! ## Grid (all three programs) -/

/-- Source: `type Grid []bool`, stored row-major. -/
abbrev Grid := List Bool

/-- Source: `func newGrid() Grid { return make(Grid, size*size) }`. -/
def newGrid (size : Int) : Grid := List.replicate (size * size).toNat false

/-- Source: `func (g Grid) get(x, y int) bool { return g[y*size+x] }`.  The index is the
number `y*size + x`; Go computes it modulo `2^64`, which is the same number whenever
`inInt64 (y*size + x)`, as for every coordinate the programs pass. -/
def Grid.get (size : Int) (g : Grid) (x y : Int) : Option Bool :=
  index g (y * size + x)

/-- Source: `func (g Grid) set(x, y int, v bool) { g[y*size+x] = v }`.  The index is the
number `y*size + x`, as for `Grid.get`. -/
def Grid.set (size : Int) (g : Grid) (x y : Int) (v : Bool) : Option Grid :=
  assign g (y * size + x) v

/-- The pair of buffers handed to a stepper. -/
structure Bufs where
  current : Grid
  next : Grid
  deriving DecidableEq

/-- Source: `var kernel = [3][3]int{{2, 2, 2}, {2, 1, 2}, {2, 2, 2}}`. -/
def kernel : List (List Int) := [[2, 2, 2], [2, 1, 2], [2, 2, 2]]

/-- The array read `kernel[i][j]`; the program only reads it with `i, j` in `0..2`. -/
def kernelAt (i j : Int) : Int := (kernel.getD i.toNat []).getD j.toNat 0

/-- The two rule branches of `stepTraditional`:
`count == 2 || count == 3` for a live cell, `count == 3` for a dead one. -/
def ruleTraditional (alive : Bool) (count : Int) : Bool :=
  if alive then (count == 2 || count == 3) else count == 3

/-- The band test of `stepConvolution`: `sum >= 5 && sum <= 7`. -/
def ruleConvolution (sum : Int) : Bool := decide (sum ≥ 5) && decide (sum ≤ 7)

/-- The offsets `-1, 0, 1` run through by the loops `for d := -1; d <= 1; d++`. -/
def offsets : List Int := [-1, 0, 1]

/-- The neighbour-counting loops of `stepTraditional` for the cell `(x, y)`:
the centre offset is skipped, every other wrapped neighbour is read from `current`. -/
def countNeighbours (size : Int) (current : Grid) (x y : Int) : Option Int :=
  offsets.foldlM (fun count dy =>
    offsets.foldlM (fun count dx =>
      if dx = 0 ∧ dy = 0 then some count
      else
        let nx := goMod (x + dx + size) size
        let ny := goMod (y + dy + size) size
        match Grid.get size current nx ny with
        | none => none
        | some b => some (if b then count + 1 else count)) count) 0

/-- The kernel-sum loops of `stepConvolution` for the cell `(x, y)`. -/
def kernelSum (size : Int) (current : Grid) (x y : Int) : Option Int :=
  offsets.foldlM (fun sum ky =>
    offsets.foldlM (fun sum kx =>
      let ny := goMod (y + ky + size) size
      let nx := goMod (x + kx + size) size
      match Grid.get size current nx ny with
      | none => none
      | some b => some (if b then sum + kernelAt (ky + 1) (kx + 1) else sum)) sum) 0

/-- Body of the two outer loops of `stepTraditional` for one cell. -/
def cellTraditional (size : Int) (y x : Int) (s : Bufs) : Run Bufs :=
  match countNeighbours size s.current x y with
  | none => .panic s
  | some count =>
    match Grid.get size s.current x y with
    | none => .panic s
    | some alive =>
      match Grid.set size s.next x y (ruleTraditional alive count) with
      | none => .panic s
      | some next' => .done { s with next := next' }

/-- Source: `func stepTraditional(current, next Grid)`. -/
def stepTraditional (size : Int) (s : Bufs) : Run Bufs :=
  forRange size (fun y => forRange size (fun x => cellTraditional size y x)) s

/-- Body of the two outer loops of `stepConvolution` for one cell. -/
def cellConvolution (size : Int) (y x : Int) (s : Bufs) : Run Bufs :=
  match kernelSum size s.current x y with
  | none => .panic s
  | some sum =>
    match Grid.set size s.next x y (ruleConvolution sum) with
    | none => .panic s
    | some next' => .done { s with next := next' }

/-- Source: `func stepConvolution(current, next Grid)`. -/
def stepConvolution (size : Int) (s : Bufs) : Run Bufs :=
  forRange size (fun y => forRange size (fun x => cellConvolution size y x)) s

/-- The loop of `gridsEqual` from index `i` on, `k` iterations left:
`if a[i] != b[i] { return false }`; `none` is the bounds panic on `b[i]`. -/
def gridsEqualFrom (a b : Grid) : Nat → Nat → Option Bool
  | 0, _ => some true
  | k + 1, i =>
    match a[i]?, b[i]? with
    | some ai, some bi => if ai ≠ bi then some false else gridsEqualFrom a b k (i + 1)
    | _, _ => none

/-- Source: `func gridsEqual(a, b Grid) bool` (`for i := range a`). -/
def gridsEqual (a b : Grid) : Option Bool := gridsEqualFrom a b a.length 0

/-- The buffer swap of the drivers: `a, b = b, a`. -/
def swap (s : Bufs) : Bufs := { current := s.next, next := s.current }

/-! ## Complex numbers -/

/-- Go's `complex128`, with `float64` read as an exact number type `R`. -/
@[ext]
structure Cplx (R : Type) where
  re : R
  im : R
  deriving DecidableEq

/-- Complex addition. -/
def Cplx.add {R : Type} [CommRing R] (a b : Cplx R) : Cplx R := ⟨a.re + b.re, a.im + b.im⟩

/-- Complex negation. -/
def Cplx.neg {R : Type} [CommRing R] (a : Cplx R) : Cplx R := ⟨-a.re, -a.im⟩

/-- Complex subtraction. -/
def Cplx.sub {R : Type} [CommRing R] (a b : Cplx R) : Cplx R := ⟨a.re - b.re, a.im - b.im⟩

/-- Complex multiplication, as Go's `*` on `complex128`. -/
def Cplx.mul {R : Type} [CommRing R] (a b : Cplx R) : Cplx R :=
  ⟨a.re * b.re - a.im * b.im, a.re * b.im + a.im * b.re⟩

/-- A real number as a complex number: Go's `complex(r, 0)`. -/
def Cplx.ofReal {R : Type} [CommRing R] (r : R) : Cplx R := ⟨r, 0⟩

/-- Complex conjugate. -/
def Cplx.conj {R : Type} [CommRing R] (a : Cplx R) : Cplx R := ⟨a.re, -a.im⟩

instance Cplx.instZero {R : Type} [CommRing R] : Zero (Cplx R) := ⟨⟨0, 0⟩⟩

instance Cplx.instOne {R : Type} [CommRing R] : One (Cplx R) := ⟨⟨1, 0⟩⟩

instance Cplx.instAdd {R : Type} [CommRing R] : Add (Cplx R) := ⟨Cplx.add⟩

instance Cplx.instNeg {R : Type} [CommRing R] : Neg (Cplx R) := ⟨Cplx.neg⟩

instance Cplx.instSub {R : Type} [CommRing R] : Sub (Cplx R) := ⟨Cplx.sub⟩

instance Cplx.instMul {R : Type} [CommRing R] : Mul (Cplx R) := ⟨Cplx.mul⟩

instance Cplx.instCommRing {R : Type} [CommRing R] : CommRing (Cplx R) where
  add_assoc a b c := by
    show Cplx.add (Cplx.add a b) c = Cplx.add a (Cplx.add b c)
    simp only [Cplx.add, Cplx.mk.injEq]
    constructor <;> ring
  zero_add a := by
    show Cplx.add ⟨0, 0⟩ a = a
    simp only [Cplx.add, zero_add]
  add_zero a := by
    show Cplx.add a ⟨0, 0⟩ = a
    simp only [Cplx.add, add_zero]
  add_comm a b := by
    show Cplx.add a b = Cplx.add b a
    simp only [Cplx.add, Cplx.mk.injEq]
    constructor <;> ring
  neg_add_cancel a := by
    show Cplx.add (Cplx.neg a) a = ⟨0, 0⟩
    simp only [Cplx.add, Cplx.neg, Cplx.mk.injEq]
    constructor <;> ring
  sub_eq_add_neg a b := by
    show Cplx.sub a b = Cplx.add a (Cplx.neg b)
    simp only [Cplx.add, Cplx.neg, Cplx.sub, Cplx.mk.injEq]
    constructor <;> ring
  mul_assoc a b c := by
    show Cplx.mul (Cplx.mul a b) c = Cplx.mul a (Cplx.mul b c)
    simp only [Cplx.mul, Cplx.mk.injEq]
    constructor <;> ring
  one_mul a := by
    show Cplx.mul ⟨1, 0⟩ a = a
    simp only [Cplx.mul, one_mul, zero_mul, sub_zero, add_zero]
  mul_one a := by
    show Cplx.mul a ⟨1, 0⟩ = a
    simp only [Cplx.mul, mul_one, mul_zero, sub_zero, zero_add]
  mul_comm a b := by
    show Cplx.mul a b = Cplx.mul b a
    simp only [Cplx.mul, Cplx.mk.injEq]
    constructor <;> ring
  left_distrib a b c := by
    show Cplx.mul a (Cplx.add b c) = Cplx.add (Cplx.mul a b) (Cplx.mul a c)
    simp only [Cplx.mul, Cplx.add, Cplx.mk.injEq]
    constructor <;> ring
  right_distrib a b c := by
    show Cplx.mul (Cplx.add a b) c = Cplx.add (Cplx.mul a c) (Cplx.mul b c)
    simp only [Cplx.mul, Cplx.add, Cplx.mk.injEq]
    constructor <;> ring
  zero_mul a := by
    show Cplx.mul ⟨0, 0⟩ a = ⟨0, 0⟩
    simp only [Cplx.mul, zero_mul, sub_zero, add_zero]
  mul_zero a := by
    show Cplx.mul a ⟨0, 0⟩ = ⟨0, 0⟩
    simp only [Cplx.mul, mul_zero, sub_zero, add_zero]
  nsmul := nsmulRec
  zsmul := zsmulRec

/-! ## The transform library (`gonum.org/v1/gonum/dsp/fourier`) -/

/-- The four transform primitives the program calls, each for a plan of length `n` (the first
argument): `(*FFT).Coefficients`, `(*FFT).Sequence`, `(*CmplxFFT).Coefficients` and
`(*CmplxFFT).Sequence`, as functions from the source argument to what is stored in the
destination. -/
structure Fourier (R : Type) where
  realCoefficients : Nat → List R → List (Cplx R)
  realSequence : Nat → List (Cplx R) → List R
  cmplxCoefficients : Nat → List (Cplx R) → List (Cplx R)
  cmplxSequence : Nat → List (Cplx R) → List (Cplx R)

/-- The coefficient sequence of length `n/2 + 1` extended to all `n` frequencies by the
conjugate symmetry of a real signal's spectrum. -/
def hermitian {R : Type} [CommRing R] (n : Nat) (coeff : List (Cplx R)) (k : Nat) : Cplx R :=
  if 2 * k ≤ n then coeff.getD k 0 else Cplx.conj (coeff.getD (n - k) 0)

/-- The library's transforms read as the exact discrete Fourier transform, for the root of
unity `w` standing for `exp(-2πi/n)`: coefficients `c[k] = Σ_j x[j] w^(jk)`, and the
unnormalised inverses `x[j] = Σ_k c[k] w^(-jk)` as the library documents them (a round trip
multiplies by `n`); the real inverse reads the half spectrum and returns the real part. -/
def exactDFT {R : Type} [CommRing R] (w : Cplx R) : Fourier R where
  realCoefficients n seq :=
    (List.range (n / 2 + 1)).map (fun k =>
      ∑ j in Finset.range n, Cplx.ofReal (seq.getD j 0) * w ^ (j * k))
  realSequence n coeff :=
    (List.range n).map (fun j =>
      (∑ k in Finset.range n, hermitian n coeff k * (Cplx.conj w) ^ (j * k)).re)
  cmplxCoefficients n seq :=
    (List.range n).map (fun k => ∑ j in Finset.range n, seq.getD j 0 * w ^ (j * k))
  cmplxSequence n coeff :=
    (List.range n).map (fun j =>
      ∑ k in Finset.range n, coeff.getD k 0 * (Cplx.conj w) ^ (j * k))

/-! ## The FFT program's memory -/

/-- Package-level variables of `go_conv_fft_bench` together with the two grids handed to
`stepFFT`.  `realFFT` and `cmplxFFT` hold the length of the plan (`Len()`). -/
structure FFTMem (R : Type) where
  size : Int
  fftN : Int
  halfC : Int
  normInv : R
  realFFT : Int
  cmplxFFT : Int
  kernelFreq : List (Cplx R)
  freqBuf : List (Cplx R)
  colBuf : List (Cplx R)
  realBuf : List R
  current : Grid
  next : Grid

/-- The two spectrum buffers the transform passes are run on. -/
inductive Spectrum where
  | freqBuf
  | kernelFreq
  deriving DecidableEq

/-- Read one of the spectrum buffers. -/
def FFTMem.spectrum {R : Type} (m : FFTMem R) : Spectrum → List (Cplx R)
  | .freqBuf => m.freqBuf
  | .kernelFreq => m.kernelFreq

/-- Replace one of the spectrum buffers. -/
def FFTMem.setSpectrum {R : Type} (m : FFTMem R) : Spectrum → List (Cplx R) → FFTMem R
  | .freqBuf, b => { m with freqBuf := b }
  | .kernelFreq, b => { m with kernelFreq := b }

/-- Replace the column scratch buffer. -/
def FFTMem.setColBuf {R : Type} (m : FFTMem R) (c : List (Cplx R)) : FFTMem R :=
  { m with colBuf := c }

/-- Replace the row scratch buffer. -/
def FFTMem.setRealBuf {R : Type} (m : FFTMem R) (r : List R) : FFTMem R :=
  { m with realBuf := r }

/-- Replace the grid `next`. -/
def FFTMem.setNext {R : Type} (m : FFTMem R) (g : Grid) : FFTMem R :=
  { m with next := g }

/-- The slice expression `buf[lo:hi]` as a source; `none` is the slice-bounds panic. -/
def slice {α : Type} (buf : List α) (lo hi : Int) : Option (List α) :=
  if 0 ≤ lo ∧ lo ≤ hi ∧ hi ≤ buf.length then
    some ((buf.drop lo.toNat).take (hi - lo).toNat)
  else none

/-- The callee fills the whole destination `buf[lo:lo+len]` with `vals`: position `lo + i` of
`buf` receives `vals[i]` for every `i < len` (zero where `vals` has no entry). -/
def writeSlice {α : Type} [Zero α] (buf : List α) (lo len : Nat) (vals : List α) : List α :=
  List.zipWith (fun i old => if lo ≤ i ∧ i < lo + len then vals.getD (i - lo) 0 else old)
    (List.range buf.length) buf

/-- The call `realFFT.Coefficients(buf[lo:hi], seq)`: the slice expression, the library's
two length checks, then the destination is filled. -/
def realCoefficientsCall {R : Type} [Field R] (F : Fourier R) (which : Spectrum) (lo hi : Int)
    (seq : List R) (m : FFTMem R) : Run (FFTMem R) :=
  if ¬ (0 ≤ lo ∧ lo ≤ hi ∧ hi ≤ (m.spectrum which).length) then .panic m
  else if (seq.length : Int) ≠ m.realFFT then .panic m
  else if hi - lo ≠ Int.tdiv m.realFFT 2 + 1 then .panic m
  else .done (m.setSpectrum which
    (writeSlice (m.spectrum which) lo.toNat (hi - lo).toNat
      (F.realCoefficients m.realFFT.toNat seq)))

/-- The call `realFFT.Sequence(realBuf, freqBuf[lo:hi])`. -/
def realSequenceCall {R : Type} [Field R] (F : Fourier R) (lo hi : Int) (m : FFTMem R) :
    Run (FFTMem R) :=
  match slice m.freqBuf lo hi with
  | none => .panic m
  | some coeff =>
    if (coeff.length : Int) ≠ Int.tdiv m.realFFT 2 + 1 then .panic m
    else if (m.realBuf.length : Int) ≠ m.realFFT then .panic m
    else
      let out := F.realSequence m.realFFT.toNat coeff
      .done (m.setRealBuf (writeSlice m.realBuf 0 m.realBuf.length out))

/-- The in-place calls `cmplxFFT.Coefficients(colBuf, colBuf)` and
`cmplxFFT.Sequence(colBuf, colBuf)`, for the primitive `T`. -/
def cmplxCall {R : Type} [Field R] (T : Nat → List (Cplx R) → List (Cplx R)) (m : FFTMem R) :
    Run (FFTMem R) :=
  if (m.colBuf.length : Int) ≠ m.cmplxFFT then .panic m
  else
    let out := T m.cmplxFFT.toNat m.colBuf
    .done (m.setColBuf (writeSlice m.colBuf 0 m.colBuf.length out))

/-- Loop body `colBuf[y] = buf[y*halfC+x]`. -/
def gatherCell {R : Type} (which : Spectrum) (x y : Int) (m : FFTMem R) : Run (FFTMem R) :=
  match index (m.spectrum which) (y * m.halfC + x) with
  | none => .panic m
  | some v =>
    match assign m.colBuf y v with
    | none => .panic m
    | some cb => .done (m.setColBuf cb)

/-- Loop body `buf[y*halfC+x] = colBuf[y]`. -/
def scatterCell {R : Type} (which : Spectrum) (x y : Int) (m : FFTMem R) : Run (FFTMem R) :=
  match index m.colBuf y with
  | none => .panic m
  | some v =>
    match assign (m.spectrum which) (y * m.halfC + x) v with
    | none => .panic m
    | some b => .done (m.setSpectrum which b)

/-- One iteration of `for x := 0; x < halfC; x++`: gather column `x`, transform it in place
with `T`, scatter it back. -/
def columnBody {R : Type} [Field R] (T : Nat → List (Cplx R) → List (Cplx R)) (which : Spectrum)
    (x : Int) (m : FFTMem R) : Run (FFTMem R) :=
  match forRange m.fftN (fun y => gatherCell which x y) m with
  | .panic m1 => .panic m1
  | .done m1 =>
    match cmplxCall T m1 with
    | .panic m2 => .panic m2
    | .done m2 => forRange m2.fftN (fun y => scatterCell which x y) m2

/-- The column pass `for x := 0; x < halfC; x++ { ... }` over one spectrum buffer. -/
def columnPass {R : Type} [Field R] (T : Nat → List (Cplx R) → List (Cplx R)) (which : Spectrum)
    (m : FFTMem R) : Run (FFTMem R) :=
  forRange m.halfC (fun x => columnBody T which x) m

/-- Sequencing of two pieces of code. -/
def Run.andThen {σ : Type} (r : Run σ) (f : σ → Run σ) : Run σ :=
  match r with
  | .done s => f s
  | .panic s => .panic s

/-! ## initFFT -/

/-- The local array `k := [3][3]float64{{2, 2, 2}, {2, 1, 2}, {2, 2, 2}}` of `initFFT`. -/
def kFloat {R : Type} [CommRing R] : List (List R) := [[2, 2, 2], [2, 1, 2], [2, 2, 2]]

/-- The array read `k[i][j]`. -/
def kFloatAt {R : Type} [CommRing R] (i j : Int) : R :=
  ((kFloat (R := R)).getD i.toNat []).getD j.toNat 0

/-- The spatial kernel field of `initFFT`: `kernelReal := make([]float64, fftN*fftN)` followed
by the loops storing `kernelReal[fy*fftN+fx] = k[dy+1][dx+1]`; `none` is a bounds panic. -/
def kernelReal {R : Type} [CommRing R] (fftN : Int) : Option (List R) :=
  offsets.foldlM (fun kr dy =>
    offsets.foldlM (fun kr dx =>
      let fy := goMod (dy + fftN) fftN
      let fx := goMod (dx + fftN) fftN
      assign kr (fy * fftN + fx) (kFloatAt (dy + 1) (dx + 1))) kr)
    (List.replicate (fftN * fftN).toNat (0 : R))

/-- Loop body of the row pass of `initFFT`:
`realFFT.Coefficients(kernelFreq[y*halfC:(y+1)*halfC], kernelReal[y*fftN:(y+1)*fftN])`. -/
def kernelRowBody {R : Type} [Field R] (F : Fourier R) (kr : List R) (y : Int) (m : FFTMem R) :
    Run (FFTMem R) :=
  match slice kr (y * m.fftN) ((y + 1) * m.fftN) with
  | none => .panic m
  | some row =>
    realCoefficientsCall F .kernelFreq (y * m.halfC) ((y + 1) * m.halfC) row m

/-- Source: `func initFFT()`.  `main` calls it with `size > 0` only; the constructors of the
transform library are not modelled for other lengths, where the run stops. -/
def initFFT {R : Type} [Field R] (F : Fourier R) (m : FFTMem R) : Run (FFTMem R) :=
  if m.size ≤ 0 then .panic m
  else
    let fftN := m.size
    let halfC := Int.tdiv fftN 2 + 1
    let m0 : FFTMem R :=
      { m with
        fftN := fftN,
        halfC := halfC,
        realFFT := fftN,
        cmplxFFT := fftN,
        normInv := 1 / ((fftN * fftN : Int) : R),
        freqBuf := List.replicate (fftN * halfC).toNat 0,
        colBuf := List.replicate fftN.toNat 0,
        realBuf := List.replicate fftN.toNat 0,
        kernelFreq := List.replicate (fftN * halfC).toNat 0 }
    match kernelReal (R := R) fftN with
    | none => .panic m0
    | some kr =>
      (forRange m0.fftN (fun y => kernelRowBody F kr y) m0).andThen
        (columnPass F.cmplxCoefficients .kernelFreq)

/-! ## stepFFT -/

/-- Loop body `if current.get(x, y) { realBuf[x] = 1 } else { realBuf[x] = 0 }`. -/
def loadCell {R : Type} [Field R] (y x : Int) (m : FFTMem R) : Run (FFTMem R) :=
  match Grid.get m.size m.current x y with
  | none => .panic m
  | some b =>
    match assign m.realBuf x (if b then (1 : R) else 0) with
    | none => .panic m
    | some rb => .done (m.setRealBuf rb)

/-- One iteration of the forward row pass of `stepFFT`. -/
def rowForwardBody {R : Type} [Field R] (F : Fourier R) (y : Int) (m : FFTMem R) :
    Run (FFTMem R) :=
  (forRange m.fftN (fun x => loadCell y x) m).andThen (fun m1 =>
    realCoefficientsCall F .freqBuf (y * m1.halfC) ((y + 1) * m1.halfC) m1.realBuf m1)

/-- Loop body `freqBuf[i] *= kernelFreq[i]` of `for i := range freqBuf`. -/
def multiplyCell {R : Type} [Field R] (i : Int) (m : FFTMem R) : Run (FFTMem R) :=
  match index m.freqBuf i, index m.kernelFreq i with
  | some a, some k =>
    match assign m.freqBuf i (a * k) with
    | none => .panic m
    | some fb => .done (m.setSpectrum .freqBuf fb)
  | _, _ => .panic m

/-- The threshold of `stepFFT`: `v >= 4.5 && v <= 7.5`. -/
def ruleFFT {R : Type} [LinearOrderedField R] (v : R) : Bool :=
  decide (v ≥ 4.5) && decide (v ≤ 7.5)

/-- Loop body `v := realBuf[x] * normInv; next.set(x, y, v >= 4.5 && v <= 7.5)`. -/
def thresholdCell {R : Type} [LinearOrderedField R] (y x : Int) (m : FFTMem R) :
    Run (FFTMem R) :=
  match index m.realBuf x with
  | none => .panic m
  | some r =>
    match Grid.set m.size m.next x y (ruleFFT (r * m.normInv)) with
    | none => .panic m
    | some nx => .done (m.setNext nx)

/-- One iteration of the inverse row pass of `stepFFT`. -/
def rowInverseBody {R : Type} [LinearOrderedField R] (F : Fourier R) (y : Int)
    (m : FFTMem R) : Run (FFTMem R) :=
  (realSequenceCall F (y * m.halfC) ((y + 1) * m.halfC) m).andThen (fun m1 =>
    forRange m1.size (fun x => thresholdCell y x) m1)

/-- Source: `func stepFFT(current, next Grid)`. -/
def stepFFT {R : Type} [LinearOrderedField R] (F : Fourier R) (m : FFTMem R) :
    Run (FFTMem R) :=
  ((((forRange m.fftN (fun y => rowForwardBody F y) m).andThen
    (columnPass F.cmplxCoefficients .freqBuf)).andThen
    (fun m => forRange (m.freqBuf.length : Int) (fun i => multiplyCell i) m)).andThen
    (columnPass F.cmplxSequence .freqBuf)).andThen
    (fun m => forRange m.fftN (fun y => rowInverseBody F y) m)

/-- Memory of the FFT program before `initFFT`: `size` set by `main`, everything else at Go's
zero value, with the two grids in place. -/
def startMem {R : Type} [Field R] (size : Int) (current next : Grid) : FFTMem R :=
  { size := size, fftN := 0, halfC := 0, normInv := 0, realFFT := 0, cmplxFFT := 0,
    kernelFreq := [], freqBuf := [], colBuf := [], realBuf := [],
    current := current, next := next }

/-! ## Size validation in `main` (`go_conv_fft_bench`) -/

/-- Go's `&` on `int`: the bitwise and of the two's complement representations. -/
def goAnd (a b : Int) : Int := Int.land a b

/-- The largest `e ≤ fuel` with `2^e ≤ n`, or `0`: for `1 ≤ n < 2^(fuel+1)` the position of the
leading bit of `n`. -/
def leadingBit (n : Nat) : Nat → Nat
  | 0 => 0
  | e + 1 => if 2 ^ (e + 1) ≤ n then e + 1 else leadingBit n e

/-- Go's conversion `float64(n)` of an `int` `n ≥ 1`: `n` rounded to 53 significant bits, ties
to even.  The result is again a whole number. -/
def toFloat64 (n : Nat) : Nat :=
  let e := leadingBit n 64
  if e ≤ 52 then n
  else
    let q := 2 ^ (e - 52)
    let lo := n / q * q
    let r := n % q
    if 2 * r < q then lo
    else if q < 2 * r then lo + q
    else if (n / q) % 2 = 0 then lo else lo + q

/-- What `nextPow2` leaves to the math library and to the platform. -/
structure FloatEnv where
  /-- The value of `math.Ceil(math.Log2(x))` for a float `x` that is not a power of two; there
  `math.Log2` is a rounded product and sum. -/
  ceilLog2 : Nat → Int
  /-- The value of the conversion `int(f)` for `f = 2^k` with `k ≥ 63`, which `int` cannot
  represent; the language leaves the result to the implementation. -/
  intOfLarge : Nat → Int

/-- Source: `func nextPow2(n int) int`, that is
`int(math.Pow(2, math.Ceil(math.Log2(float64(n)))))`, for `n ≥ 1` (`main` calls it with
`s > 0` only).  `math.Log2` is exact on a power of two (`Frexp` gives the fraction `0.5`) and
otherwise taken from `E`; `math.Pow(2, k)` is exact for a whole `k`; `int` truncates, and for
values from `2^63` on its result is taken from `E`. -/
def nextPow2 (E : FloatEnv) (n : Int) : Int :=
  let x := toFloat64 n.toNat
  let e := leadingBit x 64
  let k : Int := if x = 2 ^ e then (e : Int) else E.ceilLog2 x
  if k < 0 then 0
  else if k < 63 then 2 ^ k.toNat
  else E.intOfLarge k.toNat

/-- The test `answer != "" && answer[0] != 'y' && answer[0] != 'Y'` on the line read from the
terminal. -/
def declines (answer : String) : Bool :=
  match answer.data with
  | [] => false
  | c :: _ => c != 'y' && c != 'Y'

/-- Source: the size validation of `main` in `go_conv_fft_bench`.  `arg` is what
`strconv.Atoi(os.Args[1])` returns (`none` for an error), `answer` the line read at the prompt.
The result is the value stored in `size`; `none` when `main` returns before storing one. -/
def chooseSize (E : FloatEnv) (arg : Option Int) (answer : String) : Option Int :=
  match arg with
  | none => none
  | some s =>
    if s ≤ 0 then none
    else if goAnd s (s - 1) ≠ 0 then
      let next := nextPow2 E s
      if declines answer then none else some next
    else some s

/-! ## Closed forms and concrete data used in the proofs -/

variable {R : Type}

/-- Cell `(x, y)` of an `n × n` row-major grid, as a total function. -/
def cell (n : Nat) (g : Grid) (x y : Nat) : Bool := g.getD (y * n + x) false

/-- The wrapped coordinate `(x + d + n) % n` as a natural number. -/
def wrapN (n x : Nat) (d : Int) : Nat := (((x : Int) + d + n) % n).toNat

/-- A boolean as the integer `1` or `0`. -/
def b2i (b : Bool) : Int := if b then 1 else 0

/-- Number of live cells among the eight wrapped neighbours of `(x, y)`, each wrapped
offset counted once per offset (so with multiplicity when `n ≤ 2`). -/
def liveCount (n : Nat) (g : Grid) (x y : Nat) : Int :=
  b2i (cell n g (wrapN n x (-1)) (wrapN n y (-1))) + b2i (cell n g (wrapN n x 0) (wrapN n y (-1)))
    + b2i (cell n g (wrapN n x 1) (wrapN n y (-1))) + b2i (cell n g (wrapN n x (-1)) (wrapN n y 0))
    + b2i (cell n g (wrapN n x 1) (wrapN n y 0)) + b2i (cell n g (wrapN n x (-1)) (wrapN n y 1))
    + b2i (cell n g (wrapN n x 0) (wrapN n y 1)) + b2i (cell n g (wrapN n x 1) (wrapN n y 1))

/-- The buffer `next` after the first `m` cells (row-major) have been written with `f`. -/
def filled (f : Nat → Bool) (m : Nat) (next : Grid) : Grid :=
  (List.range m).map f ++ next.drop m

/-- The 4 × 4 grid whose only live cell is `(1, 1)` (index `1*4 + 1`). -/
def singleCell4 : Grid :=
  [false, false, false, false, false, true, false, false,
   false, false, false, false, false, false, false, false]

/-- The list of length `len` whose entry `i` is `f i`. -/
def tab {α : Type} (len : Nat) (f : Nat → α) : List α := (List.range len).map f

/-- The memory of the FFT program for grid size `n`, as `initFFT` shapes it: `fftN = size = n`,
`halfC = n/2 + 1`, both plans of length `n`. -/
abbrev mem (n : Nat) (ni : R) (kf fb cb : List (Cplx R)) (rb : List R) (cur nx : Grid) :
    FFTMem R :=
  { size := n, fftN := n, halfC := ((n / 2 + 1 : Nat) : Int), normInv := ni, realFFT := n,
    cmplxFFT := n, kernelFreq := kf, freqBuf := fb, colBuf := cb, realBuf := rb,
    current := cur, next := nx }

/-- Row `y` of the grid as the numbers `1` and `0`: what the load loop leaves in `realBuf`. -/
def rowVals [Field R] (n : Nat) (cur : Grid) (y : Nat) : List R :=
  tab n (fun x => if cell n cur x y then (1 : R) else 0)

/-- The spectrum buffer after the forward row pass: row `y` holds the real-input transform of
row `y` of the grid. -/
def rowSpectrum [Field R] (F : Fourier R) (n : Nat) (cur : Grid) : List (Cplx R) :=
  tab (n * (n / 2 + 1)) (fun i =>
    (F.realCoefficients n (rowVals n cur (i / (n / 2 + 1)))).getD (i % (n / 2 + 1)) 0)

/-- Column `x` of a spectrum buffer with rows of length `h`. -/
def column [Zero R] (n h : Nat) (b : List (Cplx R)) (x : Nat) : List (Cplx R) :=
  tab n (fun y => b.getD (y * h + x) ⟨0, 0⟩)

/-- A spectrum buffer after a column pass with the primitive `T`: column `x` holds the
transform of column `x`. -/
def colTransform [Zero R] (T : Nat → List (Cplx R) → List (Cplx R)) (n h : Nat)
    (b : List (Cplx R)) : List (Cplx R) :=
  tab (n * h) (fun i => (T n (column n h b (i % h))).getD (i / h) ⟨0, 0⟩)

/-- The working spectrum after `freqBuf[i] *= kernelFreq[i]` for every `i`. -/
def pointwise [Field R] (fb kf : List (Cplx R)) : List (Cplx R) :=
  tab fb.length (fun i => fb.getD i ⟨0, 0⟩ * kf.getD i ⟨0, 0⟩)

/-- Row `y` of a spectrum buffer with rows of length `h`: the slice `b[y*h:(y+1)*h]`. -/
def rowOf [Zero R] (h : Nat) (b : List (Cplx R)) (y : Nat) : List (Cplx R) :=
  tab h (fun i => b.getD (y * h + i) ⟨0, 0⟩)

/-- The grid written by the inverse row pass from the spectrum `fb`: cell `i` is the
threshold of entry `i % n` of the real inverse transform of row `i / n`, times `normInv`. -/
def thresholdGrid [LinearOrderedField R] (F : Fourier R) (n : Nat) (ni : R)
    (fb : List (Cplx R)) : Grid :=
  tab (n * n) (fun i =>
    ruleFFT ((F.realSequence n (rowOf (n / 2 + 1) fb (i / n))).getD (i % n) 0 * ni))

/-- The working spectrum of `stepFFT` just before the inverse row pass, as a function of the
grid and the kernel spectrum alone. -/
def convSpectrum [Field R] (F : Fourier R) (n : Nat) (kf : List (Cplx R)) (cur : Grid) :
    List (Cplx R) :=
  colTransform F.cmplxSequence n (n / 2 + 1)
    (pointwise (colTransform F.cmplxCoefficients n (n / 2 + 1) (rowSpectrum F n cur)) kf)

/-- The kernel spectrum after the row pass of `initFFT` over the spatial kernel `kr`. -/
def kernelRowSpectrum [Field R] (F : Fourier R) (n : Nat) (kr : List R) : List (Cplx R) :=
  tab (n * (n / 2 + 1)) (fun i =>
    (F.realCoefficients n (tab n (fun j => kr.getD (i / (n / 2 + 1) * n + j) 0))).getD
      (i % (n / 2 + 1)) 0)

/-- The kernel spectrum `initFFT` caches for size `n`. -/
def kernelSpectrum [Field R] (F : Fourier R) (n : Nat) : List (Cplx R) :=
  colTransform F.cmplxCoefficients n (n / 2 + 1)
    (kernelRowSpectrum F n ((kernelReal (R := R) (n : Int)).getD []))

/-- The 4 × 4 grid with exactly the cells `(1,0)`, `(1,1)`, `(1,2)` alive (index `y*4 + x`). -/
def blinker4 : Grid :=
  [false, true, false, false, false, true, false, false,
   false, true, false, false, false, false, false, false]

/-- The 4 × 4 grid with exactly the cells `(0,1)`, `(1,1)`, `(2,1)` alive. -/
def blinkerNext4 : Grid :=
  [false, false, false, false, true, true, true, false,
   false, false, false, false, false, false, false, false]

/-- The number `-i = exp(-2πi/4)`, over the rationals. -/
def minusI : Cplx ℚ := ⟨0, -1⟩

/-- The number `-1 = exp(-2πi/2)`, over the rationals. -/
def minusOne : Cplx ℚ := ⟨-1, 0⟩

/-- The run `initFFT(); stepFFT(current, next)` of the FFT program for grid size `size`, with
the library's transforms read as the exact DFT for the root of unity `w`. -/
def runFFT {R : Type} [LinearOrderedField R] (w : Cplx R) (size : Int) (current next : Grid) :
    Run (FFTMem R) :=
  (initFFT (exactDFT w) (startMem size current next)).andThen (stepFFT (exactDFT w))

/-- Circular convolution as the specification words it: the sum over all `(u, v)` in `[0,n)²` of
`kr[v*n+u] * g((x-u) mod n, (y-v) mod n)`, a live cell counting `1`. -/
def circularSum {R : Type} [Field R] (n : Nat) (kr : List R) (g : Grid) (x y : Nat) : R :=
  ∑ v in Finset.range n, ∑ u in Finset.range n,
    kr.getD (v * n + u) 0 * (if cell n g ((x + n - u) % n) ((y + n - v) % n) then 1 else 0)

/-- The weight the kernel field of `initFFT` holds at `(u, v)` when no two wrapped offsets
coincide: `1` at the origin, `2` at the eight cells around it on the torus, `0` elsewhere. -/
def kernelWeight [Field R] (n u v : Nat) : R :=
  if u = 0 ∧ v = 0 then 1
  else if (u = 0 ∨ u = 1 ∨ u = n - 1) ∧ (v = 0 ∨ v = 1 ∨ v = n - 1) then 2
  else 0

/-- What the exact reading of the transforms of length `n` needs of the number `w` standing for
`exp(-2πi/n)`: it is an `n`-th root of unity of modulus one whose powers sum to zero. -/
structure ExactRoot [CommRing R] (w : Cplx R) (n : Nat) : Prop where
  pow_n : w ^ n = 1
  conj_mul : Cplx.conj w * w = 1
  orth : ∀ k, 0 < k → k < n → ∑ j in Finset.range n, w ^ (j * k) = 0

/-- Row transform of a real field `s`: `Σ_x s(x, y) w^(x k)`. -/
def rowDFT [CommRing R] (w : Cplx R) (n : Nat) (s : Nat → Nat → R) (y k : Nat) : Cplx R :=
  ∑ x in Finset.range n, Cplx.ofReal (s x y) * w ^ (x * k)

/-- Two-dimensional transform of a real field `s`: `Σ_y Σ_x s(x, y) w^(x k) w^(y l)`. -/
def planeDFT [CommRing R] (w : Cplx R) (n : Nat) (s : Nat → Nat → R) (k l : Nat) : Cplx R :=
  ∑ y in Finset.range n, rowDFT w n s y k * w ^ (y * l)

/-- Circular convolution of a kernel field `a` with a field `c` on the `n × n` torus. -/
def circ [CommRing R] (n : Nat) (a c : Nat → Nat → R) (x y : Nat) : R :=
  ∑ v in Finset.range n, ∑ u in Finset.range n, a u v * c ((x + n - u) % n) ((y + n - v) % n)

/-- The grid as a real field: `1` at a live cell, `0` at a dead one. -/
def gridField [Field R] (n : Nat) (cur : Grid) (x y : Nat) : R :=
  if cell n cur x y then 1 else 0

/-- A flat `n × n` list as a field: entry `v*n + u` at `(u, v)`. -/
def listField [Field R] (n : Nat) (kr : List R) (u v : Nat) : R := kr.getD (v * n + u) 0

/-- A complex number of Mathlib as a `Cplx ℝ`. -/
def ofComplex (z : ℂ) : Cplx ℝ := ⟨z.re, z.im⟩

/-- The coordinate `(x + a) mod n` as a natural number. -/
def shiftN (n x : Nat) (a : Int) : Nat := (((x : Int) + a) % n).toNat

/-- Modelled from the spec: the grid translated by `(a, b)` on the `n × n` torus; cell `(x, y)`
of the result is cell `((x + a) mod n, (y + b) mod n)` of `g`. -/
def shiftGrid (n : Nat) (a b : Int) (g : Grid) : Grid :=
  tab (n * n) (fun i => cell n g (shiftN n (i % n) a) (shiftN n (i / n) b))

/-- The part of the memory that the forward row pass of `stepFFT` leaves alone: the
configuration and the two grids of `m'` are those of `m`. -/
def sameFrame (m m' : FFTMem R) : Prop :=
  m'.size = m.size ∧ m'.fftN = m.fftN ∧ m'.current = m.current ∧ m'.next = m.next

/-- The run `size = n0; initFFT(); size = n1; stepFFT(current, next)`: the kernel spectrum is
cached for the dimension `n0` and the step runs with the grid dimension `n1`. -/
def runFFTResized {R : Type} [LinearOrderedField R] (w : Cplx R) (n0 n1 : Int)
    (current next : Grid) : Run (FFTMem R) :=
  (initFFT (exactDFT w) (startMem n0 current next)).andThen
    (fun m => stepFFT (exactDFT w) { m with size := n1 })

/-! # Theorems -/

/-! ## Loops that run to their end -/

theorem loopFrom_done {σ : Type} (body : Int → σ → Run σ) (k : Nat) :
    ∀ (i : Int) (st : Nat → σ),
      (∀ j, j < k → body (i + j) (st j) = .done (st (j + 1))) →
      loopFrom body k i (st 0) = .done (st k) := by
  induction k with
  | zero => intro i st _; rfl
  | succ k ih =>
    intro i st h
    have h0 := h 0 (Nat.succ_pos k)
    simp only [Nat.cast_zero, add_zero, zero_add] at h0
    rw [loopFrom, h0]
    have := ih (i + 1) (fun j => st (j + 1)) (fun j hj => by
      have := h (j + 1) (Nat.succ_lt_succ hj)
      have e : i + ((j + 1 : Nat) : Int) = i + 1 + (j : Int) := by push_cast; ring
      rw [e] at this
      exact this)
    simpa using this

theorem forRange_done {σ : Type} (body : Int → σ → Run σ) (n : Nat) (st : Nat → σ)
    (h : ∀ j, j < n → body (j : Int) (st j) = .done (st (j + 1))) :
    forRange (n : Int) body (st 0) = .done (st n) := by
  unfold forRange
  rw [Int.toNat_natCast]
  exact loopFrom_done body n 0 st (fun j hj => by simpa using h j hj)

/-! ## Reading and writing in range -/

theorem flat_lt {n x y : Nat} (hx : x < n) (hy : y < n) : y * n + x < n * n := by
  calc y * n + x < y * n + n := by omega
    _ = (y + 1) * n := by ring
    _ ≤ n * n := Nat.mul_le_mul_right n hy

theorem get_inrange_of_le {n : Nat} {g : Grid} {x y : Nat} (hx : x < n) (hy : y < n)
    (hg : n * n ≤ g.length) :
    Grid.get (n : Int) g (x : Int) (y : Int) = some (cell n g x y) := by
  have hlt := flat_lt hx hy
  have hcast : (y : Int) * n + x = ((y * n + x : Nat) : Int) := by push_cast; ring
  unfold Grid.get index cell
  rw [hcast, Int.toNat_natCast, if_pos]
  · rw [List.getD_eq_getElem?_getD, List.getElem?_eq_getElem (by omega)]; rfl
  · constructor
    · exact Int.natCast_nonneg _
    · exact_mod_cast lt_of_lt_of_le hlt hg

theorem get_inrange {n : Nat} {g : Grid} {x y : Nat} (hx : x < n) (hy : y < n)
    (hg : g.length = n * n) :
    Grid.get (n : Int) g (x : Int) (y : Int) = some (cell n g x y) :=
  get_inrange_of_le hx hy (le_of_eq hg.symm)

theorem set_inrange {n : Nat} {g : Grid} {x y : Nat} (hx : x < n) (hy : y < n)
    (hg : g.length = n * n) (v : Bool) :
    Grid.set (n : Int) g (x : Int) (y : Int) v = some (List.set g (y * n + x) v) := by
  have hlt := flat_lt hx hy
  have hcast : (y : Int) * n + x = ((y * n + x : Nat) : Int) := by push_cast; ring
  unfold Grid.set assign
  rw [hcast, Int.toNat_natCast, if_pos]
  constructor
  · exact Int.natCast_nonneg _
  · rw [hg]; exact_mod_cast hlt

theorem wrapN_lt {n x : Nat} (hn : 0 < n) (d : Int) : wrapN n x d < n := by
  unfold wrapN
  have h1 : 0 ≤ ((x : Int) + d + n) % n := Int.emod_nonneg _ (by omega)
  have h2 : ((x : Int) + d + n) % n < n := Int.emod_lt_of_pos _ (by omega)
  omega

theorem goMod_wrap {n x : Nat} (hn : 0 < n) {d : Int} (hd : -1 ≤ d) :
    goMod ((x : Int) + d + n) n = (wrapN n x d : Int) := by
  unfold goMod wrapN
  have h0 : 0 ≤ (x : Int) + d + n := by omega
  rw [Int.tmod_eq_emod h0 (by omega)]
  have h1 : 0 ≤ ((x : Int) + d + n) % n := Int.emod_nonneg _ (by omega)
  omega

theorem get_wrap_of_le {n : Nat} {g : Grid} {x y : Nat} (hn : 0 < n) (hg : n * n ≤ g.length)
    {d e : Int} (hd : -1 ≤ d) (he : -1 ≤ e) :
    Grid.get (n : Int) g (goMod ((x : Int) + d + n) n) (goMod ((y : Int) + e + n) n)
      = some (cell n g (wrapN n x d) (wrapN n y e)) := by
  rw [goMod_wrap hn hd, goMod_wrap hn he]
  exact get_inrange_of_le (wrapN_lt hn d) (wrapN_lt hn e) hg

theorem get_wrap {n : Nat} {g : Grid} {x y : Nat} (hn : 0 < n) (hg : g.length = n * n)
    {d e : Int} (hd : -1 ≤ d) (he : -1 ≤ e) :
    Grid.get (n : Int) g (goMod ((x : Int) + d + n) n) (goMod ((y : Int) + e + n) n)
      = some (cell n g (wrapN n x d) (wrapN n y e)) :=
  get_wrap_of_le hn (le_of_eq hg.symm) hd he

/-! ## The integer steppers in closed form -/

theorem wrapN_zero {n x : Nat} (hx : x < n) : wrapN n x 0 = x := by
  unfold wrapN
  have : ((x : Int) + 0 + n) % n = x := by
    rw [add_zero, Int.add_emod_self]
    exact Int.emod_eq_of_lt (by omega) (by omega)
  rw [this]; simp

theorem ite_add_b2i (b : Bool) (c w : Int) :
    (if b = true then c + w else c) = c + w * b2i b := by
  cases b <;> simp [b2i]

theorem countNeighbours_eq_of_le {n : Nat} {g : Grid} {x y : Nat} (hn : 0 < n)
    (hg : n * n ≤ g.length) :
    countNeighbours (n : Int) g (x : Int) (y : Int) = some (liveCount n g x y) := by
  simp only [countNeighbours, offsets, List.foldlM_cons, List.foldlM_nil,
    get_wrap_of_le hn hg (d := -1) (e := -1) (by decide) (by decide),
    get_wrap_of_le hn hg (d := 0) (e := -1) (by decide) (by decide),
    get_wrap_of_le hn hg (d := 1) (e := -1) (by decide) (by decide),
    get_wrap_of_le hn hg (d := -1) (e := 0) (by decide) (by decide),
    get_wrap_of_le hn hg (d := 1) (e := 0) (by decide) (by decide),
    get_wrap_of_le hn hg (d := -1) (e := 1) (by decide) (by decide),
    get_wrap_of_le hn hg (d := 0) (e := 1) (by decide) (by decide),
    get_wrap_of_le hn hg (d := 1) (e := 1) (by decide) (by decide)]
  simp only [bind, Option.bind, ite_add_b2i]
  simp [liveCount]

theorem countNeighbours_eq {n : Nat} {g : Grid} {x y : Nat} (hn : 0 < n)
    (hg : g.length = n * n) :
    countNeighbours (n : Int) g (x : Int) (y : Int) = some (liveCount n g x y) :=
  countNeighbours_eq_of_le hn (le_of_eq hg.symm)

theorem kernelSum_eq_of_le {n : Nat} {g : Grid} {x y : Nat} (hn : 0 < n) (hx : x < n) (hy : y < n)
    (hg : n * n ≤ g.length) :
    kernelSum (n : Int) g (x : Int) (y : Int)
      = some (2 * liveCount n g x y + b2i (cell n g x y)) := by
  simp only [kernelSum, offsets, List.foldlM_cons, List.foldlM_nil,
    get_wrap_of_le hn hg (d := -1) (e := -1) (by decide) (by decide),
    get_wrap_of_le hn hg (d := 0) (e := -1) (by decide) (by decide),
    get_wrap_of_le hn hg (d := 1) (e := -1) (by decide) (by decide),
    get_wrap_of_le hn hg (d := -1) (e := 0) (by decide) (by decide),
    get_wrap_of_le hn hg (d := 0) (e := 0) (by decide) (by decide),
    get_wrap_of_le hn hg (d := 1) (e := 0) (by decide) (by decide),
    get_wrap_of_le hn hg (d := -1) (e := 1) (by decide) (by decide),
    get_wrap_of_le hn hg (d := 0) (e := 1) (by decide) (by decide),
    get_wrap_of_le hn hg (d := 1) (e := 1) (by decide) (by decide)]
  simp only [bind, Option.bind, ite_add_b2i, pure]
  have k00 : kernelAt (-1 + 1) (-1 + 1) = 2 := by decide
  have k01 : kernelAt (-1 + 1) (0 + 1) = 2 := by decide
  have k02 : kernelAt (-1 + 1) (1 + 1) = 2 := by decide
  have k10 : kernelAt (0 + 1) (-1 + 1) = 2 := by decide
  have k11 : kernelAt (0 + 1) (0 + 1) = 1 := by decide
  have k12 : kernelAt (0 + 1) (1 + 1) = 2 := by decide
  have k20 : kernelAt (1 + 1) (-1 + 1) = 2 := by decide
  have k21 : kernelAt (1 + 1) (0 + 1) = 2 := by decide
  have k22 : kernelAt (1 + 1) (1 + 1) = 2 := by decide
  rw [k00, k01, k02, k10, k11, k12, k20, k21, k22, wrapN_zero hx, wrapN_zero hy]
  simp only [liveCount, wrapN_zero hx, wrapN_zero hy, Option.some.injEq]
  ring

theorem kernelSum_eq {n : Nat} {g : Grid} {x y : Nat} (hn : 0 < n) (hx : x < n) (hy : y < n)
    (hg : g.length = n * n) :
    kernelSum (n : Int) g (x : Int) (y : Int)
      = some (2 * liveCount n g x y + b2i (cell n g x y)) :=
  kernelSum_eq_of_le hn hx hy (le_of_eq hg.symm)

theorem filled_zero (f : Nat → Bool) (next : Grid) : filled f 0 next = next := by
  simp [filled]

theorem filled_all (f : Nat → Bool) (next : Grid) :
    filled f next.length next = (List.range next.length).map f := by
  simp [filled]

theorem filled_length (f : Nat → Bool) {m : Nat} {next : Grid} (h : m ≤ next.length) :
    (filled f m next).length = next.length := by
  simp [filled]; omega

theorem filled_set (f : Nat → Bool) (m : Nat) (next : Grid) (h : m < next.length) :
    List.set (filled f m next) m (f m) = filled f (m + 1) next := by
  unfold filled
  have hd : List.drop m next = next[m] :: List.drop (m + 1) next :=
    List.drop_eq_getElem_cons h
  rw [List.set_append_right _ _ (by simp)]
  simp only [List.length_map, List.length_range, Nat.sub_self, List.range_succ, List.map_append,
    List.map_cons, List.map_nil, List.append_assoc, List.singleton_append]
  rw [hd]; rfl

theorem cells_done (n : Nat) (cur : Grid) (body : Int → Int → Bufs → Run Bufs)
    (f : Nat → Nat → Bool)
    (hbody : ∀ x y nx, x < n → y < n → nx.length = n * n →
      body (y : Int) (x : Int) ⟨cur, nx⟩ = .done ⟨cur, List.set nx (y * n + x) (f x y)⟩)
    (next : Grid) (hnext : next.length = n * n) :
    forRange (n : Int) (fun y => forRange (n : Int) (fun x => body y x)) ⟨cur, next⟩
      = .done ⟨cur, (List.range (n * n)).map (fun i => f (i % n) (i / n))⟩ := by
  have key := forRange_done (fun y => forRange (n : Int) (fun x => body y x)) n
    (fun y => (⟨cur, filled (fun i => f (i % n) (i / n)) (y * n) next⟩ : Bufs)) (by
      intro y hy
      have inner := forRange_done (fun x => body (y : Int) x) n
        (fun x => (⟨cur, filled (fun i => f (i % n) (i / n)) (y * n + x) next⟩ : Bufs)) (by
          intro x hx
          have hlt := flat_lt hx hy
          have hn : 0 < n := by omega
          show body (y : Int) (x : Int) _ = _
          rw [hbody x y _ hx hy (by rw [filled_length _ (by omega)]; exact hnext)]
          have e1 : (y * n + x) % n = x := by
            rw [Nat.add_comm, Nat.add_mul_mod_self_right]; exact Nat.mod_eq_of_lt hx
          have e2 : (y * n + x) / n = y := by
            rw [Nat.add_comm, Nat.add_mul_div_right _ _ hn, Nat.div_eq_of_lt hx]; simp
          have := filled_set (fun i => f (i % n) (i / n)) (y * n + x) next (by omega)
          simp only [e1, e2] at this
          rw [this]; rfl)
      simp only [Nat.add_zero] at inner
      show forRange (n : Int) (fun x => body (y : Int) x) _ = _
      rw [inner]
      congr 2
      ring_nf)
  simp only [Nat.zero_mul, filled_zero] at key
  rw [key, ← hnext, filled_all]

theorem stepTraditional_eq_of_le {n : Nat} (hn : 0 < n) {cur next : Grid}
    (hcur : n * n ≤ cur.length) (hnext : next.length = n * n) :
    stepTraditional (n : Int) ⟨cur, next⟩ = .done ⟨cur, (List.range (n * n)).map
      (fun i => ruleTraditional (cell n cur (i % n) (i / n)) (liveCount n cur (i % n) (i / n)))⟩ := by
  unfold stepTraditional
  apply cells_done n cur (cellTraditional (n : Int))
    (fun x y => ruleTraditional (cell n cur x y) (liveCount n cur x y)) _ next hnext
  intro x y nx hx hy hnx
  simp only [cellTraditional, countNeighbours_eq_of_le hn hcur, get_inrange_of_le hx hy hcur,
    set_inrange hx hy hnx]

theorem stepTraditional_eq {n : Nat} (hn : 0 < n) {cur next : Grid}
    (hcur : cur.length = n * n) (hnext : next.length = n * n) :
    stepTraditional (n : Int) ⟨cur, next⟩ = .done ⟨cur, (List.range (n * n)).map
      (fun i => ruleTraditional (cell n cur (i % n) (i / n)) (liveCount n cur (i % n) (i / n)))⟩ :=
  stepTraditional_eq_of_le hn (le_of_eq hcur.symm) hnext

theorem stepConvolution_eq_of_le {n : Nat} (hn : 0 < n) {cur next : Grid}
    (hcur : n * n ≤ cur.length) (hnext : next.length = n * n) :
    stepConvolution (n : Int) ⟨cur, next⟩ = .done ⟨cur, (List.range (n * n)).map
      (fun i => ruleConvolution
        (2 * liveCount n cur (i % n) (i / n) + b2i (cell n cur (i % n) (i / n))))⟩ := by
  unfold stepConvolution
  apply cells_done n cur (cellConvolution (n : Int))
    (fun x y => ruleConvolution (2 * liveCount n cur x y + b2i (cell n cur x y))) _ next hnext
  intro x y nx hx hy hnx
  simp only [cellConvolution, kernelSum_eq_of_le hn hx hy hcur, set_inrange hx hy hnx]

theorem stepConvolution_eq {n : Nat} (hn : 0 < n) {cur next : Grid}
    (hcur : cur.length = n * n) (hnext : next.length = n * n) :
    stepConvolution (n : Int) ⟨cur, next⟩ = .done ⟨cur, (List.range (n * n)).map
      (fun i => ruleConvolution
        (2 * liveCount n cur (i % n) (i / n) + b2i (cell n cur (i % n) (i / n))))⟩ :=
  stepConvolution_eq_of_le hn (le_of_eq hcur.symm) hnext

theorem rule_agree (nc : Int) (c : Bool) :
    ruleConvolution (2 * nc + b2i c) = ruleTraditional c nc := by
  unfold ruleConvolution ruleTraditional b2i
  cases c
  · simp only [Bool.false_eq_true, if_false]
    rw [Bool.eq_iff_iff]
    simp only [Bool.and_eq_true, decide_eq_true_eq, beq_iff_eq]
    omega
  · simp only [if_true]
    rw [Bool.eq_iff_iff]
    simp only [Bool.and_eq_true, Bool.or_eq_true, decide_eq_true_eq, beq_iff_eq]
    omega

/-- A size `N ≥ 1` with grids of length `N * N` is a natural number. -/
theorem size_nat {N : Int} (hN : 1 ≤ N) {g : Grid} (hg : (g.length : Int) = N * N) :
    ∃ n : Nat, 0 < n ∧ N = (n : Int) ∧ g.length = n * n := by
  refine ⟨N.toNat, by omega, by omega, ?_⟩
  have h : N = (N.toNat : Int) := by omega
  rw [h] at hg
  exact_mod_cast hg

/-- C3: kernel rule invariant. For every neighbour count `nc` in `0..8` and current-state bit
`c`, with `sum = 2*nc + c`, the band test `5 ≤ sum ≤ 7` of `stepConvolution` holds exactly when
the Life rule of `stepTraditional` holds (`nc = 2 ∨ nc = 3` for a live cell, `nc = 3` for a
dead one); the weights are the kernel's: centre `1`, the eight others `2`. -/
theorem kernel_rule_invariant (nc : Int) (c : Bool) (h0 : 0 ≤ nc) (h8 : nc ≤ 8) :
    ((5 ≤ 2 * nc + (if c then 1 else 0) ∧ 2 * nc + (if c then 1 else 0) ≤ 7)
        ↔ (if c then nc = 2 ∨ nc = 3 else nc = 3))
    ∧ (ruleConvolution (2 * nc + (if c then 1 else 0)) = true
        ↔ (5 ≤ 2 * nc + (if c then 1 else 0) ∧ 2 * nc + (if c then 1 else 0) ≤ 7))
    ∧ (ruleTraditional c nc = true ↔ (if c then nc = 2 ∨ nc = 3 else nc = 3))
    ∧ ruleConvolution (2 * nc + (if c then 1 else 0)) = ruleTraditional c nc
    ∧ kernelAt 1 1 = 1
    ∧ (∀ i j : Int, 0 ≤ i → i ≤ 2 → 0 ≤ j → j ≤ 2 → (i, j) ≠ (1, 1) → kernelAt i j = 2) := by
  refine ⟨?_, ?_, ?_, rule_agree nc c, by decide, ?_⟩
  · cases c <;> simp <;> omega
  · simp [ruleConvolution]
  · cases c <;> simp [ruleTraditional]
  · intro i j hi0 hi2 hj0 hj2 hne
    have hi : i = 0 ∨ i = 1 ∨ i = 2 := by omega
    have hj : j = 0 ∨ j = 1 ∨ j = 2 := by omega
    rcases hi with rfl | rfl | rfl <;> rcases hj with rfl | rfl | rfl <;>
      first | rfl | exact absurd rfl hne

theorem kernel_rule_invariant_witness :
    ((5 ≤ 2 * (3 : Int) + (if true then 1 else 0) ∧ 2 * (3 : Int) + (if true then 1 else 0) ≤ 7)
        ↔ (if true then (3 : Int) = 2 ∨ (3 : Int) = 3 else (3 : Int) = 3))
    ∧ (ruleConvolution (2 * 3 + (if true then 1 else 0)) = true
        ↔ (5 ≤ 2 * (3 : Int) + (if true then 1 else 0) ∧ 2 * (3 : Int) + (if true then 1 else 0) ≤ 7))
    ∧ (ruleTraditional true 3 = true ↔ (if true then (3 : Int) = 2 ∨ (3 : Int) = 3 else (3 : Int) = 3))
    ∧ ruleConvolution (2 * 3 + (if true then 1 else 0)) = ruleTraditional true 3
    ∧ kernelAt 1 1 = 1
    ∧ (∀ i j : Int, 0 ≤ i → i ≤ 2 → 0 ≤ j → j ≤ 2 → (i, j) ≠ (1, 1) → kernelAt i j = 2) :=
  kernel_rule_invariant 3 true (by decide) (by decide)

/-- C2: for every size `N ≥ 1` and every grid of length `N*N` (with a `next` buffer of the
same length), `stepConvolution` and `stepTraditional` both run to their end and leave exactly the
same memory: the same `next`, the same untouched `current`.  `N = 1` and `N = 2` are
included. -/
theorem stepConvolution_eq_stepTraditional (N : Int) (hN : 1 ≤ N) (cur next : Grid)
    (hcur : (cur.length : Int) = N * N) (hnext : (next.length : Int) = N * N) :
    stepConvolution N ⟨cur, next⟩ = stepTraditional N ⟨cur, next⟩
      ∧ (stepTraditional N ⟨cur, next⟩).finished = true := by
  obtain ⟨n, hn, rfl, hc⟩ := size_nat hN hcur
  have hx : next.length = n * n := by exact_mod_cast hnext
  rw [stepConvolution_eq hn hc hx, stepTraditional_eq hn hc hx]
  refine ⟨?_, rfl⟩
  congr 2
  apply List.map_congr_left
  intro i _
  exact rule_agree _ _

theorem stepConvolution_eq_stepTraditional_witness :
    (stepConvolution 2 ⟨[true, true, false, true], [false, false, false, false]⟩
        = stepTraditional 2 ⟨[true, true, false, true], [false, false, false, false]⟩
      ∧ (stepTraditional 2 ⟨[true, true, false, true],
          [false, false, false, false]⟩).finished = true) :=
  stepConvolution_eq_stepTraditional 2 (by decide) [true, true, false, true]
    [false, false, false, false] (by decide) (by decide)

/-! ## gridsEqual -/

theorem gridsEqualFrom_eq (a b : Grid) (hlen : a.length = b.length) (k : Nat) :
    ∀ i, i + k = a.length →
      gridsEqualFrom a b k i = some (decide (∀ j, i ≤ j → j < a.length → a[j]? = b[j]?)) := by
  induction k with
  | zero =>
    intro i hi
    simp only [gridsEqualFrom, Option.some.injEq]
    symm
    rw [decide_eq_true_eq]
    intro j h1 h2
    omega
  | succ k ih =>
    intro i hi
    have hia : i < a.length := by omega
    have hib : i < b.length := by omega
    rw [gridsEqualFrom, List.getElem?_eq_getElem hia, List.getElem?_eq_getElem hib]
    simp only
    by_cases hne : a[i] ≠ b[i]
    · rw [if_pos hne]
      simp only [Option.some.injEq]
      symm
      rw [decide_eq_false_iff_not]
      intro hall
      have := hall i (le_refl i) hia
      rw [List.getElem?_eq_getElem hia, List.getElem?_eq_getElem hib] at this
      exact hne (Option.some.inj this)
    · rw [if_neg hne, ih (i + 1) (by omega)]
      simp only [Option.some.injEq, decide_eq_decide]
      have heq : a[i] = b[i] := not_not.mp hne
      constructor
      · intro h j h1 h2
        by_cases hj : j = i
        · subst hj
          rw [List.getElem?_eq_getElem hia, List.getElem?_eq_getElem hib, heq]
        · exact h j (by omega) h2
      · intro h j h1 h2
        exact h j (by omega) h2

/-- C7: on grids of equal length `gridsEqual a b` returns, and returns `true` exactly when
`a[i] = b[i]` at every index `i`; on equal-length grids it is reflexive and symmetric. -/
theorem gridsEqual_iff (a b : Grid) (hlen : a.length = b.length) :
    (∃ r, gridsEqual a b = some r)
    ∧ (gridsEqual a b = some true ↔ ∀ i, i < a.length → a[i]? = b[i]?)
    ∧ (gridsEqual a b = some true ↔ a = b)
    ∧ gridsEqual a a = some true
    ∧ gridsEqual b a = gridsEqual a b := by
  have hab := gridsEqualFrom_eq a b hlen a.length 0 (by omega)
  have hba := gridsEqualFrom_eq b a hlen.symm b.length 0 (by omega)
  have haa := gridsEqualFrom_eq a a rfl a.length 0 (by omega)
  have hiff : gridsEqual a b = some true ↔ ∀ i, i < a.length → a[i]? = b[i]? := by
    unfold gridsEqual
    rw [hab]
    simp
  refine ⟨⟨_, hab⟩, hiff, ?_, ?_, ?_⟩
  · rw [hiff]
    constructor
    · intro h
      apply List.ext_getElem? 
      intro i
      by_cases hi : i < a.length
      · exact h i hi
      · rw [List.getElem?_eq_none (by omega), List.getElem?_eq_none (by omega)]
    · intro h i _
      rw [h]
  · unfold gridsEqual
    rw [haa]
    simp
  · unfold gridsEqual
    rw [hab, hba]
    simp only [Option.some.injEq, decide_eq_decide, Nat.zero_le, true_implies]
    constructor
    · intro h j hj
      exact (h j (by omega)).symm
    · intro h j hj
      exact (h j (by omega)).symm

theorem gridsEqual_iff_witness :
    (∃ r, gridsEqual [true, false, true] [true, true, true] = some r)
    ∧ (gridsEqual [true, false, true] [true, true, true] = some true
        ↔ ∀ i, i < [true, false, true].length →
            [true, false, true][i]? = [true, true, true][i]?)
    ∧ (gridsEqual [true, false, true] [true, true, true] = some true
        ↔ [true, false, true] = [true, true, true])
    ∧ gridsEqual [true, false, true] [true, false, true] = some true
    ∧ gridsEqual [true, true, true] [true, false, true]
        = gridsEqual [true, false, true] [true, true, true] :=
  gridsEqual_iff [true, false, true] [true, true, true] (by decide)

/-! ## Uniform grids and single live cells -/

theorem map_cells_const {n : Nat} (f : Nat → Nat → Bool) (b : Bool)
    (h : ∀ x y, x < n → y < n → f x y = b) :
    (List.range (n * n)).map (fun i => f (i % n) (i / n)) = List.replicate (n * n) b := by
  apply List.ext_getElem
  · simp
  · intro i h1 h2
    have hi : i < n * n := by simpa using h1
    have hn : 0 < n := by
      rcases Nat.eq_zero_or_pos n with h0 | h0
      · subst h0; simp at hi
      · exact h0
    simp only [List.getElem_map, List.getElem_range, List.getElem_replicate]
    exact h _ _ (Nat.mod_lt _ hn) (Nat.div_lt_of_lt_mul hi)

theorem cell_replicate {n : Nat} (b : Bool) {x y : Nat} (hx : x < n) (hy : y < n) :
    cell n (List.replicate (n * n) b) x y = b := by
  unfold cell
  rw [List.getD_eq_getElem?_getD, List.getElem?_eq_getElem (by simpa using flat_lt hx hy)]
  simp

theorem liveCount_replicate {n : Nat} (hn : 0 < n) (b : Bool) (x y : Nat) :
    liveCount n (List.replicate (n * n) b) x y = 8 * b2i b := by
  unfold liveCount
  simp only [cell_replicate b (wrapN_lt hn _) (wrapN_lt hn _)]
  ring

/-- C8: for every `N ≥ 1` (so also `N = 1` and `N = 2`), one step of `stepTraditional` and of
`stepConvolution` maps the all-false grid to the all-false grid and the all-true grid to the
all-false grid. -/
theorem step_uniform_dies (N : Int) (hN : 1 ≤ N) (b : Bool) (next : Grid)
    (hnext : (next.length : Int) = N * N) :
    stepTraditional N ⟨List.replicate (N * N).toNat b, next⟩
        = .done ⟨List.replicate (N * N).toNat b, List.replicate (N * N).toNat false⟩
    ∧ stepConvolution N ⟨List.replicate (N * N).toNat b, next⟩
        = .done ⟨List.replicate (N * N).toNat b, List.replicate (N * N).toNat false⟩ := by
  obtain ⟨n, hn, rfl, hx⟩ := size_nat hN hnext
  have e : ((n : Int) * n).toNat = n * n := by
    have : ((n : Int) * n) = ((n * n : Nat) : Int) := by push_cast; ring
    rw [this, Int.toNat_natCast]
  rw [e]
  have hc : (List.replicate (n * n) b).length = n * n := by simp
  rw [stepTraditional_eq hn hc hx, stepConvolution_eq hn hc hx]
  constructor
  · congr 2
    apply map_cells_const
      (fun x y => ruleTraditional (cell n (List.replicate (n * n) b) x y)
        (liveCount n (List.replicate (n * n) b) x y))
    intro x y hx hy
    simp only [cell_replicate b hx hy, liveCount_replicate hn]
    cases b <;> decide
  · congr 2
    apply map_cells_const
      (fun x y => ruleConvolution (2 * liveCount n (List.replicate (n * n) b) x y
        + b2i (cell n (List.replicate (n * n) b) x y)))
    intro x y hx hy
    simp only [cell_replicate b hx hy, liveCount_replicate hn]
    cases b <;> decide

theorem step_uniform_dies_witness :
    (stepTraditional 2 ⟨List.replicate ((2 : Int) * 2).toNat true, [true, false, true, false]⟩
        = .done ⟨List.replicate ((2 : Int) * 2).toNat true,
            List.replicate ((2 : Int) * 2).toNat false⟩
    ∧ stepConvolution 2 ⟨List.replicate ((2 : Int) * 2).toNat true, [true, false, true, false]⟩
        = .done ⟨List.replicate ((2 : Int) * 2).toNat true,
            List.replicate ((2 : Int) * 2).toNat false⟩) :=
  step_uniform_dies 2 (by decide) true [true, false, true, false] (by decide)

theorem count_true_zero (g : Grid) (h : g.count true = 0) : ∀ i, g.getD i false = false := by
  intro i
  rw [List.getD_eq_getElem?_getD]
  by_cases hi : i < g.length
  · rw [List.getElem?_eq_getElem hi]
    simp only [Option.getD_some]
    by_contra hne
    have ht : g[i] = true := by simpa using hne
    have hmem : true ∈ g := ht ▸ List.getElem_mem hi
    have := List.count_pos_iff.mpr hmem
    omega
  · rw [List.getElem?_eq_none (by omega)]; rfl

theorem count_true_one (g : Grid) (h : g.count true = 1) :
    ∃ p, p < g.length ∧ ∀ i, g.getD i false = decide (i = p) := by
  induction g with
  | nil => simp at h
  | cons b t ih =>
    cases b with
    | true =>
      have ht : t.count true = 0 := by simpa using h
      refine ⟨0, by simp, ?_⟩
      intro i
      cases i with
      | zero => simp
      | succ i => simpa using count_true_zero t ht i
    | false =>
      have ht : t.count true = 1 := by simpa using h
      obtain ⟨p, hp, hall⟩ := ih ht
      refine ⟨p + 1, by simpa using hp, ?_⟩
      intro i
      cases i with
      | zero => simp
      | succ i => simpa using hall i

theorem wrapN_neg {n x : Nat} (hx : x < n) :
    wrapN n x (-1) = if x = 0 then n - 1 else x - 1 := by
  unfold wrapN
  split
  · next h =>
    subst h
    have : ((0 : Nat) : Int) + -1 + n = (n - 1 : Int) := by push_cast; ring
    rw [this, Int.emod_eq_of_lt (by omega) (by omega)]
    omega
  · next h =>
    have : (x : Int) + -1 + n = (x - 1 : Int) + n := by ring
    rw [this, Int.add_emod_self, Int.emod_eq_of_lt (by omega) (by omega)]
    omega

theorem wrapN_pos {n x : Nat} (hx : x < n) :
    wrapN n x 1 = if x + 1 = n then 0 else x + 1 := by
  unfold wrapN
  split
  · next h =>
    have : (x : Int) + 1 + n = 0 + n * 2 := by omega
    rw [this, Int.add_mul_emod_self_left]
    simp
  · next h =>
    rw [Int.add_emod_self, Int.emod_eq_of_lt (by omega) (by omega)]
    omega

theorem flat_inj {n x y px py : Nat} (hx : x < n) (hpx : px < n) :
    y * n + x = py * n + px ↔ x = px ∧ y = py := by
  constructor
  · intro h
    have h1 : (y * n + x) % n = (py * n + px) % n := by rw [h]
    have h2 : (y * n + x) / n = (py * n + px) / n := by rw [h]
    have hn : 0 < n := by omega
    rw [Nat.add_comm, Nat.add_mul_mod_self_right, Nat.mod_eq_of_lt hx,
      Nat.add_comm, Nat.add_mul_mod_self_right, Nat.mod_eq_of_lt hpx] at h1
    rw [Nat.add_comm, Nat.add_mul_div_right _ _ hn, Nat.div_eq_of_lt hx,
      Nat.add_comm (py * n), Nat.add_mul_div_right _ _ hn, Nat.div_eq_of_lt hpx] at h2
    exact ⟨h1, by omega⟩
  · rintro ⟨rfl, rfl⟩; rfl

theorem single_cell_rule {n : Nat} (hn : 0 < n) {g : Grid} (hg : g.length = n * n)
    (hone : g.count true = 1) {x y : Nat} (hx : x < n) (hy : y < n) :
    ruleTraditional (cell n g x y) (liveCount n g x y) = false := by
  obtain ⟨p, hp, hall⟩ := count_true_one g hone
  rw [hg] at hp
  have hpx : p % n < n := Nat.mod_lt _ hn
  have hpy : p / n < n := Nat.div_lt_of_lt_mul hp
  have hpe : p = (p / n) * n + p % n := by
    rw [Nat.mul_comm]; exact (Nat.div_add_mod p n).symm
  generalize p % n = px at hpx hpe
  generalize p / n = py at hpy hpe
  have hc : ∀ a b, a < n → b < n → cell n g a b = decide (a = px ∧ b = py) := by
    intro a b ha hb
    unfold cell
    rw [hall, hpe, decide_eq_decide]
    exact flat_inj ha hpx
  unfold liveCount
  rw [hc _ _ hx hy]
  simp only [hc _ _ (wrapN_lt hn _) (wrapN_lt hn _)]
  rw [wrapN_zero hx, wrapN_zero hy]
  have hmx := wrapN_neg (n := n) hx
  have hmy := wrapN_neg (n := n) hy
  have hqx := wrapN_pos (n := n) hx
  have hqy := wrapN_pos (n := n) hy
  generalize wrapN n x (-1) = mx at hmx ⊢
  generalize wrapN n y (-1) = my at hmy ⊢
  generalize wrapN n x 1 = qx at hqx ⊢
  generalize wrapN n y 1 = qy at hqy ⊢
  have hmx2 : (x = 0 ∧ mx + 1 = n) ∨ (x ≠ 0 ∧ mx + 1 = x) := by
    rw [hmx]; split <;> omega
  have hmy2 : (y = 0 ∧ my + 1 = n) ∨ (y ≠ 0 ∧ my + 1 = y) := by
    rw [hmy]; split <;> omega
  have hqx2 : (x + 1 = n ∧ qx = 0) ∨ (x + 1 ≠ n ∧ qx = x + 1) := by
    rw [hqx]; split <;> omega
  have hqy2 : (y + 1 = n ∧ qy = 0) ∨ (y + 1 ≠ n ∧ qy = y + 1) := by
    rw [hqy]; split <;> omega
  clear hmx hmy hqx hqy hc hall hpe hp hone hg
  simp only [Bool.decide_and]
  generalize ham : decide (mx = px) = am
  generalize ha0 : decide (x = px) = a0
  generalize haq : decide (qx = px) = aq
  generalize hbm : decide (my = py) = bm
  generalize hb0 : decide (y = py) = b0
  generalize hbq : decide (qy = py) = bq
  cases am <;> cases a0 <;> cases aq <;> cases bm <;> cases b0 <;> cases bq <;>
    first
    | decide
    | (exfalso
       simp only [decide_eq_true_eq, decide_eq_false_iff_not] at ham ha0 haq hbm hb0 hbq
       omega)

/-- C9: for every `N ≥ 1` and every grid of length `N*N` with exactly one live cell, one step
of `stepTraditional` and of `stepConvolution` runs to its end and leaves `next` entirely
dead. -/
theorem single_cell_dies (N : Int) (hN : 1 ≤ N) (g next : Grid)
    (hg : (g.length : Int) = N * N) (hnext : (next.length : Int) = N * N)
    (hone : g.count true = 1) :
    stepTraditional N ⟨g, next⟩ = .done ⟨g, List.replicate (N * N).toNat false⟩
    ∧ stepConvolution N ⟨g, next⟩ = .done ⟨g, List.replicate (N * N).toNat false⟩ := by
  obtain ⟨n, hn, rfl, hc⟩ := size_nat hN hg
  have hx : next.length = n * n := by exact_mod_cast hnext
  have e : ((n : Int) * n).toNat = n * n := by
    have : ((n : Int) * n) = ((n * n : Nat) : Int) := by push_cast; ring
    rw [this, Int.toNat_natCast]
  rw [e, stepTraditional_eq hn hc hx, stepConvolution_eq hn hc hx]
  constructor
  · congr 2
    apply map_cells_const (fun x y => ruleTraditional (cell n g x y) (liveCount n g x y))
    intro x y hx hy
    exact single_cell_rule hn hc hone hx hy
  · congr 2
    apply map_cells_const
      (fun x y => ruleConvolution (2 * liveCount n g x y + b2i (cell n g x y)))
    intro x y hx hy
    rw [rule_agree]
    exact single_cell_rule hn hc hone hx hy

theorem single_cell_dies_witness :
    (stepTraditional 4 ⟨singleCell4, newGrid 4⟩
        = .done ⟨singleCell4, List.replicate ((4 : Int) * 4).toNat false⟩
    ∧ stepConvolution 4 ⟨singleCell4, newGrid 4⟩
        = .done ⟨singleCell4, List.replicate ((4 : Int) * 4).toNat false⟩) :=
  single_cell_dies 4 (by decide) singleCell4 (newGrid 4) (by decide) (by decide) (by decide)

/-! ## The accessors do not wrap -/

theorem index_none_iff {α : Type} (g : List α) (i : Int) :
    index g i = none ↔ (i < 0 ∨ (g.length : Int) ≤ i) := by
  unfold index
  split
  · next h =>
    have : i.toNat < g.length := by omega
    rw [List.getElem?_eq_getElem this]
    simp only [reduceCtorEq, false_iff]
    omega
  · next h =>
    simp only [true_iff]
    omega

theorem assign_none_iff {α : Type} (g : List α) (i : Int) (v : α) :
    assign g i v = none ↔ (i < 0 ∨ (g.length : Int) ≤ i) := by
  unfold assign
  split
  · next h =>
    simp only [reduceCtorEq, false_iff]
    omega
  · next h =>
    simp only [true_iff]
    omega

@[simp]
theorem length_tab {α : Type} (len : Nat) (f : Nat → α) : (tab len f).length = len := by
  simp [tab]

theorem getElem_tab {α : Type} (len : Nat) (f : Nat → α) (i : Nat) (h : i < (tab len f).length) :
    (tab len f)[i] = f i := by
  simp [tab]

theorem getD_tab {α : Type} (len : Nat) (f : Nat → α) (i : Nat) (d : α) (h : i < len) :
    (tab len f).getD i d = f i := by
  rw [List.getD_eq_getElem?_getD, List.getElem?_eq_getElem (by simpa using h)]
  simp [tab]

theorem tab_congr {α : Type} (len : Nat) (f g : Nat → α) (h : ∀ i, i < len → f i = g i) :
    tab len f = tab len g := by
  apply List.map_congr_left
  intro i hi
  exact h i (List.mem_range.mp hi)

theorem eq_tab {α : Type} (buf : List α) (d : α) : buf = tab buf.length (fun i => buf.getD i d) := by
  apply List.ext_getElem
  · simp
  · intro i h1 h2
    rw [getElem_tab, List.getD_eq_getElem?_getD, List.getElem?_eq_getElem h1]
    rfl

theorem tab_set {α : Type} (len : Nat) (f : Nat → α) (i : Nat) (v : α) :
    List.set (tab len f) i v = tab len (fun j => if j = i then v else f j) := by
  apply List.ext_getElem
  · simp
  · intro j h1 h2
    rw [List.getElem_set, getElem_tab, getElem_tab]
    by_cases h : i = j
    · subst h; simp
    · rw [if_neg h, if_neg (fun e => h e.symm)]

theorem index_tab {α : Type} (len : Nat) (f : Nat → α) (i : Nat) (h : i < len) :
    index (tab len f) (i : Int) = some (f i) := by
  unfold index
  rw [if_pos ⟨Int.natCast_nonneg _, by simpa using h⟩, Int.toNat_natCast,
    List.getElem?_eq_getElem (by simpa using h), getElem_tab]

theorem index_inrange {α : Type} (buf : List α) (d : α) (i : Nat) (h : i < buf.length) :
    index buf (i : Int) = some (buf.getD i d) := by
  unfold index
  rw [if_pos ⟨Int.natCast_nonneg _, by exact_mod_cast h⟩, Int.toNat_natCast,
    List.getElem?_eq_getElem h, List.getD_eq_getElem?_getD, List.getElem?_eq_getElem h]
  rfl

theorem assign_inrange {α : Type} (buf : List α) (i : Nat) (v : α) (h : i < buf.length) :
    assign buf (i : Int) v = some (List.set buf i v) := by
  unfold assign
  rw [if_pos ⟨Int.natCast_nonneg _, by exact_mod_cast h⟩, Int.toNat_natCast]

theorem writeSlice_eq {α : Type} [Zero α] (buf : List α) (lo len : Nat) (vals : List α) :
    writeSlice buf lo len vals
      = tab buf.length (fun i =>
          if lo ≤ i ∧ i < lo + len then vals.getD (i - lo) 0 else buf.getD i 0) := by
  apply List.ext_getElem
  · simp [writeSlice]
  · intro i h1 h2
    have hi : i < buf.length := by simpa using h2
    rw [getElem_tab]
    simp only [writeSlice, List.getElem_zipWith, List.getElem_range]
    rw [List.getD_eq_getElem?_getD (l := buf), List.getElem?_eq_getElem hi]
    rfl

theorem slice_inrange {α : Type} (buf : List α) (d : α) (lo len : Nat)
    (h : lo + len ≤ buf.length) :
    slice buf (lo : Int) ((lo + len : Nat) : Int) = some (tab len (fun i => buf.getD (lo + i) d)) := by
  unfold slice
  rw [if_pos ⟨Int.natCast_nonneg _, by omega, by exact_mod_cast h⟩]
  congr 1
  have e : (((lo + len : Nat) : Int) - (lo : Int)).toNat = len := by omega
  rw [e, Int.toNat_natCast]
  apply List.ext_getElem
  · simp; omega
  · intro i h1 h2
    have hi : i < len := by simpa using h2
    rw [getElem_tab, List.getElem_take, List.getElem_drop, List.getD_eq_getElem?_getD,
      List.getElem?_eq_getElem (by omega)]
    rfl

theorem fill_step {α : Type} (f old : Nat → α) (x i : Nat) :
    (if i = x then f x else (if i < x then f i else old i))
      = if i < x + 1 then f i else old i := by
  by_cases h1 : i = x
  · subst h1; simp
  · by_cases h2 : i < x
    · rw [if_neg h1, if_pos h2, if_pos (by omega)]
    · rw [if_neg h1, if_neg h2, if_neg (by omega)]

theorem loadRow_done_of_le [Field R] {n : Nat} {y : Nat} (hy : y < n) (ni : R)
    (kf fb cb : List (Cplx R)) (rb : List R) (cur nx : Grid)
    (hrb : rb.length = n) (hcur : n * n ≤ cur.length) :
    forRange (n : Int) (fun x => loadCell (y : Int) x) (mem n ni kf fb cb rb cur nx)
      = .done (mem n ni kf fb cb (rowVals n cur y) cur nx) := by
  have key := forRange_done (fun x => loadCell (R := R) (y : Int) x) n
    (fun x => mem n ni kf fb cb
      (tab n (fun j => if j < x then (if cell n cur j y then (1 : R) else 0) else rb.getD j 0))
      cur nx) (by
      intro x hx
      simp only [loadCell, get_inrange_of_le hx hy hcur, FFTMem.setRealBuf]
      rw [assign_inrange _ _ _ (by simpa using hx), tab_set]
      simp only [Run.done.injEq]
      congr 1
      apply tab_congr
      intro i _
      exact fill_step (fun j => if cell n cur j y then (1 : R) else 0)
        (fun j => rb.getD j 0) x i)
  have e0 : tab n (fun j => if j < 0 then (if cell n cur j y then (1 : R) else 0)
      else rb.getD j 0) = rb := by
    conv_rhs => rw [eq_tab rb 0, hrb]
    apply tab_congr; intro i _; simp
  have e1 : tab n (fun j => if j < n then (if cell n cur j y then (1 : R) else 0)
      else rb.getD j 0) = rowVals n cur y := by
    apply tab_congr; intro i hi; simp [hi]
  simp only [e0, e1] at key
  exact key

theorem loadRow_done [Field R] {n : Nat} {y : Nat} (hy : y < n) (ni : R)
    (kf fb cb : List (Cplx R)) (rb : List R) (cur nx : Grid)
    (hrb : rb.length = n) (hcur : cur.length = n * n) :
    forRange (n : Int) (fun x => loadCell (y : Int) x) (mem n ni kf fb cb rb cur nx)
      = .done (mem n ni kf fb cb (rowVals n cur y) cur nx) :=
  loadRow_done_of_le hy ni kf fb cb rb cur nx hrb (le_of_eq hcur.symm)

theorem block_div_mod {h y i : Nat} (h1 : y * h ≤ i) (h2 : i < y * h + h) :
    i / h = y ∧ i % h = i - y * h := by
  have hh : 0 < h := by omega
  obtain ⟨r, rfl⟩ : ∃ r, i = y * h + r := ⟨i - y * h, by omega⟩
  have hr : r < h := by omega
  constructor
  · rw [Nat.add_comm, Nat.add_mul_div_right _ _ hh, Nat.div_eq_of_lt hr]; simp
  · rw [Nat.add_comm, Nat.add_mul_mod_self_right, Nat.mod_eq_of_lt hr]; omega

theorem tdiv_half (n : Nat) : Int.tdiv (n : Int) 2 + 1 = ((n / 2 + 1 : Nat) : Int) := by
  rw [Int.tdiv_eq_ediv (by omega) (by omega)]; omega

@[simp]
theorem spectrum_setSpectrum (m : FFTMem R) (which : Spectrum) (b : List (Cplx R)) :
    (m.setSpectrum which b).spectrum which = b := by
  cases which <;> rfl

theorem realCoefficientsCall_done [Field R] (F : Fourier R) (which : Spectrum) {n y : Nat}
    (hy : y < n) (seq : List R) (m : FFTMem R) (hplan : m.realFFT = (n : Int))
    (hlen : (m.spectrum which).length = n * (n / 2 + 1)) (hseq : seq.length = n) :
    realCoefficientsCall F which ((y : Int) * ((n / 2 + 1 : Nat) : Int))
        (((y : Int) + 1) * ((n / 2 + 1 : Nat) : Int)) seq m
      = .done (m.setSpectrum which (tab (n * (n / 2 + 1)) (fun i =>
          if y * (n / 2 + 1) ≤ i ∧ i < y * (n / 2 + 1) + (n / 2 + 1)
          then (F.realCoefficients n seq).getD (i - y * (n / 2 + 1)) 0
          else (m.spectrum which).getD i 0))) := by
  generalize hh : n / 2 + 1 = h at *
  have hlo : (y : Int) * (h : Int) = ((y * h : Nat) : Int) := by push_cast; ring
  have hhi : ((y : Int) + 1) * (h : Int) = ((y * h + h : Nat) : Int) := by push_cast; ring
  have hle : y * h + h ≤ n * h := by
    calc y * h + h = (y + 1) * h := by ring
      _ ≤ n * h := Nat.mul_le_mul_right h hy
  unfold realCoefficientsCall
  rw [hlo, hhi, hplan, hlen, hseq, tdiv_half, hh]
  rw [if_neg (by
    rw [not_not]
    exact ⟨Int.natCast_nonneg _, by omega, by exact_mod_cast hle⟩)]
  rw [if_neg (by simp), if_neg (by rw [not_not]; omega)]
  have e : (((y * h + h : Nat) : Int) - ((y * h : Nat) : Int)).toNat = h := by omega
  rw [e, Int.toNat_natCast, Int.toNat_natCast, writeSlice_eq, hlen]

@[simp]
theorem andThen_done {σ : Type} (s : σ) (f : σ → Run σ) :
    (Run.done s).andThen f = f s := rfl

@[simp]
theorem andThen_panic {σ : Type} (s : σ) (f : σ → Run σ) :
    (Run.panic s).andThen f = .panic s := rfl

theorem rowForward_done_of_le [Field R] (F : Fourier R) {n : Nat} (hn : 0 < n) (ni : R)
    (kf fb cb : List (Cplx R)) (rb : List R) (cur nx : Grid)
    (hfb : fb.length = n * (n / 2 + 1)) (hrb : rb.length = n) (hcur : n * n ≤ cur.length) :
    forRange (n : Int) (fun y => rowForwardBody F y) (mem n ni kf fb cb rb cur nx)
      = .done (mem n ni kf (rowSpectrum F n cur) cb (rowVals n cur (n - 1)) cur nx) := by
  have key := forRange_done (fun y => rowForwardBody F y) n
    (fun y => mem n ni kf
      (tab (n * (n / 2 + 1)) (fun i =>
        if i < y * (n / 2 + 1)
        then (F.realCoefficients n (rowVals n cur (i / (n / 2 + 1)))).getD (i % (n / 2 + 1)) 0
        else fb.getD i 0))
      cb (match y with | 0 => rb | y + 1 => rowVals n cur y) cur nx) (by
      intro y hy
      have hl : (match y with | 0 => rb | y + 1 => rowVals (R := R) n cur y).length = n := by
        cases y with
        | zero => exact hrb
        | succ y => simp [rowVals]
      simp only [rowForwardBody]
      rw [loadRow_done_of_le hy ni kf _ cb _ cur nx hl hcur, andThen_done]
      have := realCoefficientsCall_done F .freqBuf hy (rowVals n cur y)
        (mem n ni kf
          (tab (n * (n / 2 + 1)) (fun i =>
            if i < y * (n / 2 + 1)
            then (F.realCoefficients n (rowVals n cur (i / (n / 2 + 1)))).getD
              (i % (n / 2 + 1)) 0
            else fb.getD i 0))
          cb (rowVals n cur y) cur nx) rfl (by simp [FFTMem.spectrum]) (by simp [rowVals])
      rw [this]
      simp only [FFTMem.setSpectrum, FFTMem.spectrum, Run.done.injEq]
      congr 1
      apply tab_congr
      intro i hi
      rw [getD_tab _ _ _ _ hi]
      by_cases h1 : i < y * (n / 2 + 1)
      · rw [if_neg (by omega), if_pos h1, if_pos (by
          calc i < y * (n / 2 + 1) := h1
            _ ≤ (y + 1) * (n / 2 + 1) := Nat.mul_le_mul_right _ (by omega))]
      · by_cases h2 : i < y * (n / 2 + 1) + (n / 2 + 1)
        · obtain ⟨e1, e2⟩ := block_div_mod (Nat.le_of_not_lt h1) h2
          rw [if_pos ⟨Nat.le_of_not_lt h1, h2⟩, if_pos (by
            have : (y + 1) * (n / 2 + 1) = y * (n / 2 + 1) + (n / 2 + 1) := by ring
            omega), e1, e2]
        · rw [if_neg (by omega), if_neg h1, if_neg (by
            have : (y + 1) * (n / 2 + 1) = y * (n / 2 + 1) + (n / 2 + 1) := by ring
            omega)])
  have e0 : tab (n * (n / 2 + 1)) (fun i =>
        if i < 0 * (n / 2 + 1)
        then (F.realCoefficients n (rowVals n cur (i / (n / 2 + 1)))).getD (i % (n / 2 + 1)) 0
        else fb.getD i 0) = fb := by
    conv_rhs => rw [eq_tab fb 0, hfb]
    apply tab_congr; intro i _; simp
  have e1 : tab (n * (n / 2 + 1)) (fun i =>
        if i < n * (n / 2 + 1)
        then (F.realCoefficients n (rowVals n cur (i / (n / 2 + 1)))).getD (i % (n / 2 + 1)) 0
        else fb.getD i 0) = rowSpectrum F n cur := by
    apply tab_congr; intro i hi; simp [hi]
  obtain ⟨k, rfl⟩ : ∃ k, n = k + 1 := ⟨n - 1, by omega⟩
  simp only [e0, e1] at key
  exact key

theorem rowForward_done [Field R] (F : Fourier R) {n : Nat} (hn : 0 < n) (ni : R)
    (kf fb cb : List (Cplx R)) (rb : List R) (cur nx : Grid)
    (hfb : fb.length = n * (n / 2 + 1)) (hrb : rb.length = n) (hcur : cur.length = n * n) :
    forRange (n : Int) (fun y => rowForwardBody F y) (mem n ni kf fb cb rb cur nx)
      = .done (mem n ni kf (rowSpectrum F n cur) cb (rowVals n cur (n - 1)) cur nx) :=
  rowForward_done_of_le F hn ni kf fb cb rb cur nx hfb hrb (le_of_eq hcur.symm)

@[simp]
theorem setSpectrum_fftN (m : FFTMem R) (w : Spectrum) (b : List (Cplx R)) :
    (m.setSpectrum w b).fftN = m.fftN := by cases w <;> rfl
@[simp]
theorem setSpectrum_halfC (m : FFTMem R) (w : Spectrum) (b : List (Cplx R)) :
    (m.setSpectrum w b).halfC = m.halfC := by cases w <;> rfl
@[simp]
theorem setSpectrum_cmplxFFT (m : FFTMem R) (w : Spectrum) (b : List (Cplx R)) :
    (m.setSpectrum w b).cmplxFFT = m.cmplxFFT := by cases w <;> rfl
@[simp]
theorem setSpectrum_colBuf (m : FFTMem R) (w : Spectrum) (b : List (Cplx R)) :
    (m.setSpectrum w b).colBuf = m.colBuf := by cases w <;> rfl
@[simp]
theorem setSpectrum_setSpectrum (m : FFTMem R) (w : Spectrum) (b c : List (Cplx R)) :
    (m.setSpectrum w b).setSpectrum w c = m.setSpectrum w c := by cases w <;> rfl
@[simp]
theorem setColBuf_fftN (m : FFTMem R) (c : List (Cplx R)) :
    (m.setColBuf c).fftN = m.fftN := rfl
@[simp]
theorem setColBuf_halfC (m : FFTMem R) (c : List (Cplx R)) :
    (m.setColBuf c).halfC = m.halfC := rfl
@[simp]
theorem setColBuf_cmplxFFT (m : FFTMem R) (c : List (Cplx R)) :
    (m.setColBuf c).cmplxFFT = m.cmplxFFT := rfl
@[simp]
theorem setColBuf_colBuf (m : FFTMem R) (c : List (Cplx R)) :
    (m.setColBuf c).colBuf = c := rfl
@[simp]
theorem setColBuf_setColBuf (m : FFTMem R) (c d : List (Cplx R)) :
    (m.setColBuf c).setColBuf d = m.setColBuf d := rfl
@[simp]
theorem spectrum_setColBuf (m : FFTMem R) (w : Spectrum) (c : List (Cplx R)) :
    (m.setColBuf c).spectrum w = m.spectrum w := by cases w <;> rfl
theorem setSpectrum_self (m : FFTMem R) (w : Spectrum) :
    m.setSpectrum w (m.spectrum w) = m := by cases w <;> rfl
theorem setColBuf_self (m : FFTMem R) : m.setColBuf m.colBuf = m := rfl
@[simp]
theorem setColBuf_setSpectrum (m : FFTMem R) (w : Spectrum) (b c : List (Cplx R)) :
    (m.setColBuf c).setSpectrum w b = (m.setSpectrum w b).setColBuf c := by
  cases w <;> rfl

theorem flat_lt2 {n h x y : Nat} (hx : x < h) (hy : y < n) : y * h + x < n * h := by
  calc y * h + x < y * h + h := by omega
    _ = (y + 1) * h := by ring
    _ ≤ n * h := Nat.mul_le_mul_right h hy

theorem flat_mod {h x y : Nat} (hx : x < h) : (y * h + x) % h = x := by
  rw [Nat.add_comm, Nat.add_mul_mod_self_right]; exact Nat.mod_eq_of_lt hx

theorem flat_div {h x y : Nat} (hx : x < h) : (y * h + x) / h = y := by
  rw [Nat.add_comm, Nat.add_mul_div_right _ _ (by omega), Nat.div_eq_of_lt hx]; simp

theorem gather_done [Field R] (w : Spectrum) {n h x : Nat} (hx : x < h) (m : FFTMem R)
    (hN : m.fftN = (n : Int)) (hH : m.halfC = (h : Int)) (hcb : m.colBuf.length = n)
    (hb : (m.spectrum w).length = n * h) :
    forRange m.fftN (fun y => gatherCell w (x : Int) y) m
      = .done (m.setColBuf (column n h (m.spectrum w) x)) := by
  rw [hN]
  have key := forRange_done (fun y => gatherCell (R := R) w (x : Int) y) n
    (fun y => m.setColBuf (tab n (fun j =>
      if j < y then (m.spectrum w).getD (j * h + x) ⟨0, 0⟩ else m.colBuf.getD j ⟨0, 0⟩))) (by
      intro y hy
      have hidx : (y : Int) * (h : Int) + (x : Int) = ((y * h + x : Nat) : Int) := by
        push_cast; ring
      simp only [gatherCell, spectrum_setColBuf, setColBuf_halfC, setColBuf_colBuf,
        setColBuf_setColBuf, hH, hidx]
      rw [index_inrange _ ⟨0, 0⟩ _ (by rw [hb]; exact flat_lt2 hx hy)]
      simp only
      rw [assign_inrange _ _ _ (by simpa using hy), tab_set]
      simp only [Run.done.injEq]
      congr 1
      apply tab_congr
      intro i _
      exact fill_step (fun j => (m.spectrum w).getD (j * h + x) ⟨0, 0⟩)
        (fun j => m.colBuf.getD j ⟨0, 0⟩) y i)
  have e0 : tab n (fun j =>
      if j < 0 then (m.spectrum w).getD (j * h + x) ⟨0, 0⟩ else m.colBuf.getD j ⟨0, 0⟩)
        = m.colBuf := by
    conv_rhs => rw [eq_tab m.colBuf ⟨0, 0⟩, hcb]
    apply tab_congr; intro i _; simp
  have e1 : tab n (fun j =>
      if j < n then (m.spectrum w).getD (j * h + x) ⟨0, 0⟩ else m.colBuf.getD j ⟨0, 0⟩)
        = column n h (m.spectrum w) x := by
    apply tab_congr; intro i hi; simp [hi]
  simp only [e0, e1, setColBuf_self] at key
  exact key

theorem scatter_step {α : Type} {h x y i : Nat} (hx : x < h) (v : Nat → α) (old : Nat → α) :
    (if i = y * h + x then v y else (if i % h = x ∧ i / h < y then v (i / h) else old i))
      = if i % h = x ∧ i / h < y + 1 then v (i / h) else old i := by
  by_cases h1 : i = y * h + x
  · subst h1
    rw [if_pos rfl, if_pos ⟨flat_mod hx, by rw [flat_div hx]; omega⟩, flat_div hx]
  · rw [if_neg h1]
    by_cases h2 : i % h = x ∧ i / h < y
    · rw [if_pos h2, if_pos ⟨h2.1, by omega⟩]
    · rw [if_neg h2, if_neg]
      rintro ⟨h3, h4⟩
      have h5 : i / h = y := by
        by_contra h6
        exact h2 ⟨h3, by omega⟩
      apply h1
      have := Nat.div_add_mod i h
      rw [h3, h5, Nat.mul_comm] at this
      exact this.symm

theorem scatter_done [Field R] (w : Spectrum) {n h x : Nat} (hx : x < h) (m : FFTMem R)
    (hN : m.fftN = (n : Int)) (hH : m.halfC = (h : Int)) (hcb : m.colBuf.length = n)
    (hb : (m.spectrum w).length = n * h) :
    forRange m.fftN (fun y => scatterCell w (x : Int) y) m
      = .done (m.setSpectrum w (tab (n * h) (fun i =>
          if i % h = x then m.colBuf.getD (i / h) ⟨0, 0⟩
          else (m.spectrum w).getD i ⟨0, 0⟩))) := by
  rw [hN]
  have key := forRange_done (fun y => scatterCell (R := R) w (x : Int) y) n
    (fun y => m.setSpectrum w (tab (n * h) (fun i =>
      if i % h = x ∧ i / h < y then m.colBuf.getD (i / h) ⟨0, 0⟩
      else (m.spectrum w).getD i ⟨0, 0⟩))) (by
      intro y hy
      have hidx : (y : Int) * (h : Int) + (x : Int) = ((y * h + x : Nat) : Int) := by
        push_cast; ring
      simp only [scatterCell, setSpectrum_colBuf, setSpectrum_halfC, spectrum_setSpectrum,
        setSpectrum_setSpectrum, hH, hidx]
      rw [index_inrange _ ⟨0, 0⟩ _ (by omega)]
      simp only
      rw [assign_inrange _ _ _ (by simpa using flat_lt2 hx hy), tab_set]
      simp only [Run.done.injEq]
      congr 1
      apply tab_congr
      intro i _
      exact scatter_step hx (fun j => m.colBuf.getD j ⟨0, 0⟩)
        (fun j => (m.spectrum w).getD j ⟨0, 0⟩))
  have e0 : tab (n * h) (fun i =>
      if i % h = x ∧ i / h < 0 then m.colBuf.getD (i / h) ⟨0, 0⟩
      else (m.spectrum w).getD i ⟨0, 0⟩) = m.spectrum w := by
    conv_rhs => rw [eq_tab (m.spectrum w) ⟨0, 0⟩, hb]
    apply tab_congr; intro i _; simp
  have e1 : tab (n * h) (fun i =>
      if i % h = x ∧ i / h < n then m.colBuf.getD (i / h) ⟨0, 0⟩
      else (m.spectrum w).getD i ⟨0, 0⟩)
      = tab (n * h) (fun i =>
          if i % h = x then m.colBuf.getD (i / h) ⟨0, 0⟩
          else (m.spectrum w).getD i ⟨0, 0⟩) := by
    apply tab_congr
    intro i hi
    have : i / h < n := Nat.div_lt_of_lt_mul (by rw [Nat.mul_comm]; exact hi)
    simp [this]
  simp only [e0, e1, setSpectrum_self] at key
  exact key

theorem cmplxCall_done [Field R] (T : Nat → List (Cplx R) → List (Cplx R)) {n : Nat}
    (m : FFTMem R) (hC : m.cmplxFFT = (n : Int)) (hcb : m.colBuf.length = n) :
    cmplxCall T m
      = .done (m.setColBuf (tab n (fun i => (T n m.colBuf).getD i ⟨0, 0⟩))) := by
  unfold cmplxCall
  rw [if_neg (by rw [hC, hcb]; simp)]
  simp only [Run.done.injEq]
  congr 1
  rw [writeSlice_eq, hC, hcb, Int.toNat_natCast]
  apply tab_congr
  intro i hi
  rw [if_pos ⟨Nat.zero_le _, by omega⟩]
  rfl

theorem columnBody_done [Field R] (T : Nat → List (Cplx R) → List (Cplx R)) (w : Spectrum)
    {n h x : Nat} (hx : x < h) (m : FFTMem R)
    (hN : m.fftN = (n : Int)) (hH : m.halfC = (h : Int)) (hC : m.cmplxFFT = (n : Int))
    (hcb : m.colBuf.length = n) (hb : (m.spectrum w).length = n * h) :
    columnBody T w (x : Int) m
      = .done ((m.setSpectrum w (tab (n * h) (fun i =>
            if i % h = x then (T n (column n h (m.spectrum w) x)).getD (i / h) ⟨0, 0⟩
            else (m.spectrum w).getD i ⟨0, 0⟩))).setColBuf
          (tab n (fun i => (T n (column n h (m.spectrum w) x)).getD i ⟨0, 0⟩))) := by
  unfold columnBody
  rw [gather_done w hx m hN hH hcb hb]
  simp only
  rw [cmplxCall_done T _ (by simpa using hC) (by simp [column])]
  simp only
  rw [scatter_done w hx _ (by simpa using hN) (by simpa using hH) (by simp)
    (by simpa using hb)]
  simp only [spectrum_setColBuf, setColBuf_colBuf, setColBuf_setColBuf, setColBuf_setSpectrum,
    Run.done.injEq]
  congr 2
  apply tab_congr
  intro i hi
  have : i / h < n := Nat.div_lt_of_lt_mul (by rw [Nat.mul_comm]; exact hi)
  rw [getD_tab _ _ _ _ this]

theorem column_step {α : Type} {h i x : Nat} (f : Nat → α) (old : α) :
    (if i % h = x then f (i % h) else (if i % h < x then f (i % h) else old))
      = if i % h < x + 1 then f (i % h) else old := by
  by_cases h1 : i % h = x
  · rw [if_pos h1, if_pos (by omega)]
  · by_cases h2 : i % h < x
    · rw [if_neg h1, if_pos h2, if_pos (by omega)]
    · rw [if_neg h1, if_neg h2, if_neg (by omega)]

theorem columnPass_done [Field R] (T : Nat → List (Cplx R) → List (Cplx R)) (w : Spectrum)
    {n h : Nat} (hh : 0 < h) (m : FFTMem R)
    (hN : m.fftN = (n : Int)) (hH : m.halfC = (h : Int)) (hC : m.cmplxFFT = (n : Int))
    (hcb : m.colBuf.length = n) (hb : (m.spectrum w).length = n * h) :
    columnPass T w m
      = .done ((m.setSpectrum w (colTransform T n h (m.spectrum w))).setColBuf
          (tab n (fun i => (T n (column n h (m.spectrum w) (h - 1))).getD i ⟨0, 0⟩))) := by
  unfold columnPass
  rw [hH]
  have key := forRange_done (fun x => columnBody T w x) h
    (fun x => (m.setSpectrum w (tab (n * h) (fun i =>
        if i % h < x then (T n (column n h (m.spectrum w) (i % h))).getD (i / h) ⟨0, 0⟩
        else (m.spectrum w).getD i ⟨0, 0⟩))).setColBuf
        (match x with
          | 0 => m.colBuf
          | x + 1 => tab n (fun i =>
              (T n (column n h (m.spectrum w) x)).getD i ⟨0, 0⟩))) (by
      intro x hx
      have hl : (match x with
          | 0 => m.colBuf
          | x + 1 => tab n (fun i =>
              (T n (column n h (m.spectrum w) x)).getD i ⟨0, 0⟩)).length = n := by
        cases x with
        | zero => exact hcb
        | succ x => simp
      have hcol : column n h (tab (n * h) (fun i =>
          if i % h < x then (T n (column n h (m.spectrum w) (i % h))).getD (i / h) ⟨0, 0⟩
          else (m.spectrum w).getD i ⟨0, 0⟩)) x = column n h (m.spectrum w) x := by
        apply tab_congr
        intro y hy
        rw [getD_tab _ _ _ _ (flat_lt2 hx hy), flat_mod hx, if_neg (by omega)]
      beta_reduce
      rw [columnBody_done T w hx _ (by simpa using hN) (by simpa using hH)
        (by simpa using hC) (by simpa using hl) (by simp)]
      simp only [spectrum_setColBuf, spectrum_setSpectrum, setColBuf_setSpectrum,
        setSpectrum_setSpectrum, setColBuf_setColBuf, hcol, Run.done.injEq]
      congr 2
      apply tab_congr
      intro i hi
      rw [getD_tab _ _ _ _ hi]
      have := column_step (h := h) (i := i) (x := x)
        (fun c => (T n (column n h (m.spectrum w) c)).getD (i / h) ⟨0, 0⟩)
        ((m.spectrum w).getD i ⟨0, 0⟩)
      simp only at this
      rw [← this]
      by_cases h1 : i % h = x
      · rw [if_pos h1, if_pos h1, h1]
      · rw [if_neg h1, if_neg h1])
  have e0 : tab (n * h) (fun i =>
        if i % h < 0 then (T n (column n h (m.spectrum w) (i % h))).getD (i / h) ⟨0, 0⟩
        else (m.spectrum w).getD i ⟨0, 0⟩) = m.spectrum w := by
    conv_rhs => rw [eq_tab (m.spectrum w) ⟨0, 0⟩, hb]
    apply tab_congr; intro i _; simp
  have e1 : tab (n * h) (fun i =>
        if i % h < h then (T n (column n h (m.spectrum w) (i % h))).getD (i / h) ⟨0, 0⟩
        else (m.spectrum w).getD i ⟨0, 0⟩) = colTransform T n h (m.spectrum w) := by
    apply tab_congr; intro i _
    rw [if_pos (Nat.mod_lt _ hh)]
  obtain ⟨k, rfl⟩ : ∃ k, h = k + 1 := ⟨h - 1, by omega⟩
  simp only [e0, e1, setSpectrum_self, setColBuf_self] at key
  exact key

theorem multiply_done [Field R] {n : Nat} (ni : R) (kf fb cb : List (Cplx R)) (rb : List R)
    (cur nx : Grid) (hk : fb.length ≤ kf.length) :
    forRange ((mem n ni kf fb cb rb cur nx).freqBuf.length : Int) (fun i => multiplyCell i)
        (mem n ni kf fb cb rb cur nx)
      = .done (mem n ni kf (pointwise fb kf) cb rb cur nx) := by
  have key := forRange_done (fun i => multiplyCell (R := R) i) fb.length
    (fun k => mem n ni kf (tab fb.length (fun i =>
      if i < k then fb.getD i ⟨0, 0⟩ * kf.getD i ⟨0, 0⟩ else fb.getD i ⟨0, 0⟩)) cb rb cur nx) (by
      intro k hk'
      simp only [multiplyCell]
      rw [index_tab _ _ _ hk', index_inrange kf ⟨0, 0⟩ k (by omega)]
      simp only [lt_self_iff_false, if_false]
      rw [assign_inrange _ _ _ (by simpa using hk'), tab_set]
      simp only [FFTMem.setSpectrum, Run.done.injEq]
      congr 1
      apply tab_congr
      intro i _
      exact fill_step (fun j => fb.getD j ⟨0, 0⟩ * kf.getD j ⟨0, 0⟩)
        (fun j => fb.getD j ⟨0, 0⟩) k i)
  have e0 : tab fb.length (fun i =>
      if i < 0 then fb.getD i ⟨0, 0⟩ * kf.getD i ⟨0, 0⟩ else fb.getD i ⟨0, 0⟩) = fb := by
    conv_rhs => rw [eq_tab fb ⟨0, 0⟩]
    apply tab_congr; intro i _; simp
  have e1 : tab fb.length (fun i =>
      if i < fb.length then fb.getD i ⟨0, 0⟩ * kf.getD i ⟨0, 0⟩ else fb.getD i ⟨0, 0⟩)
        = pointwise fb kf := by
    apply tab_congr; intro i hi; simp [hi]
  simp only [e0, e1] at key
  exact key

theorem realSequenceCall_done [Field R] (F : Fourier R) {n y : Nat} (hy : y < n) (ni : R)
    (kf fb cb : List (Cplx R)) (rb : List R) (cur nx : Grid)
    (hfb : fb.length = n * (n / 2 + 1)) (hrb : rb.length = n) :
    realSequenceCall F ((y : Int) * ((n / 2 + 1 : Nat) : Int))
        (((y : Int) + 1) * ((n / 2 + 1 : Nat) : Int)) (mem n ni kf fb cb rb cur nx)
      = .done (mem n ni kf fb cb
          (tab n (fun i => (F.realSequence n (rowOf (n / 2 + 1) fb y)).getD i 0)) cur nx) := by
  have hlo : (y : Int) * ((n / 2 + 1 : Nat) : Int) = ((y * (n / 2 + 1) : Nat) : Int) := by
    push_cast; ring
  have hhi : ((y : Int) + 1) * ((n / 2 + 1 : Nat) : Int)
      = ((y * (n / 2 + 1) + (n / 2 + 1) : Nat) : Int) := by push_cast; ring
  have hle : y * (n / 2 + 1) + (n / 2 + 1) ≤ fb.length := by
    rw [hfb]
    calc y * (n / 2 + 1) + (n / 2 + 1) = (y + 1) * (n / 2 + 1) := by ring
      _ ≤ n * (n / 2 + 1) := Nat.mul_le_mul_right _ hy
  unfold realSequenceCall
  simp only [hlo, hhi]
  rw [slice_inrange fb ⟨0, 0⟩ (y * (n / 2 + 1)) (n / 2 + 1) hle]
  simp only [length_tab, tdiv_half, hrb, ne_eq, not_true_eq_false, if_false,
    Int.toNat_natCast, FFTMem.setRealBuf, Run.done.injEq]
  congr 1
  rw [writeSlice_eq, hrb]
  apply tab_congr
  intro i hi
  rw [if_pos ⟨Nat.zero_le _, by omega⟩]
  rfl

theorem threshold_step {α : Type} {b x i : Nat} (v : Nat → α) (old : α) :
    (if i = b + x then v x else (if b ≤ i ∧ i < b + x then v (i - b) else old))
      = if b ≤ i ∧ i < b + (x + 1) then v (i - b) else old := by
  by_cases h1 : i = b + x
  · subst h1
    rw [if_pos rfl, if_pos ⟨by omega, by omega⟩]
    congr 1; omega
  · by_cases h2 : b ≤ i ∧ i < b + x
    · rw [if_neg h1, if_pos h2, if_pos ⟨h2.1, by omega⟩]
    · rw [if_neg h1, if_neg h2, if_neg (by omega)]

theorem thresholdRow_done [LinearOrderedField R] {n y : Nat} (hy : y < n) (ni : R)
    (kf fb cb : List (Cplx R)) (rb : List R) (cur nx : Grid)
    (hrb : rb.length = n) (hnx : nx.length = n * n) :
    forRange (n : Int) (fun x => thresholdCell (y : Int) x) (mem n ni kf fb cb rb cur nx)
      = .done (mem n ni kf fb cb rb cur (tab (n * n) (fun i =>
          if y * n ≤ i ∧ i < y * n + n then ruleFFT (rb.getD (i - y * n) 0 * ni)
          else nx.getD i false))) := by
  have key := forRange_done (fun x => thresholdCell (R := R) (y : Int) x) n
    (fun x => mem n ni kf fb cb rb cur (tab (n * n) (fun i =>
      if y * n ≤ i ∧ i < y * n + x then ruleFFT (rb.getD (i - y * n) 0 * ni)
      else nx.getD i false))) (by
      intro x hx
      simp only [thresholdCell]
      rw [index_inrange rb 0 x (by omega)]
      simp only
      rw [set_inrange hx hy (by simp), tab_set]
      simp only [FFTMem.setNext, Run.done.injEq]
      congr 1
      apply tab_congr
      intro i _
      exact threshold_step (fun j => ruleFFT (rb.getD j 0 * ni)) (nx.getD i false))
  have e0 : tab (n * n) (fun i =>
      if y * n ≤ i ∧ i < y * n + 0 then ruleFFT (rb.getD (i - y * n) 0 * ni)
      else nx.getD i false) = nx := by
    conv_rhs => rw [eq_tab nx false, hnx]
    apply tab_congr; intro i _
    rw [if_neg (by omega)]
  simp only [e0] at key
  exact key

theorem rowInverse_done [LinearOrderedField R] (F : Fourier R) {n : Nat} (hn : 0 < n) (ni : R)
    (kf fb cb : List (Cplx R)) (rb : List R) (cur nx : Grid)
    (hfb : fb.length = n * (n / 2 + 1)) (hrb : rb.length = n) (hnx : nx.length = n * n) :
    forRange (n : Int) (fun y => rowInverseBody F y) (mem n ni kf fb cb rb cur nx)
      = .done (mem n ni kf fb cb
          (tab n (fun i => (F.realSequence n (rowOf (n / 2 + 1) fb (n - 1))).getD i 0))
          cur (thresholdGrid F n ni fb)) := by
  have key := forRange_done (fun y => rowInverseBody F y) n
    (fun y => mem n ni kf fb cb
      (match y with
        | 0 => rb
        | y + 1 => tab n (fun i => (F.realSequence n (rowOf (n / 2 + 1) fb y)).getD i 0))
      cur
      (tab (n * n) (fun i =>
        if i < y * n
        then ruleFFT ((F.realSequence n (rowOf (n / 2 + 1) fb (i / n))).getD (i % n) 0 * ni)
        else nx.getD i false))) (by
      intro y hy
      have hl : (match y with
          | 0 => rb
          | y + 1 => tab n (fun i =>
              (F.realSequence n (rowOf (n / 2 + 1) fb y)).getD i 0)).length = n := by
        cases y with
        | zero => exact hrb
        | succ y => simp
      simp only [rowInverseBody]
      rw [realSequenceCall_done F hy ni kf fb cb _ cur _ hfb hl, andThen_done]
      rw [thresholdRow_done hy ni kf fb cb _ cur _ (by simp) (by simp)]
      simp only [Run.done.injEq]
      congr 1
      apply tab_congr
      intro i hi
      rw [getD_tab _ _ _ _ hi]
      by_cases h1 : i < y * n
      · rw [if_neg (by omega), if_pos h1, if_pos (by
          calc i < y * n := h1
            _ ≤ (y + 1) * n := Nat.mul_le_mul_right _ (by omega))]
      · by_cases h2 : i < y * n + n
        · obtain ⟨e1, e2⟩ := block_div_mod (Nat.le_of_not_lt h1) h2
          rw [if_pos ⟨Nat.le_of_not_lt h1, h2⟩, if_pos (by
            have : (y + 1) * n = y * n + n := by ring
            omega), e1, e2, getD_tab _ _ _ _ (by omega)]
        · rw [if_neg (by omega), if_neg h1, if_neg (by
            have : (y + 1) * n = y * n + n := by ring
            omega)])
  have e0 : tab (n * n) (fun i =>
        if i < 0 * n
        then ruleFFT ((F.realSequence n (rowOf (n / 2 + 1) fb (i / n))).getD (i % n) 0 * ni)
        else nx.getD i false) = nx := by
    conv_rhs => rw [eq_tab nx false, hnx]
    apply tab_congr; intro i _; simp
  have e1 : tab (n * n) (fun i =>
        if i < n * n
        then ruleFFT ((F.realSequence n (rowOf (n / 2 + 1) fb (i / n))).getD (i % n) 0 * ni)
        else nx.getD i false) = thresholdGrid F n ni fb := by
    apply tab_congr; intro i hi; simp [hi]
  obtain ⟨k, rfl⟩ : ∃ k, n = k + 1 := ⟨n - 1, by omega⟩
  simp only [e0, e1] at key
  exact key

/-- Closed form of `stepFFT` on a memory shaped by `initFFT` for size `n ≥ 1`: it runs to its
end, leaves `current`, the kernel spectrum and the configuration alone, and writes into
`next` a grid that is a function of `current`, the kernel spectrum, `n` and `normInv`. -/
theorem stepFFT_eq_of_le [LinearOrderedField R] (F : Fourier R) {n : Nat} (hn : 0 < n) (ni : R)
    (kf fb cb : List (Cplx R)) (rb : List R) (cur nx : Grid)
    (hkf : kf.length = n * (n / 2 + 1)) (hfb : fb.length = n * (n / 2 + 1))
    (hcb : cb.length = n) (hrb : rb.length = n)
    (hcur : n * n ≤ cur.length) (hnx : nx.length = n * n) :
    stepFFT F (mem n ni kf fb cb rb cur nx)
      = .done (mem n ni kf (convSpectrum F n kf cur)
          (tab n (fun i => (F.cmplxSequence n (column n (n / 2 + 1)
            (pointwise (colTransform F.cmplxCoefficients n (n / 2 + 1) (rowSpectrum F n cur)) kf)
            (n / 2 + 1 - 1))).getD i ⟨0, 0⟩))
          (tab n (fun i => (F.realSequence n
            (rowOf (n / 2 + 1) (convSpectrum F n kf cur) (n - 1))).getD i 0))
          cur (thresholdGrid F n ni (convSpectrum F n kf cur))) := by
  unfold stepFFT
  rw [show (mem n ni kf fb cb rb cur nx).fftN = (n : Int) from rfl,
    rowForward_done_of_le F hn ni kf fb cb rb cur nx hfb hrb hcur, andThen_done,
    columnPass_done F.cmplxCoefficients .freqBuf (Nat.succ_pos _) _ rfl rfl rfl hcb
      (by simp [FFTMem.spectrum, rowSpectrum]), andThen_done]
  simp only [FFTMem.spectrum, FFTMem.setSpectrum, FFTMem.setColBuf]
  rw [multiply_done ni kf _ _ _ cur nx (by simp [colTransform, hkf]), andThen_done,
    columnPass_done F.cmplxSequence .freqBuf (Nat.succ_pos _) _ rfl rfl rfl (by simp)
      (by simp [FFTMem.spectrum, pointwise, colTransform]), andThen_done]
  simp only [FFTMem.spectrum, FFTMem.setSpectrum, FFTMem.setColBuf]
  rw [rowInverse_done F hn ni kf _ _ _ cur nx (by simp [colTransform]) (by simp [rowVals]) hnx]
  rfl

theorem stepFFT_eq [LinearOrderedField R] (F : Fourier R) {n : Nat} (hn : 0 < n) (ni : R)
    (kf fb cb : List (Cplx R)) (rb : List R) (cur nx : Grid)
    (hkf : kf.length = n * (n / 2 + 1)) (hfb : fb.length = n * (n / 2 + 1))
    (hcb : cb.length = n) (hrb : rb.length = n)
    (hcur : cur.length = n * n) (hnx : nx.length = n * n) :
    stepFFT F (mem n ni kf fb cb rb cur nx)
      = .done (mem n ni kf (convSpectrum F n kf cur)
          (tab n (fun i => (F.cmplxSequence n (column n (n / 2 + 1)
            (pointwise (colTransform F.cmplxCoefficients n (n / 2 + 1) (rowSpectrum F n cur)) kf)
            (n / 2 + 1 - 1))).getD i ⟨0, 0⟩))
          (tab n (fun i => (F.realSequence n
            (rowOf (n / 2 + 1) (convSpectrum F n kf cur) (n - 1))).getD i 0))
          cur (thresholdGrid F n ni (convSpectrum F n kf cur))) :=
  stepFFT_eq_of_le F hn ni kf fb cb rb cur nx hkf hfb hcb hrb (le_of_eq hcur.symm) hnx

theorem foldlM_inv {α β : Type} (P : β → Prop) (f : β → α → Option β) (l : List α) :
    ∀ b, P b → (∀ b a, P b → a ∈ l → ∃ b', f b a = some b' ∧ P b') →
      ∃ b', l.foldlM f b = some b' ∧ P b' := by
  induction l with
  | nil => intro b hb _; exact ⟨b, rfl, hb⟩
  | cons a t ih =>
    intro b hb hf
    obtain ⟨b1, h1, hp1⟩ := hf b a hb (List.mem_cons_self _ _)
    obtain ⟨b2, h2, hp2⟩ := ih b1 hp1 (fun b a hb ha => hf b a hb (List.mem_cons_of_mem _ ha))
    refine ⟨b2, ?_, hp2⟩
    rw [List.foldlM_cons, h1]
    exact h2

theorem goMod_offset {n : Nat} (hn : 0 < n) {d : Int} (hd : d ∈ offsets) :
    0 ≤ goMod (d + n) n ∧ goMod (d + n) n < n := by
  have hd' : -1 ≤ d := by
    simp only [offsets, List.mem_cons, List.mem_singleton, List.not_mem_nil, or_false] at hd
    omega
  unfold goMod
  rw [Int.tmod_eq_emod (by omega) (by omega)]
  exact ⟨Int.emod_nonneg _ (by omega), Int.emod_lt_of_pos _ (by omega)⟩

theorem kernelReal_length [Field R] {n : Nat} (hn : 0 < n) :
    ∃ kr : List R, kernelReal (n : Int) = some kr ∧ kr.length = n * n := by
  unfold kernelReal
  apply foldlM_inv (fun kr : List R => kr.length = n * n)
  · have : ((n : Int) * n).toNat = n * n := by
      have : ((n : Int) * n) = ((n * n : Nat) : Int) := by push_cast; ring
      rw [this, Int.toNat_natCast]
    simp [this]
  · intro kr dy hkr hdy
    apply foldlM_inv (fun kr : List R => kr.length = n * n) _ _ _ hkr
    intro kr dx hkr hdx
    obtain ⟨y0, y1⟩ := goMod_offset hn hdy
    obtain ⟨x0, x1⟩ := goMod_offset hn hdx
    generalize goMod (dy + n) n = fy at y0 y1
    generalize goMod (dx + n) n = fx at x0 x1
    have hlt : fy * n + fx < (n : Int) * n := by nlinarith
    have h0 : 0 ≤ fy * n + fx := by positivity
    refine ⟨List.set kr (fy * n + fx).toNat (kFloatAt (dy + 1) (dx + 1)), ?_, by simpa using hkr⟩
    simp only [assign]
    rw [if_pos ⟨h0, by rw [hkr]; exact_mod_cast hlt⟩]

theorem kernelRows_done [Field R] (F : Fourier R) {n : Nat} (ni : R)
    (kr : List R) (kf fb cb : List (Cplx R)) (rb : List R) (cur nx : Grid)
    (hkr : kr.length = n * n) (hkf : kf.length = n * (n / 2 + 1)) :
    forRange (n : Int) (fun y => kernelRowBody F kr y) (mem n ni kf fb cb rb cur nx)
      = .done (mem n ni (kernelRowSpectrum F n kr) fb cb rb cur nx) := by
  have key := forRange_done (fun y => kernelRowBody F kr y) n
    (fun y => mem n ni
      (tab (n * (n / 2 + 1)) (fun i =>
        if i < y * (n / 2 + 1)
        then (F.realCoefficients n (tab n (fun j => kr.getD (i / (n / 2 + 1) * n + j) 0))).getD
          (i % (n / 2 + 1)) 0
        else kf.getD i 0))
      fb cb rb cur nx) (by
      intro y hy
      have hlo : (y : Int) * (n : Int) = ((y * n : Nat) : Int) := by push_cast; ring
      have hhi : ((y : Int) + 1) * (n : Int) = ((y * n + n : Nat) : Int) := by
        push_cast; ring
      have hle : y * n + n ≤ kr.length := by
        rw [hkr]
        calc y * n + n = (y + 1) * n := by ring
          _ ≤ n * n := Nat.mul_le_mul_right _ hy
      simp only [kernelRowBody, hlo, hhi]
      rw [slice_inrange kr 0 (y * n) n hle]
      simp only
      have := realCoefficientsCall_done F .kernelFreq hy (tab n (fun j => kr.getD (y * n + j) 0))
        (mem n ni
          (tab (n * (n / 2 + 1)) (fun i =>
            if i < y * (n / 2 + 1)
            then (F.realCoefficients n
              (tab n (fun j => kr.getD (i / (n / 2 + 1) * n + j) 0))).getD (i % (n / 2 + 1)) 0
            else kf.getD i 0))
          fb cb rb cur nx) rfl (by simp [FFTMem.spectrum]) (by simp)
      rw [this]
      simp only [FFTMem.setSpectrum, FFTMem.spectrum, Run.done.injEq]
      congr 1
      apply tab_congr
      intro i hi
      rw [getD_tab _ _ _ _ hi]
      by_cases h1 : i < y * (n / 2 + 1)
      · rw [if_neg (by omega), if_pos h1, if_pos (by
          calc i < y * (n / 2 + 1) := h1
            _ ≤ (y + 1) * (n / 2 + 1) := Nat.mul_le_mul_right _ (by omega))]
      · by_cases h2 : i < y * (n / 2 + 1) + (n / 2 + 1)
        · obtain ⟨e1, e2⟩ := block_div_mod (Nat.le_of_not_lt h1) h2
          rw [if_pos ⟨Nat.le_of_not_lt h1, h2⟩, if_pos (by
            have : (y + 1) * (n / 2 + 1) = y * (n / 2 + 1) + (n / 2 + 1) := by ring
            omega), e1, e2]
        · rw [if_neg (by omega), if_neg h1, if_neg (by
            have : (y + 1) * (n / 2 + 1) = y * (n / 2 + 1) + (n / 2 + 1) := by ring
            omega)])
  have e0 : tab (n * (n / 2 + 1)) (fun i =>
        if i < 0 * (n / 2 + 1)
        then (F.realCoefficients n (tab n (fun j => kr.getD (i / (n / 2 + 1) * n + j) 0))).getD
          (i % (n / 2 + 1)) 0
        else kf.getD i 0) = kf := by
    conv_rhs => rw [eq_tab kf 0, hkf]
    apply tab_congr; intro i _; simp
  have e1 : tab (n * (n / 2 + 1)) (fun i =>
        if i < n * (n / 2 + 1)
        then (F.realCoefficients n (tab n (fun j => kr.getD (i / (n / 2 + 1) * n + j) 0))).getD
          (i % (n / 2 + 1)) 0
        else kf.getD i 0) = kernelRowSpectrum F n kr := by
    apply tab_congr; intro i hi; simp [hi]
  simp only [e0, e1] at key
  exact key

/-- Closed form of `initFFT` for a size `n ≥ 1`: it runs to its end and shapes the memory
for size `n`, whatever the memory held before. -/
theorem initFFT_eq [Field R] (F : Fourier R) {n : Nat} (hn : 0 < n) (m : FFTMem R)
    (hsize : m.size = (n : Int)) :
    initFFT F m = .done (mem n (1 / (((n : Int) * (n : Int) : Int) : R)) (kernelSpectrum F n)
      (List.replicate (n * (n / 2 + 1)) 0)
      (tab n (fun i => (F.cmplxCoefficients n (column n (n / 2 + 1)
        (kernelRowSpectrum F n ((kernelReal (R := R) (n : Int)).getD [])) (n / 2 + 1 - 1))).getD
          i ⟨0, 0⟩))
      (List.replicate n 0) m.current m.next) := by
  obtain ⟨kr, hkr, hlen⟩ := kernelReal_length (R := R) hn
  have e : ((n : Int) * ((n / 2 + 1 : Nat) : Int)).toNat = n * (n / 2 + 1) := by
    have : ((n : Int) * ((n / 2 + 1 : Nat) : Int)) = ((n * (n / 2 + 1) : Nat) : Int) := by
      push_cast; ring
    rw [this, Int.toNat_natCast]
  unfold initFFT kernelSpectrum
  rw [if_neg (by rw [hsize]; omega)]
  simp only [hsize, hkr, tdiv_half, e, Int.toNat_natCast, Option.getD_some]
  rw [kernelRows_done F _ kr _ _ _ _ _ _ hlen (by simp), andThen_done,
    columnPass_done F.cmplxCoefficients .kernelFreq (Nat.succ_pos _) _ rfl rfl rfl (by simp)
      (by simp [FFTMem.spectrum, kernelRowSpectrum])]
  rfl

/-- C6: for every `N ≥ 1`, every `current` of length `N*N` and any two contents `next`,
`next'` of a buffer of length `N*N`, each stepper runs to its end, leaves `current` as it
was, and ends with the same grid in `next` whichever of the two contents it started from:
every cell of `next` is overwritten.  For `stepFFT` the memory is shaped for `fftN = size = N`
as `initFFT` leaves it (scratch contents and kernel spectrum arbitrary; the last part
states that `initFFT` run with `size = N` ends in a memory of this shape), and the
transform primitives are arbitrary. -/
theorem step_overwrites_next {R : Type} [LinearOrderedField R] (F : Fourier R) (N : Int)
    (hN : 1 ≤ N) (cur next next' : Grid)
    (hcur : (cur.length : Int) = N * N) (hnext : (next.length : Int) = N * N)
    (hnext' : (next'.length : Int) = N * N)
    (ni : R) (kf fb cb : List (Cplx R)) (rb : List R)
    (hkf : kf.length = N.toNat * (N.toNat / 2 + 1))
    (hfb : fb.length = N.toNat * (N.toNat / 2 + 1))
    (hcb : cb.length = N.toNat) (hrb : rb.length = N.toNat) :
    (∃ out : Grid, (out.length : Int) = N * N
        ∧ stepTraditional N ⟨cur, next⟩ = .done ⟨cur, out⟩
        ∧ stepTraditional N ⟨cur, next'⟩ = .done ⟨cur, out⟩)
    ∧ (∃ out : Grid, (out.length : Int) = N * N
        ∧ stepConvolution N ⟨cur, next⟩ = .done ⟨cur, out⟩
        ∧ stepConvolution N ⟨cur, next'⟩ = .done ⟨cur, out⟩)
    ∧ (∃ (out : Grid) (r r' : FFTMem R), (out.length : Int) = N * N
        ∧ stepFFT F (mem N.toNat ni kf fb cb rb cur next) = .done r
        ∧ stepFFT F (mem N.toNat ni kf fb cb rb cur next') = .done r'
        ∧ r.current = cur ∧ r'.current = cur ∧ r.next = out ∧ r'.next = out)
    ∧ (∀ m : FFTMem R, m.size = N →
        ∃ (ni' : R) (kf' fb' cb' : List (Cplx R)) (rb' : List R),
          initFFT F m = .done (mem N.toNat ni' kf' fb' cb' rb' m.current m.next)
          ∧ kf'.length = N.toNat * (N.toNat / 2 + 1)
          ∧ fb'.length = N.toNat * (N.toNat / 2 + 1)
          ∧ cb'.length = N.toNat ∧ rb'.length = N.toNat) := by
  obtain ⟨n, hn, rfl, hc⟩ := size_nat hN hcur
  have hx : next.length = n * n := by exact_mod_cast hnext
  have hx' : next'.length = n * n := by exact_mod_cast hnext'
  rw [Int.toNat_natCast] at hkf hfb hcb hrb ⊢
  have hlen : ∀ f : Nat → Bool, (((List.range (n * n)).map f).length : Int) = (n : Int) * n := by
    intro f; simp
  refine ⟨⟨_, hlen _, stepTraditional_eq hn hc hx, stepTraditional_eq hn hc hx'⟩,
    ⟨_, hlen _, stepConvolution_eq hn hc hx, stepConvolution_eq hn hc hx'⟩,
    ⟨_, _, _, ?_, stepFFT_eq F hn ni kf fb cb rb cur next hkf hfb hcb hrb hc hx,
      stepFFT_eq F hn ni kf fb cb rb cur next' hkf hfb hcb hrb hc hx', rfl, rfl, rfl, rfl⟩,
    ?_⟩
  · simp [thresholdGrid]
  · intro m hm
    exact ⟨_, _, _, _, _, initFFT_eq F hn m hm, by simp [kernelSpectrum, colTransform],
      by simp, by simp, by simp⟩

theorem step_overwrites_next_witness :
    (∃ out : Grid, (out.length : Int) = 2 * 2
        ∧ stepTraditional 2 ⟨[true, true, false, true], [false, false, false, false]⟩
            = .done ⟨[true, true, false, true], out⟩
        ∧ stepTraditional 2 ⟨[true, true, false, true], [true, false, true, true]⟩
            = .done ⟨[true, true, false, true], out⟩)
    ∧ (∃ out : Grid, (out.length : Int) = 2 * 2
        ∧ stepConvolution 2 ⟨[true, true, false, true], [false, false, false, false]⟩
            = .done ⟨[true, true, false, true], out⟩
        ∧ stepConvolution 2 ⟨[true, true, false, true], [true, false, true, true]⟩
            = .done ⟨[true, true, false, true], out⟩)
    ∧ (∃ (out : Grid) (r r' : FFTMem ℚ), (out.length : Int) = 2 * 2
        ∧ stepFFT (exactDFT minusOne) (mem (2 : Int).toNat (1 / 4) [1, 2, 3, 4] [0, 0, 0, 0]
            [0, 0] [0, 0] [true, true, false, true] [false, false, false, false]) = .done r
        ∧ stepFFT (exactDFT minusOne) (mem (2 : Int).toNat (1 / 4) [1, 2, 3, 4] [0, 0, 0, 0]
            [0, 0] [0, 0] [true, true, false, true] [true, false, true, true]) = .done r'
        ∧ r.current = [true, true, false, true] ∧ r'.current = [true, true, false, true]
        ∧ r.next = out ∧ r'.next = out)
    ∧ (∀ m : FFTMem ℚ, m.size = 2 →
        ∃ (ni' : ℚ) (kf' fb' cb' : List (Cplx ℚ)) (rb' : List ℚ),
          initFFT (exactDFT minusOne) m
            = .done (mem (2 : Int).toNat ni' kf' fb' cb' rb' m.current m.next)
          ∧ kf'.length = (2 : Int).toNat * ((2 : Int).toNat / 2 + 1)
          ∧ fb'.length = (2 : Int).toNat * ((2 : Int).toNat / 2 + 1)
          ∧ cb'.length = (2 : Int).toNat ∧ rb'.length = (2 : Int).toNat) :=
  step_overwrites_next (exactDFT minusOne) 2 (by decide) [true, true, false, true]
    [false, false, false, false] [true, false, true, true] (by decide) (by decide) (by decide)
    (1 / 4) [1, 2, 3, 4] [0, 0, 0, 0] [0, 0] [0, 0] (by decide) (by decide) (by decide)
    (by decide)

theorem goMod_three {n : Nat} (hn : 3 ≤ n) :
    goMod (-1 + (n : Int)) n = ((n - 1 : Nat) : Int) ∧ goMod (0 + (n : Int)) n = ((0 : Nat) : Int)
      ∧ goMod (1 + (n : Int)) n = ((1 : Nat) : Int) := by
  unfold goMod
  refine ⟨?_, ?_, ?_⟩
  · rw [Int.tmod_eq_emod (by omega) (by omega), Int.emod_eq_of_lt (by omega) (by omega)]
    omega
  · rw [Int.tmod_eq_emod (by omega) (by omega), zero_add, Int.emod_self]
    rfl
  · rw [Int.tmod_eq_emod (by omega) (by omega), Int.add_emod_self,
      Int.emod_eq_of_lt (by omega) (by omega)]
    rfl

theorem replicate_eq_tab {α : Type} (len : Nat) (a : α) :
    List.replicate len a = tab len (fun _ => a) := by
  apply List.ext_getElem
  · simp
  · intro i h1 h2
    rw [getElem_tab]
    simp

theorem assign_tab {α : Type} (len : Nat) (f : Nat → α) (y n x : Nat) (v : α)
    (h : y * n + x < len) :
    assign (tab len f) ((y : Int) * (n : Int) + (x : Int)) v
      = some (tab len (fun j => if j = y * n + x then v else f j)) := by
  have e : (y : Int) * (n : Int) + (x : Int) = ((y * n + x : Nat) : Int) := by push_cast; ring
  rw [e, assign_inrange _ _ _ (by simpa using h), tab_set]

theorem kernelReal_three [Field R] {n : Nat} (hn : 3 ≤ n) :
    ∃ kr : List R, kernelReal (n : Int) = some kr ∧ kr.length = n * n
      ∧ ∀ u v, u < n → v < n → kr.getD (v * n + u) 0 = kernelWeight n u v := by
  obtain ⟨gm, g0, g1⟩ := goMod_three hn
  have e : ((n : Int) * n).toNat = n * n := by
    have : ((n : Int) * n) = ((n * n : Nat) : Int) := by push_cast; ring
    rw [this, Int.toNat_natCast]
  have hm : n - 1 < n := by omega
  have h0 : 0 < n := by omega
  have h1 : 1 < n := by omega
  obtain ⟨kr, hkr, hlen⟩ := kernelReal_length (R := R) (show 0 < n by omega)
  refine ⟨kr, hkr, hlen, ?_⟩
  simp only [kernelReal, offsets, List.foldlM_cons, List.foldlM_nil, gm, g0, g1, e,
    replicate_eq_tab, bind, Option.bind, pure] at hkr
  rw [assign_tab _ _ _ _ _ _ (flat_lt hm hm)] at hkr
  simp only at hkr
  rw [assign_tab _ _ _ _ _ _ (flat_lt h0 hm)] at hkr
  simp only at hkr
  rw [assign_tab _ _ _ _ _ _ (flat_lt h1 hm)] at hkr
  simp only at hkr
  rw [assign_tab _ _ _ _ _ _ (flat_lt hm h0)] at hkr
  simp only at hkr
  rw [assign_tab _ _ _ _ _ _ (flat_lt h0 h0)] at hkr
  simp only at hkr
  rw [assign_tab _ _ _ _ _ _ (flat_lt h1 h0)] at hkr
  simp only at hkr
  rw [assign_tab _ _ _ _ _ _ (flat_lt hm h1)] at hkr
  simp only at hkr
  rw [assign_tab _ _ _ _ _ _ (flat_lt h0 h1)] at hkr
  simp only at hkr
  rw [assign_tab _ _ _ _ _ _ (flat_lt h1 h1)] at hkr
  injection hkr with hkr
  subst hkr
  intro u v hu hv
  rw [getD_tab _ _ _ _ (flat_lt hu hv)]
  simp only [flat_inj hu hm, flat_inj hu h0, flat_inj hu h1]
  have k22 : kFloatAt (R := R) (1 + 1) (1 + 1) = 2 := rfl
  have k21 : kFloatAt (R := R) (1 + 1) (0 + 1) = 2 := rfl
  have k20 : kFloatAt (R := R) (1 + 1) (-1 + 1) = 2 := rfl
  have k12 : kFloatAt (R := R) (0 + 1) (1 + 1) = 2 := rfl
  have k11 : kFloatAt (R := R) (0 + 1) (0 + 1) = 1 := rfl
  have k10 : kFloatAt (R := R) (0 + 1) (-1 + 1) = 2 := rfl
  have k02 : kFloatAt (R := R) (-1 + 1) (1 + 1) = 2 := rfl
  have k01 : kFloatAt (R := R) (-1 + 1) (0 + 1) = 2 := rfl
  have k00 : kFloatAt (R := R) (-1 + 1) (-1 + 1) = 2 := rfl
  rw [k22, k21, k20, k12, k11, k10, k02, k01, k00]
  unfold kernelWeight
  have e1 : ¬ (n - 1 = 0) := by omega
  have e2 : ¬ (n - 1 = 1) := by omega
  have e3 : ¬ (0 = n - 1) := by omega
  have e4 : ¬ (1 = n - 1) := by omega
  have hu' : u = 0 ∨ u = 1 ∨ u = n - 1 ∨ (¬ (u = 0) ∧ ¬ (u = 1) ∧ ¬ (u = n - 1)) := by omega
  have hv' : v = 0 ∨ v = 1 ∨ v = n - 1 ∨ (¬ (v = 0) ∧ ¬ (v = 1) ∧ ¬ (v = n - 1)) := by omega
  rcases hu' with rfl | rfl | rfl | ⟨a1, a2, a3⟩ <;>
    rcases hv' with rfl | rfl | rfl | ⟨b1, b2, b3⟩ <;>
    simp [*]

theorem sum_three [Field R] {n : Nat} (hn : 3 ≤ n) (f : Nat → R)
    (hf : ∀ u, u < n → ¬ (u = 0) → ¬ (u = 1) → ¬ (u = n - 1) → f u = 0) :
    ∑ u in Finset.range n, f u = f 0 + f 1 + f (n - 1) := by
  have hsub : ({0, 1, n - 1} : Finset Nat) ⊆ Finset.range n := by
    intro a ha
    simp only [Finset.mem_insert, Finset.mem_singleton] at ha
    rw [Finset.mem_range]
    omega
  rw [← Finset.sum_subset hsub (by
    intro u hu hnot
    simp only [Finset.mem_insert, Finset.mem_singleton, not_or] at hnot
    exact hf u (Finset.mem_range.mp hu) hnot.1 hnot.2.1 hnot.2.2)]
  rw [Finset.sum_insert (by
    simp only [Finset.mem_insert, Finset.mem_singleton]
    omega), Finset.sum_insert (by
    simp only [Finset.mem_singleton]
    omega), Finset.sum_singleton]
  ring

theorem wrapN_neg_mod {n x : Nat} (hn : 0 < n) : wrapN n x (-1) = (x + n - 1) % n := by
  unfold wrapN
  have : (x : Int) + -1 + n = ((x + n - 1 : Nat) : Int) := by omega
  rw [this]
  norm_cast

theorem wrapN_pos_mod {n x : Nat} : wrapN n x 1 = (x + 1) % n := by
  unfold wrapN
  have : (x : Int) + 1 + n = ((x + 1 : Nat) : Int) + n := by push_cast; ring
  rw [this, Int.add_emod_self]
  norm_cast

theorem b2i_cast [Field R] (b : Bool) : ((b2i b : Int) : R) = if b then 1 else 0 := by
  cases b <;> simp [b2i]

/-- Where no two wrapped offsets coincide (`n ≥ 3`), circular convolution with the kernel
field `initFFT` builds is the weighted sum `stepConvolution` computes. -/
theorem circularSum_three [Field R] {n : Nat} (hn : 3 ≤ n) (kr : List R)
    (hkr : ∀ u v, u < n → v < n → kr.getD (v * n + u) 0 = kernelWeight n u v)
    (g : Grid) {x y : Nat} (hx : x < n) (hy : y < n) :
    circularSum n kr g x y
      = ((2 * liveCount n g x y + b2i (cell n g x y) : Int) : R) := by
  have e1 : ¬ (n - 1 = 0) := by omega
  have e2 : ¬ (n - 1 = 1) := by omega
  have ex0 : (x + n - 0) % n = x := by
    rw [Nat.sub_zero, Nat.add_mod_right, Nat.mod_eq_of_lt hx]
  have ey0 : (y + n - 0) % n = y := by
    rw [Nat.sub_zero, Nat.add_mod_right, Nat.mod_eq_of_lt hy]
  have exm : (x + n - (n - 1)) % n = wrapN n x 1 := by
    rw [wrapN_pos_mod]; congr 1; omega
  have eym : (y + n - (n - 1)) % n = wrapN n y 1 := by
    rw [wrapN_pos_mod]; congr 1; omega
  have ex1 : (x + n - 1) % n = wrapN n x (-1) := (wrapN_neg_mod (by omega)).symm
  have ey1 : (y + n - 1) % n = wrapN n y (-1) := (wrapN_neg_mod (by omega)).symm
  unfold circularSum
  have inner : ∀ v, v < n →
      ∑ u in Finset.range n, kr.getD (v * n + u) 0
          * (if cell n g ((x + n - u) % n) ((y + n - v) % n) then (1 : R) else 0)
        = kernelWeight n 0 v * (if cell n g x ((y + n - v) % n) then (1 : R) else 0)
          + kernelWeight n 1 v
              * (if cell n g (wrapN n x (-1)) ((y + n - v) % n) then (1 : R) else 0)
          + kernelWeight n (n - 1) v
              * (if cell n g (wrapN n x 1) ((y + n - v) % n) then (1 : R) else 0) := by
    intro v hv
    rw [sum_three hn _ (by
      intro u hu a1 a2 a3
      rw [hkr u v hu hv]
      simp [kernelWeight, a1, a2, a3])]
    rw [hkr 0 v (by omega) hv, hkr 1 v (by omega) hv, hkr (n - 1) v (by omega) hv,
      ex0, ex1, exm]
  rw [Finset.sum_congr rfl (fun v hv => inner v (Finset.mem_range.mp hv))]
  rw [sum_three hn _ (by
    intro v hv b1 b2 b3
    simp [kernelWeight, b1, b2, b3])]
  rw [ey0, ey1, eym]
  have w00 : kernelWeight (R := R) n 0 0 = 1 := by simp [kernelWeight]
  have w10 : kernelWeight (R := R) n 1 0 = 2 := by simp [kernelWeight]
  have wm0 : kernelWeight (R := R) n (n - 1) 0 = 2 := by simp [kernelWeight, e1]
  have w01 : kernelWeight (R := R) n 0 1 = 2 := by simp [kernelWeight]
  have w11 : kernelWeight (R := R) n 1 1 = 2 := by simp [kernelWeight]
  have wm1 : kernelWeight (R := R) n (n - 1) 1 = 2 := by simp [kernelWeight, e1]
  have w0m : kernelWeight (R := R) n 0 (n - 1) = 2 := by simp [kernelWeight, e1]
  have w1m : kernelWeight (R := R) n 1 (n - 1) = 2 := by simp [kernelWeight, e1]
  have wmm : kernelWeight (R := R) n (n - 1) (n - 1) = 2 := by simp [kernelWeight, e1]
  rw [w00, w10, wm0, w01, w11, wm1, w0m, w1m, wmm]
  push_cast
  simp only [liveCount, b2i_cast, wrapN_zero hx, wrapN_zero hy, Int.cast_add]
  ring

/-! ## Arithmetic of `Cplx` -/

@[simp]
theorem Cplx.zero_re [CommRing R] : (0 : Cplx R).re = 0 := rfl

@[simp]
theorem Cplx.zero_im [CommRing R] : (0 : Cplx R).im = 0 := rfl

@[simp]
theorem Cplx.one_re [CommRing R] : (1 : Cplx R).re = 1 := rfl

@[simp]
theorem Cplx.one_im [CommRing R] : (1 : Cplx R).im = 0 := rfl

@[simp]
theorem Cplx.add_re [CommRing R] (a b : Cplx R) : (a + b).re = a.re + b.re := rfl

@[simp]
theorem Cplx.add_im [CommRing R] (a b : Cplx R) : (a + b).im = a.im + b.im := rfl

@[simp]
theorem Cplx.mul_re [CommRing R] (a b : Cplx R) :
    (a * b).re = a.re * b.re - a.im * b.im := rfl

@[simp]
theorem Cplx.mul_im [CommRing R] (a b : Cplx R) :
    (a * b).im = a.re * b.im + a.im * b.re := rfl

@[simp]
theorem Cplx.ofReal_re [CommRing R] (r : R) : (Cplx.ofReal r).re = r := rfl

@[simp]
theorem Cplx.ofReal_im [CommRing R] (r : R) : (Cplx.ofReal r).im = 0 := rfl

@[simp]
theorem Cplx.conj_re [CommRing R] (a : Cplx R) : (Cplx.conj a).re = a.re := rfl

@[simp]
theorem Cplx.conj_im [CommRing R] (a : Cplx R) : (Cplx.conj a).im = -a.im := rfl

theorem Cplx.conj_zero [CommRing R] : Cplx.conj (0 : Cplx R) = 0 := by
  ext <;> simp

theorem Cplx.conj_one [CommRing R] : Cplx.conj (1 : Cplx R) = 1 := by
  ext <;> simp

theorem Cplx.conj_add [CommRing R] (a b : Cplx R) :
    Cplx.conj (a + b) = Cplx.conj a + Cplx.conj b := by
  ext <;> simp [add_comm]

theorem Cplx.conj_mul [CommRing R] (a b : Cplx R) :
    Cplx.conj (a * b) = Cplx.conj a * Cplx.conj b := by
  ext
  · simp
  · simp
    ring

theorem Cplx.conj_ofReal [CommRing R] (r : R) : Cplx.conj (Cplx.ofReal r) = Cplx.ofReal r := by
  ext <;> simp

theorem Cplx.conj_pow [CommRing R] (a : Cplx R) (m : Nat) :
    Cplx.conj (a ^ m) = Cplx.conj a ^ m := by
  induction m with
  | zero => simp [Cplx.conj_one]
  | succ m ih => rw [pow_succ, pow_succ, Cplx.conj_mul, ih]

theorem Cplx.conj_sum [CommRing R] (s : Finset Nat) (f : Nat → Cplx R) :
    Cplx.conj (∑ i in s, f i) = ∑ i in s, Cplx.conj (f i) := by
  induction s using Finset.induction_on with
  | empty => simp [Cplx.conj_zero]
  | insert hi ih => rw [Finset.sum_insert hi, Finset.sum_insert hi, Cplx.conj_add, ih]

theorem Cplx.natCast_re [CommRing R] (m : Nat) : ((m : Cplx R)).re = (m : R) := by
  induction m with
  | zero => simp
  | succ m ih => simp [ih]

theorem Cplx.natCast_im [CommRing R] (m : Nat) : ((m : Cplx R)).im = 0 := by
  induction m with
  | zero => simp
  | succ m ih => simp [ih]

theorem Cplx.conj_natCast [CommRing R] (m : Nat) : Cplx.conj (m : Cplx R) = m := by
  ext <;> simp [Cplx.natCast_im]

theorem Cplx.sum_re [CommRing R] (s : Finset Nat) (f : Nat → Cplx R) :
    (∑ i in s, f i).re = ∑ i in s, (f i).re := by
  induction s using Finset.induction_on with
  | empty => simp
  | insert hi ih => rw [Finset.sum_insert hi, Finset.sum_insert hi, Cplx.add_re, ih]

theorem inv_unique [CommRing R] {a b c : Cplx R} (ha : a * c = 1) (hb : b * c = 1) : a = b := by
  calc a = a * (b * c) := by rw [hb, mul_one]
    _ = (a * c) * b := by ring
    _ = b := by rw [ha, one_mul]

theorem ExactRoot.pow_mul_n [CommRing R] {w : Cplx R} {n : Nat} (h : ExactRoot w n) (m : Nat) :
    w ^ (n * m) = 1 := by
  rw [pow_mul, h.pow_n, one_pow]

theorem ExactRoot.pow_mod [CommRing R] {w : Cplx R} {n : Nat} (h : ExactRoot w n) (m k : Nat) :
    w ^ ((m % n) * k) = w ^ (m * k) := by
  conv_rhs => rw [← Nat.div_add_mod m n]
  rw [add_mul, pow_add, mul_assoc, h.pow_mul_n, one_mul]

theorem ExactRoot.conj_pow_mul [CommRing R] {w : Cplx R} {n : Nat} (h : ExactRoot w n)
    (m : Nat) : Cplx.conj w ^ m * w ^ m = 1 := by
  rw [← mul_pow, h.conj_mul, one_pow]

theorem ExactRoot.conj_pow_eq [CommRing R] {w : Cplx R} {n : Nat} (h : ExactRoot w n)
    {k : Nat} (hk : k ≤ n) (x : Nat) : Cplx.conj w ^ (x * k) = w ^ (x * (n - k)) := by
  apply inv_unique (c := w ^ (x * k)) (h.conj_pow_mul _)
  rw [← pow_add, ← Nat.mul_add, Nat.sub_add_cancel hk, Nat.mul_comm, h.pow_mul_n]

theorem ExactRoot.orthogonal [CommRing R] {w : Cplx R} {n : Nat} (h : ExactRoot w n)
    {a b : Nat} (ha : a < n) (hb : b < n) :
    ∑ l in Finset.range n, w ^ (a * l) * Cplx.conj w ^ (b * l)
      = if a = b then (n : Cplx R) else 0 := by
  by_cases hab : a = b
  · subst hab
    rw [if_pos rfl]
    have : ∀ l ∈ Finset.range n, w ^ (a * l) * Cplx.conj w ^ (a * l) = 1 := by
      intro l _
      rw [mul_comm]
      exact h.conj_pow_mul _
    rw [Finset.sum_congr rfl this]
    simp
  · rw [if_neg hab]
    by_cases hlt : b < a
    · have : ∀ l ∈ Finset.range n,
          w ^ (a * l) * Cplx.conj w ^ (b * l) = w ^ (l * (a - b)) := by
        intro l _
        have e : a * l = l * (a - b) + b * l := by
          rw [Nat.mul_comm l, ← Nat.add_mul, Nat.sub_add_cancel (by omega)]
        rw [e, pow_add, mul_assoc, mul_comm (w ^ (b * l)), h.conj_pow_mul, mul_one]
      rw [Finset.sum_congr rfl this]
      exact h.orth (a - b) (by omega) (by omega)
    · have : ∀ l ∈ Finset.range n,
          w ^ (a * l) * Cplx.conj w ^ (b * l) = w ^ (l * (n - (b - a))) := by
        intro l _
        have e : b * l = a * l + l * (b - a) := by
          rw [Nat.mul_comm l, ← Nat.add_mul]
          congr 1; omega
        rw [e, pow_add, ← mul_assoc, mul_comm (w ^ (a * l)), h.conj_pow_mul, one_mul,
          h.conj_pow_eq (by omega)]
      rw [Finset.sum_congr rfl this]
      exact h.orth (n - (b - a)) (by omega) (by omega)

theorem Cplx.ofReal_mul [CommRing R] (a b : R) :
    Cplx.ofReal (a * b) = Cplx.ofReal a * Cplx.ofReal b := by
  ext <;> simp

theorem Cplx.ofReal_sum [CommRing R] (s : Finset Nat) (f : Nat → R) :
    Cplx.ofReal (∑ i in s, f i) = ∑ i in s, Cplx.ofReal (f i) := by
  induction s using Finset.induction_on with
  | empty => ext <;> simp
  | insert hi ih =>
    rw [Finset.sum_insert hi, Finset.sum_insert hi, ← ih]
    ext <;> simp

theorem mod_shift_back {n x u : Nat} (hx : x < n) (hu : u < n) :
    ((x + n - u) % n + u) % n = x := by
  by_cases h : u ≤ x
  · have e : x + n - u = (x - u) + n := by omega
    have e1 : (x + n - u) % n = x - u := by
      rw [e, Nat.add_mod_right]
      exact Nat.mod_eq_of_lt (by omega)
    rw [e1, Nat.sub_add_cancel h]
    exact Nat.mod_eq_of_lt hx
  · have e1 : (x + n - u) % n = x + n - u := Nat.mod_eq_of_lt (by omega)
    have e : x + n - u + u = x + n := by omega
    rw [e1, e, Nat.add_mod_right]
    exact Nat.mod_eq_of_lt hx

theorem mod_shift_forth {n x u : Nat} (hx : x < n) (hu : u < n) :
    ((x + u) % n + n - u) % n = x := by
  by_cases h : x + u < n
  · have e1 : (x + u) % n = x + u := Nat.mod_eq_of_lt h
    have e : x + u + n - u = x + n := by omega
    rw [e1, e, Nat.add_mod_right]
    exact Nat.mod_eq_of_lt hx
  · have e1 : (x + u) % n = x + u - n := by
      rw [Nat.mod_eq_sub_mod (by omega)]
      exact Nat.mod_eq_of_lt (by omega)
    have e2 : x + u - n + n - u = x := by omega
    rw [e1, e2]
    exact Nat.mod_eq_of_lt hx

/-- Shift theorem in one variable. -/
theorem ExactRoot.shift [CommRing R] {w : Cplx R} {n : Nat} (h : ExactRoot w n)
    (f : Nat → Cplx R) {u : Nat} (hu : u < n) (k : Nat) :
    ∑ x in Finset.range n, f ((x + n - u) % n) * w ^ (x * k)
      = w ^ (u * k) * ∑ x in Finset.range n, f x * w ^ (x * k) := by
  have hn : 0 < n := by omega
  rw [Finset.mul_sum]
  apply Finset.sum_nbij' (fun x => (x + n - u) % n) (fun x => (x + u) % n)
  · intro x _
    exact Finset.mem_range.mpr (Nat.mod_lt _ hn)
  · intro x _
    exact Finset.mem_range.mpr (Nat.mod_lt _ hn)
  · intro x hx
    exact mod_shift_back (Finset.mem_range.mp hx) hu
  · intro x hx
    exact mod_shift_forth (Finset.mem_range.mp hx) hu
  · intro x hx
    have hx' := Finset.mem_range.mp hx
    have e : w ^ (x * k) = w ^ (((x + n - u) % n + u) * k) := by
      rw [← h.pow_mod ((x + n - u) % n + u) k, mod_shift_back hx' hu]
    rw [e, add_mul, pow_add]
    ring

theorem ExactRoot.rowDFT_circ [CommRing R] {w : Cplx R} {n : Nat} (h : ExactRoot w n)
    (a c : Nat → Nat → R) (y k : Nat) :
    rowDFT w n (circ n a c) y k
      = ∑ v in Finset.range n, rowDFT w n a v k * rowDFT w n c ((y + n - v) % n) k := by
  unfold rowDFT circ
  simp only [Cplx.ofReal_sum, Cplx.ofReal_mul, Finset.sum_mul]
  rw [Finset.sum_comm]
  apply Finset.sum_congr rfl
  intro v _
  rw [Finset.sum_comm]
  apply Finset.sum_congr rfl
  intro u hu
  have hs := h.shift (fun x => Cplx.ofReal (c x ((y + n - v) % n))) (Finset.mem_range.mp hu) k
  simp only at hs
  calc ∑ x in Finset.range n,
        Cplx.ofReal (a u v) * Cplx.ofReal (c ((x + n - u) % n) ((y + n - v) % n)) * w ^ (x * k)
      = Cplx.ofReal (a u v) * ∑ x in Finset.range n,
          Cplx.ofReal (c ((x + n - u) % n) ((y + n - v) % n)) * w ^ (x * k) := by
        rw [Finset.mul_sum]
        apply Finset.sum_congr rfl
        intro x _
        ring
    _ = Cplx.ofReal (a u v) * w ^ (u * k)
          * ∑ x in Finset.range n, Cplx.ofReal (c x ((y + n - v) % n)) * w ^ (x * k) := by
        rw [hs]; ring

/-- Convolution theorem on the `n × n` torus. -/
theorem ExactRoot.planeDFT_circ [CommRing R] {w : Cplx R} {n : Nat} (h : ExactRoot w n)
    (a c : Nat → Nat → R) (k l : Nat) :
    planeDFT w n (circ n a c) k l = planeDFT w n c k l * planeDFT w n a k l := by
  unfold planeDFT
  conv_lhs =>
    simp only [h.rowDFT_circ, Finset.sum_mul]
    rw [Finset.sum_comm]
  rw [Finset.mul_sum]
  apply Finset.sum_congr rfl
  intro v hv
  have hs := h.shift (fun y => rowDFT w n c y k) (Finset.mem_range.mp hv) l
  simp only at hs
  calc ∑ y in Finset.range n, rowDFT w n a v k * rowDFT w n c ((y + n - v) % n) k * w ^ (y * l)
      = rowDFT w n a v k
          * ∑ y in Finset.range n, rowDFT w n c ((y + n - v) % n) k * w ^ (y * l) := by
        rw [Finset.mul_sum]
        apply Finset.sum_congr rfl
        intro y _
        ring
    _ = (∑ y in Finset.range n, rowDFT w n c y k * w ^ (y * l))
          * (rowDFT w n a v k * w ^ (v * l)) := by
        rw [hs]; ring

/-- Inverting the column transform: `Σ_l S(k, l) w^(-y l) = n · (row transform of row y)`. -/
theorem ExactRoot.column_inverse [CommRing R] {w : Cplx R} {n : Nat} (h : ExactRoot w n)
    (s : Nat → Nat → R) {y : Nat} (hy : y < n) (k : Nat) :
    ∑ l in Finset.range n, planeDFT w n s k l * Cplx.conj w ^ (y * l)
      = (n : Cplx R) * rowDFT w n s y k := by
  unfold planeDFT
  conv_lhs =>
    simp only [Finset.sum_mul]
    rw [Finset.sum_comm]
  have : ∀ y' ∈ Finset.range n,
      ∑ l in Finset.range n, rowDFT w n s y' k * w ^ (y' * l) * Cplx.conj w ^ (y * l)
        = rowDFT w n s y' k * (if y' = y then (n : Cplx R) else 0) := by
    intro y' hy'
    rw [← h.orthogonal (Finset.mem_range.mp hy') hy, Finset.mul_sum]
    apply Finset.sum_congr rfl
    intro l _
    ring
  rw [Finset.sum_congr rfl this]
  simp only [mul_ite, mul_zero]
  rw [Finset.sum_ite_eq' (Finset.range n) y, if_pos (Finset.mem_range.mpr hy)]
  ring

/-- Inverting the row transform: `Σ_k (row transform)(k) w^(-x k) = n · s(x, y)`. -/
theorem ExactRoot.row_inverse [CommRing R] {w : Cplx R} {n : Nat} (h : ExactRoot w n)
    (s : Nat → Nat → R) {x : Nat} (hx : x < n) (y : Nat) :
    ∑ k in Finset.range n, rowDFT w n s y k * Cplx.conj w ^ (x * k)
      = (n : Cplx R) * Cplx.ofReal (s x y) := by
  unfold rowDFT
  conv_lhs =>
    simp only [Finset.sum_mul]
    rw [Finset.sum_comm]
  have : ∀ x' ∈ Finset.range n,
      ∑ k in Finset.range n, Cplx.ofReal (s x' y) * w ^ (x' * k) * Cplx.conj w ^ (x * k)
        = Cplx.ofReal (s x' y) * (if x' = x then (n : Cplx R) else 0) := by
    intro x' hx'
    rw [← h.orthogonal (Finset.mem_range.mp hx') hx, Finset.mul_sum]
    apply Finset.sum_congr rfl
    intro l _
    ring
  rw [Finset.sum_congr rfl this]
  simp only [mul_ite, mul_zero]
  rw [Finset.sum_ite_eq' (Finset.range n) x, if_pos (Finset.mem_range.mpr hx)]
  ring

/-- Conjugate symmetry of the row transform of a real field. -/
theorem ExactRoot.rowDFT_conj [CommRing R] {w : Cplx R} {n : Nat} (h : ExactRoot w n)
    (s : Nat → Nat → R) (y : Nat) {k : Nat} (hk : k ≤ n) :
    Cplx.conj (rowDFT w n s y (n - k)) = rowDFT w n s y k := by
  unfold rowDFT
  rw [Cplx.conj_sum]
  apply Finset.sum_congr rfl
  intro x _
  rw [Cplx.conj_mul, Cplx.conj_ofReal, Cplx.conj_pow, h.conj_pow_eq (Nat.sub_le n k),
    Nat.sub_sub_self hk]

theorem getD_map_range {α : Type} (len : Nat) (f : Nat → α) (i : Nat) (d : α) (h : i < len) :
    ((List.range len).map f).getD i d = f i :=
  getD_tab len f i d h

theorem rowSpectrum_getD [Field R] (w : Cplx R) {n y k : Nat} (hy : y < n)
    (hk : k < n / 2 + 1) (cur : Grid) :
    (rowSpectrum (exactDFT w) n cur).getD (y * (n / 2 + 1) + k) 0
      = rowDFT w n (gridField n cur) y k := by
  unfold rowSpectrum
  rw [getD_tab _ _ _ _ (flat_lt2 hk hy), flat_div hk, flat_mod hk]
  show ((List.range (n / 2 + 1)).map _).getD k 0 = _
  rw [getD_map_range _ _ _ _ hk]
  unfold rowDFT
  apply Finset.sum_congr rfl
  intro x hx
  rw [rowVals, getD_tab _ _ _ _ (Finset.mem_range.mp hx)]
  rfl

theorem kernelRowSpectrum_getD [Field R] (w : Cplx R) {n v k : Nat} (hv : v < n)
    (hk : k < n / 2 + 1) (kr : List R) :
    (kernelRowSpectrum (exactDFT w) n kr).getD (v * (n / 2 + 1) + k) 0
      = rowDFT w n (listField n kr) v k := by
  unfold kernelRowSpectrum
  rw [getD_tab _ _ _ _ (flat_lt2 hk hv), flat_div hk, flat_mod hk]
  show ((List.range (n / 2 + 1)).map _).getD k 0 = _
  rw [getD_map_range _ _ _ _ hk]
  unfold rowDFT
  apply Finset.sum_congr rfl
  intro x hx
  rw [getD_tab _ _ _ _ (Finset.mem_range.mp hx)]
  rfl

theorem colTransform_getD [Field R] (T : Nat → List (Cplx R) → List (Cplx R))
    {n h l k : Nat} (hl : l < n) (hk : k < h) (b : List (Cplx R)) :
    (colTransform T n h b).getD (l * h + k) 0 = (T n (column n h b k)).getD l 0 := by
  unfold colTransform
  rw [getD_tab _ _ _ _ (flat_lt2 hk hl), flat_div hk, flat_mod hk]
  rfl

theorem forward_column_getD [Field R] (w : Cplx R) {n h l k : Nat} (hl : l < n) (hk : k < h)
    (b : List (Cplx R)) :
    (colTransform (exactDFT w).cmplxCoefficients n h b).getD (l * h + k) 0
      = ∑ y in Finset.range n, b.getD (y * h + k) 0 * w ^ (y * l) := by
  rw [colTransform_getD _ hl hk]
  show ((List.range n).map _).getD l 0 = _
  rw [getD_map_range _ _ _ _ hl]
  apply Finset.sum_congr rfl
  intro y hy
  rw [column, getD_tab _ _ _ _ (Finset.mem_range.mp hy)]
  rfl

theorem inverse_column_getD [Field R] (w : Cplx R) {n h y k : Nat} (hy : y < n) (hk : k < h)
    (b : List (Cplx R)) :
    (colTransform (exactDFT w).cmplxSequence n h b).getD (y * h + k) 0
      = ∑ l in Finset.range n, b.getD (l * h + k) 0 * Cplx.conj w ^ (y * l) := by
  rw [colTransform_getD _ hy hk]
  show ((List.range n).map _).getD y 0 = _
  rw [getD_map_range _ _ _ _ hy]
  apply Finset.sum_congr rfl
  intro l hl
  rw [column, getD_tab _ _ _ _ (Finset.mem_range.mp hl)]
  rfl

theorem pointwise_getD [Field R] (fb kf : List (Cplx R)) {i : Nat} (hi : i < fb.length) :
    (pointwise fb kf).getD i 0 = fb.getD i 0 * kf.getD i 0 := by
  unfold pointwise
  rw [getD_tab _ _ _ _ hi]
  rfl

/-- The spectrum `stepFFT` hands to the inverse row pass, read exactly: row `y`, frequency `k`
holds `n` times the row transform of the circular convolution of kernel field and grid. -/
theorem convSpectrum_getD [Field R] {w : Cplx R} {n : Nat} (h : ExactRoot w n) (kr : List R)
    (cur : Grid) {y k : Nat} (hy : y < n) (hk : k < n / 2 + 1) :
    (convSpectrum (exactDFT w) n
        (colTransform (exactDFT w).cmplxCoefficients n (n / 2 + 1)
          (kernelRowSpectrum (exactDFT w) n kr)) cur).getD (y * (n / 2 + 1) + k) 0
      = (n : Cplx R) * rowDFT w n (circ n (listField n kr) (gridField n cur)) y k := by
  unfold convSpectrum
  rw [inverse_column_getD w hy hk, ← h.column_inverse _ hy k]
  apply Finset.sum_congr rfl
  intro l hl
  have hl' := Finset.mem_range.mp hl
  rw [pointwise_getD _ _ (by simpa [colTransform] using flat_lt2 hk hl'),
    forward_column_getD w hl' hk, forward_column_getD w hl' hk, h.planeDFT_circ]
  congr 1
  unfold planeDFT
  congr 1
  · apply Finset.sum_congr rfl
    intro y' hy'
    rw [rowSpectrum_getD w (Finset.mem_range.mp hy') hk]
  · apply Finset.sum_congr rfl
    intro v hv
    rw [kernelRowSpectrum_getD w (Finset.mem_range.mp hv) hk]

theorem rowOf_getD [Field R] (h : Nat) (b : List (Cplx R)) (y : Nat) {k : Nat} (hk : k < h) :
    (rowOf h b y).getD k 0 = b.getD (y * h + k) 0 := by
  unfold rowOf
  rw [getD_tab _ _ _ _ hk]
  rfl

/-- The inverse row pass of `stepFFT`, read exactly, recovers `n²` times the circular
convolution of the kernel field with the grid. -/
theorem inverse_row_getD [Field R] {w : Cplx R} {n : Nat} (h : ExactRoot w n) (kr : List R)
    (cur : Grid) {x y : Nat} (hx : x < n) (hy : y < n) :
    ((exactDFT w).realSequence n (rowOf (n / 2 + 1)
        (convSpectrum (exactDFT w) n
          (colTransform (exactDFT w).cmplxCoefficients n (n / 2 + 1)
            (kernelRowSpectrum (exactDFT w) n kr)) cur) y)).getD x 0
      = (n : R) * ((n : R) * circ n (listField n kr) (gridField n cur) x y) := by
  show ((List.range n).map _).getD x 0 = _
  rw [getD_map_range _ _ _ _ hx]
  have herm : ∀ k ∈ Finset.range n,
      hermitian n (rowOf (n / 2 + 1)
        (convSpectrum (exactDFT w) n
          (colTransform (exactDFT w).cmplxCoefficients n (n / 2 + 1)
            (kernelRowSpectrum (exactDFT w) n kr)) cur) y) k * Cplx.conj w ^ (x * k)
        = (n : Cplx R) * (rowDFT w n (circ n (listField n kr) (gridField n cur)) y k
            * Cplx.conj w ^ (x * k)) := by
    intro k hk
    have hk' := Finset.mem_range.mp hk
    rw [← mul_assoc]
    congr 1
    unfold hermitian
    split
    · next h2 =>
      rw [rowOf_getD _ _ _ (by omega), convSpectrum_getD h kr cur hy (by omega)]
    · next h2 =>
      rw [rowOf_getD _ _ _ (by omega), convSpectrum_getD h kr cur hy (by omega),
        Cplx.conj_mul, Cplx.conj_natCast, h.rowDFT_conj _ _ (by omega)]
  rw [Finset.sum_congr rfl herm, ← Finset.mul_sum, h.row_inverse _ hx y]
  simp [Cplx.natCast_re, Cplx.natCast_im]

theorem ruleFFT_intCast [LinearOrderedField R] (z : Int) :
    ruleFFT ((z : Int) : R) = ruleConvolution z := by
  unfold ruleFFT ruleConvolution
  congr 1
  · rw [decide_eq_decide]
    constructor
    · intro h
      have h4 : ((4 : Int) : R) < (z : R) := by
        have : ((4 : Int) : R) < 4.5 := by norm_num
        exact lt_of_lt_of_le this h
      have := Int.cast_lt.mp h4
      omega
    · intro h
      have h5 : ((5 : Int) : R) ≤ (z : R) := Int.cast_le.mpr h
      have : (4.5 : R) ≤ ((5 : Int) : R) := by norm_num
      exact le_trans this h5
  · rw [decide_eq_decide]
    constructor
    · intro h
      have h8 : (z : R) < ((8 : Int) : R) := by
        have : (7.5 : R) < ((8 : Int) : R) := by norm_num
        exact lt_of_le_of_lt h this
      have := Int.cast_lt.mp h8
      omega
    · intro h
      have h7 : (z : R) ≤ ((7 : Int) : R) := Int.cast_le.mpr h
      have : ((7 : Int) : R) ≤ 7.5 := by norm_num
      exact le_trans h7 this

/-- For `n ≥ 3`, with the transforms read as the exact DFT, the grid `stepFFT` writes after
`initFFT` is the grid `stepConvolution` writes. -/
theorem thresholdGrid_exact [LinearOrderedField R] {w : Cplx R} {n : Nat} (h : ExactRoot w n)
    (hn : 3 ≤ n) (cur : Grid) :
    thresholdGrid (exactDFT w) n (1 / (((n : Int) * (n : Int) : Int) : R))
        (convSpectrum (exactDFT w) n (kernelSpectrum (exactDFT w) n) cur)
      = (List.range (n * n)).map (fun i => ruleConvolution
          (2 * liveCount n cur (i % n) (i / n) + b2i (cell n cur (i % n) (i / n)))) := by
  obtain ⟨kr, hkr, _, hw⟩ := kernelReal_three (R := R) hn
  unfold thresholdGrid kernelSpectrum
  rw [hkr, Option.getD_some]
  apply tab_congr
  intro i hi
  have hx : i % n < n := Nat.mod_lt _ (by omega)
  have hy : i / n < n := Nat.div_lt_of_lt_mul hi
  have hn0 : (n : R) ≠ 0 := by
    have : 0 < n := by omega
    exact_mod_cast this.ne'
  rw [inverse_row_getD h kr cur hx hy]
  have hs : circ n (listField n kr) (gridField n cur) (i % n) (i / n)
      = circularSum n kr cur (i % n) (i / n) := rfl
  rw [hs, circularSum_three hn kr hw cur hx hy, ← ruleFFT_intCast (R := R)]
  congr 1
  push_cast
  field_simp
  ring

/-- For every size `N ≥ 3` (a power of two or not) and every grid of length `N*N`, with the
transforms read as the exact DFT for a root of unity `w` of order `N`, `initFFT` followed by
`stepFFT` runs to its end, leaves `current` alone and writes into `next` the grid that
`stepTraditional` and `stepConvolution` write. -/
theorem stepFFT_agrees_of_three_le {R : Type} [LinearOrderedField R] (w : Cplx R) (N : Int)
    (hN : 3 ≤ N) (hw : ExactRoot w N.toNat) (cur next : Grid)
    (hcur : (cur.length : Int) = N * N) (hnext : (next.length : Int) = N * N) :
    ∃ (m : FFTMem R) (out : Grid),
      runFFT w N cur next = .done m ∧ m.current = cur ∧ m.next = out
        ∧ stepTraditional N ⟨cur, next⟩ = .done ⟨cur, out⟩
        ∧ stepConvolution N ⟨cur, next⟩ = .done ⟨cur, out⟩ := by
  obtain ⟨n, hn, rfl, hc⟩ := size_nat (by omega : (1 : Int) ≤ N) hcur
  have hx : next.length = n * n := by exact_mod_cast hnext
  rw [Int.toNat_natCast] at hw
  have hn3 : 3 ≤ n := by omega
  unfold runFFT
  rw [initFFT_eq (exactDFT w) hn (startMem (n : Int) cur next) rfl, andThen_done]
  have e1 : (startMem (R := R) (n : Int) cur next).current = cur := rfl
  have e2 : (startMem (R := R) (n : Int) cur next).next = next := rfl
  rw [e1, e2]
  rw [stepFFT_eq (exactDFT w) hn _ _ _ _ _ cur next (by simp [kernelSpectrum, colTransform])
    (by simp) (by simp) (by simp) hc hx]
  refine ⟨_, _, rfl, rfl, rfl, ?_, ?_⟩
  · rw [stepTraditional_eq hn hc hx, thresholdGrid_exact hw hn3]
    congr 2
    apply List.map_congr_left
    intro i _
    exact (rule_agree _ _).symm
  · rw [stepConvolution_eq hn hc hx, thresholdGrid_exact hw hn3]

theorem exactRoot_minusI : ExactRoot minusI 4 where
  pow_n := by decide!
  conj_mul := by decide!
  orth := by
    intro k h0 h4
    interval_cases k <;> decide!

theorem exactRoot_minusOne : ExactRoot minusOne 2 where
  pow_n := by decide!
  conj_mul := by decide!
  orth := by
    intro k h0 h2
    interval_cases k
    decide!

theorem ofComplex_one : ofComplex 1 = 1 := by
  ext <;> simp [ofComplex]

theorem ofComplex_zero : ofComplex 0 = 0 := by
  ext <;> simp [ofComplex]

theorem ofComplex_mul (a b : ℂ) : ofComplex (a * b) = ofComplex a * ofComplex b := by
  ext <;> simp [ofComplex]

theorem ofComplex_add (a b : ℂ) : ofComplex (a + b) = ofComplex a + ofComplex b := by
  ext <;> simp [ofComplex]

theorem ofComplex_pow (a : ℂ) (m : Nat) : ofComplex (a ^ m) = ofComplex a ^ m := by
  induction m with
  | zero => simp [ofComplex_one]
  | succ m ih => rw [pow_succ, pow_succ, ofComplex_mul, ih]

theorem ofComplex_sum (s : Finset Nat) (f : Nat → ℂ) :
    ofComplex (∑ i in s, f i) = ∑ i in s, ofComplex (f i) := by
  induction s using Finset.induction_on with
  | empty => simp [ofComplex_zero]
  | insert hi ih => rw [Finset.sum_insert hi, Finset.sum_insert hi, ofComplex_add, ih]

theorem ofComplex_conj (a : ℂ) : Cplx.conj (ofComplex a) = ofComplex (starRingEnd ℂ a) := by
  ext <;> simp [ofComplex]

/-- Over the real numbers an exact root of unity exists for every length `n ≥ 1`: the number
`exp(-2πi/n)`. -/
theorem exactRoot_exists (n : Nat) (hn : 0 < n) : ∃ w : Cplx ℝ, ExactRoot w n := by
  have hn0 : n ≠ 0 := by omega
  have hp : IsPrimitiveRoot (Complex.exp (2 * Real.pi * Complex.I / n))⁻¹ n :=
    (Complex.isPrimitiveRoot_exp n hn0).inv
  generalize (Complex.exp (2 * Real.pi * Complex.I / n))⁻¹ = z at hp
  refine ⟨ofComplex z, ?_, ?_, ?_⟩
  · rw [← ofComplex_pow, hp.pow_eq_one, ofComplex_one]
  · rw [ofComplex_conj, ← ofComplex_mul, ← ofComplex_one]
    congr 1
    rw [mul_comm, Complex.mul_conj, Complex.normSq_eq_abs]
    have : Complex.abs z = 1 := Complex.norm_eq_one_of_pow_eq_one hp.pow_eq_one hn0
    rw [this]
    simp
  · intro k h0 hk
    have hne : z ^ k ≠ 1 := hp.pow_ne_one_of_pos_of_lt h0 hk
    have hsum : ∑ j in Finset.range n, (z ^ k) ^ j = 0 := by
      rw [geom_sum_eq hne, ← pow_mul, mul_comm, pow_mul, hp.pow_eq_one, one_pow, sub_self,
        zero_div]
    have : ∀ j ∈ Finset.range n, ofComplex z ^ (j * k) = ofComplex ((z ^ k) ^ j) := by
      intro j _
      rw [← pow_mul, mul_comm, ofComplex_pow]
    rw [Finset.sum_congr rfl this, ← ofComplex_sum, hsum, ofComplex_zero]

/-- For every size `N ≥ 3` the kernel field of `initFFT` makes circular convolution equal to
the weighted sum of `stepConvolution` at every cell. -/
theorem kernelReal_circular_of_three_le {R : Type} [Field R] (N : Int) (hN : 3 ≤ N)
    (g : Grid) (hg : (g.length : Int) = N * N) (x y : Nat) (hx : (x : Int) < N)
    (hy : (y : Int) < N) :
    ∃ (kr : List R) (s : Int), kernelReal N = some kr ∧ kernelSum N g x y = some s
      ∧ circularSum N.toNat kr g x y = (s : R) := by
  obtain ⟨n, hn, rfl, hc⟩ := size_nat (by omega : (1 : Int) ≤ N) hg
  have hx' : x < n := by exact_mod_cast hx
  have hy' : y < n := by exact_mod_cast hy
  obtain ⟨kr, hkr, _, hw⟩ := kernelReal_three (R := R) (by omega : 3 ≤ n)
  rw [Int.toNat_natCast]
  exact ⟨kr, _, hkr, kernelSum_eq hn hx' hy' hc,
    circularSum_three (by omega) kr hw g hx' hy'⟩

/-- For `size = 1` the two paths agree on both grids: the kernel field is `[2]`, and the sums
`0` and `2` are outside the band just as the counts `0` and `8` are. -/
theorem stepFFT_agrees_at_one :
    (runFFT (1 : Cplx ℚ) 1 [true] (newGrid 1)).finished = true
    ∧ (runFFT (1 : Cplx ℚ) 1 [true] (newGrid 1)).mem.next = [false]
    ∧ stepTraditional 1 ⟨[true], newGrid 1⟩ = .done ⟨[true], [false]⟩
    ∧ (runFFT (1 : Cplx ℚ) 1 [false] (newGrid 1)).finished = true
    ∧ (runFFT (1 : Cplx ℚ) 1 [false] (newGrid 1)).mem.next = [false]
    ∧ stepTraditional 1 ⟨[false], newGrid 1⟩ = .done ⟨[false], [false]⟩ := by
  decide!

/-- C10: on the 4 × 4 torus with exactly the cells `(1,0)`, `(1,1)`, `(1,2)` alive,
`stepConvolution`, `stepTraditional` and `stepFFT` after `initFFT` (the transforms read as the
exact DFT, whose root of unity for `N = 4` is `-i`) all run to their end and write the same
next grid, the one whose live cells are exactly `(0,1)`, `(1,1)`, `(2,1)`. -/
theorem blinker_agree :
    ExactRoot minusI 4
    ∧ stepConvolution 4 ⟨blinker4, newGrid 4⟩ = .done ⟨blinker4, blinkerNext4⟩
    ∧ stepTraditional 4 ⟨blinker4, newGrid 4⟩ = .done ⟨blinker4, blinkerNext4⟩
    ∧ (runFFT minusI 4 blinker4 (newGrid 4)).finished = true
    ∧ (runFFT minusI 4 blinker4 (newGrid 4)).mem.next = blinkerNext4
    ∧ (runFFT minusI 4 blinker4 (newGrid 4)).mem.current = blinker4
    ∧ (∀ x y : Fin 4, Grid.get 4 blinker4 x y = some (decide (x = 1 ∧ y ≤ 2)))
    ∧ (∀ x y : Fin 4, Grid.get 4 blinkerNext4 x y = some (decide (x ≤ 2 ∧ y = 1))) :=
  ⟨exactRoot_minusI, by decide!⟩

/-- C1 at its failing input: for `size = 2`, which the size check of `main` accepts, and the
all-true grid, `stepFFT` after `initFFT` (exact DFT, root of unity `-1`) writes the all-true
grid while `stepTraditional` writes the all-false grid.  The spatial kernel field is
`[1, 2, 2, 2]`: the offsets `-1` and `+1` wrap to the same cell and the later store
overwrites the earlier one. -/
theorem stepFFT_differs_at_two :
    ExactRoot minusOne 2
    ∧ (runFFT minusOne 2 [true, true, true, true] (newGrid 2)).finished = true
    ∧ (runFFT minusOne 2 [true, true, true, true] (newGrid 2)).mem.next
        = [true, true, true, true]
    ∧ stepTraditional 2 ⟨[true, true, true, true], newGrid 2⟩
        = .done ⟨[true, true, true, true], [false, false, false, false]⟩
    ∧ goMod (-1 + 2) 2 = goMod (1 + 2) 2 :=
  ⟨exactRoot_minusOne, by decide!⟩

/-- C4 at its failing inputs: for `N = 2` the kernel field of `initFFT` is `[1, 2, 2, 2]`, so
the circular convolution with the all-true grid is `7` at cell `(0,0)` where
`stepConvolution` computes `17`; for `N = 1` the field is `[2]` and the sums are `2` and
`17`. -/
theorem kernelReal_aliases_at_two :
    kernelReal (R := ℚ) 2 = some [1, 2, 2, 2]
    ∧ circularSum (R := ℚ) 2 [1, 2, 2, 2] [true, true, true, true] 0 0 = 7
    ∧ kernelSum 2 [true, true, true, true] 0 0 = some 17
    ∧ kernelReal (R := ℚ) 1 = some [2]
    ∧ circularSum (R := ℚ) 1 [2] [true] 0 0 = 2
    ∧ kernelSum 1 [true] 0 0 = some 17 := by
  decide!

/-! ## The widened threshold -/

/-- C11: for every integer `s` and every number `v` of an ordered field with `|v - s| < 1/2`,
the floating test of `stepFFT` (`4.5 ≤ v` and `v ≤ 7.5`) holds if and only if the exact test
of `stepConvolution` (`5 ≤ s ≤ 7`) holds; so the two band tests, as the steppers compute
them, give the same boolean. -/
theorem ruleFFT_widened_band [LinearOrderedField R] (s : Int) (v : R)
    (h : |v - (s : R)| < 1 / 2) :
    (((4.5 : R) ≤ v ∧ v ≤ 7.5) ↔ (5 ≤ s ∧ s ≤ 7))
      ∧ (ruleFFT v = true ↔ ruleConvolution s = true)
      ∧ ruleFFT v = ruleConvolution s := by
  obtain ⟨hlo, hhi⟩ := abs_lt.mp h
  have key : ((4.5 : R) ≤ v ∧ v ≤ 7.5) ↔ (5 ≤ s ∧ s ≤ 7) := by
    constructor
    · rintro ⟨h1, h2⟩
      have h4 : ((4 : Int) : R) < (s : R) := by
        push_cast
        linarith [show (4.5 : R) = 4 + 1 / 2 by norm_num]
      have h8 : (s : R) < ((8 : Int) : R) := by
        push_cast
        linarith [show (7.5 : R) = 8 - 1 / 2 by norm_num]
      have a := Int.cast_lt.mp h4
      have b := Int.cast_lt.mp h8
      omega
    · rintro ⟨h1, h2⟩
      have h5 : ((5 : Int) : R) ≤ (s : R) := Int.cast_le.mpr h1
      have h7 : (s : R) ≤ ((7 : Int) : R) := Int.cast_le.mpr h2
      push_cast at h5 h7
      constructor
      · linarith [show (4.5 : R) = 4 + 1 / 2 by norm_num]
      · linarith [show (7.5 : R) = 8 - 1 / 2 by norm_num]
  have hb : ruleFFT v = true ↔ ruleConvolution s = true := by
    simp only [ruleFFT, ruleConvolution, Bool.and_eq_true, decide_eq_true_eq, ge_iff_le]
    exact key
  refine ⟨key, hb, ?_⟩
  cases h1 : ruleFFT v <;> cases h2 : ruleConvolution s <;> simp_all

theorem ruleFFT_widened_band_witness :
    |(27 / 5 : ℚ) - ((5 : Int) : ℚ)| < 1 / 2
      ∧ ((((4.5 : ℚ) ≤ 27 / 5 ∧ (27 / 5 : ℚ) ≤ 7.5) ↔ ((5 : Int) ≤ 5 ∧ (5 : Int) ≤ 7))
        ∧ (ruleFFT (27 / 5 : ℚ) = true ↔ ruleConvolution 5 = true)
        ∧ ruleFFT (27 / 5 : ℚ) = ruleConvolution 5) :=
  ⟨by norm_num [abs_lt], ruleFFT_widened_band 5 (27 / 5) (by norm_num [abs_lt])⟩

/-! ## Bounds of the indices the integer steppers compute -/

theorem goMod_offset_emod {N x d : Int} (hN : 1 ≤ N) (hx0 : 0 ≤ x) (hd : -1 ≤ d) :
    goMod (x + d + N) N = (x + d) % N := by
  unfold goMod
  rw [Int.tmod_eq_emod (by omega) (by omega), Int.add_emod_self]

theorem flat_bounds {N x y : Int} (hx0 : 0 ≤ x) (hx : x < N) (hy0 : 0 ≤ y) (hy : y < N) :
    0 ≤ y * N + x ∧ y * N + x < N * N := by
  have hN : 0 ≤ N := by omega
  have h1 : 0 ≤ y * N := mul_nonneg hy0 hN
  have h2 : (y + 1) * N ≤ N * N := mul_le_mul_of_nonneg_right (by omega) hN
  have h3 : (y + 1) * N = y * N + N := by ring
  constructor
  · omega
  · omega

/-- C16: for every `N ≥ 1`, every `x, y` in `[0, N)` and every `dx, dy` in `{-1, 0, 1}`, the
wrapped coordinates `(x + dx + N) % N` and `(y + dy + N) % N`, computed with Go's truncating
`%`, lie in `[0, N)` and equal the mathematical `(x + dx) mod N` and `(y + dy) mod N`; the
index `ny*N + nx` read from `current` and the index `y*N + x` written to `next` lie in
`[0, N*N)`; so on grids of length `N*N` the read and the write succeed, and
`stepTraditional` and `stepConvolution` run to their end without a bounds panic. -/
theorem steppers_stay_in_bounds (N x y dx dy : Int) (hN : 1 ≤ N)
    (hx0 : 0 ≤ x) (hx : x < N) (hy0 : 0 ≤ y) (hy : y < N)
    (hdx : dx = -1 ∨ dx = 0 ∨ dx = 1) (hdy : dy = -1 ∨ dy = 0 ∨ dy = 1)
    (current next : Grid) (hcur : (current.length : Int) = N * N)
    (hnext : (next.length : Int) = N * N) (v : Bool) :
    (0 ≤ goMod (x + dx + N) N ∧ goMod (x + dx + N) N < N
        ∧ goMod (x + dx + N) N = (x + dx) % N)
      ∧ (0 ≤ goMod (y + dy + N) N ∧ goMod (y + dy + N) N < N
        ∧ goMod (y + dy + N) N = (y + dy) % N)
      ∧ (0 ≤ goMod (y + dy + N) N * N + goMod (x + dx + N) N
        ∧ goMod (y + dy + N) N * N + goMod (x + dx + N) N < N * N)
      ∧ (0 ≤ y * N + x ∧ y * N + x < N * N)
      ∧ (Grid.get N current (goMod (x + dx + N) N) (goMod (y + dy + N) N)).isSome = true
      ∧ (Grid.set N next x y v).isSome = true
      ∧ (stepTraditional N ⟨current, next⟩).finished = true
      ∧ (stepConvolution N ⟨current, next⟩).finished = true := by
  have ex := goMod_offset_emod hN hx0 (by omega : -1 ≤ dx)
  have ey := goMod_offset_emod hN hy0 (by omega : -1 ≤ dy)
  have ax : 0 ≤ (x + dx) % N := Int.emod_nonneg _ (by omega)
  have bx : (x + dx) % N < N := Int.emod_lt_of_pos _ (by omega)
  have ay : 0 ≤ (y + dy) % N := Int.emod_nonneg _ (by omega)
  have bY : (y + dy) % N < N := Int.emod_lt_of_pos _ (by omega)
  have hr := flat_bounds ax bx ay bY
  have hw := flat_bounds hx0 hx hy0 hy
  rw [ex, ey]
  refine ⟨⟨ax, bx, rfl⟩, ⟨ay, bY, rfl⟩, hr, hw, ?_, ?_, ?_, ?_⟩
  · rw [Option.isSome_iff_ne_none, ne_eq, Grid.get, index_none_iff]
    omega
  · rw [Option.isSome_iff_ne_none, ne_eq, Grid.set, assign_none_iff]
    omega
  · obtain ⟨n, hn, rfl, hc⟩ := size_nat hN hcur
    have hnx : next.length = n * n := by exact_mod_cast hnext
    rw [stepTraditional_eq hn hc hnx]
    rfl
  · obtain ⟨n, hn, rfl, hc⟩ := size_nat hN hcur
    have hnx : next.length = n * n := by exact_mod_cast hnext
    rw [stepConvolution_eq hn hc hnx]
    rfl

theorem steppers_stay_in_bounds_witness :
    (0 ≤ goMod (0 + -1 + 3) 3 ∧ goMod (0 + -1 + 3) 3 < 3
        ∧ goMod (0 + -1 + 3) 3 = (0 + -1) % 3)
      ∧ (0 ≤ goMod (2 + 1 + 3) 3 ∧ goMod (2 + 1 + 3) 3 < 3
        ∧ goMod (2 + 1 + 3) 3 = (2 + 1) % 3)
      ∧ (0 ≤ goMod (2 + 1 + 3) 3 * 3 + goMod (0 + -1 + 3) 3
        ∧ goMod (2 + 1 + 3) 3 * 3 + goMod (0 + -1 + 3) 3 < 3 * 3)
      ∧ (0 ≤ (2 : Int) * 3 + 0 ∧ (2 : Int) * 3 + 0 < 3 * 3)
      ∧ (Grid.get 3 (newGrid 3) (goMod (0 + -1 + 3) 3) (goMod (2 + 1 + 3) 3)).isSome = true
      ∧ (Grid.set 3 (newGrid 3) 0 2 true).isSome = true
      ∧ (stepTraditional 3 ⟨newGrid 3, newGrid 3⟩).finished = true
      ∧ (stepConvolution 3 ⟨newGrid 3, newGrid 3⟩).finished = true :=
  steppers_stay_in_bounds 3 0 2 (-1) 1 (by decide) (by decide) (by decide) (by decide)
    (by decide) (by decide) (by decide) (newGrid 3) (newGrid 3) (by decide) (by decide) true

/-! ## Row-major addressing -/

theorem flat_inj_int {N x x' : Int} (y y' : Int) (hx0 : 0 ≤ x) (hx : x < N) (hx0' : 0 ≤ x')
    (hx' : x' < N) : y' * N + x' = y * N + x ↔ (x' = x ∧ y' = y) := by
  constructor
  · intro h
    have h1 : (y' * N + x') % N = (y * N + x) % N := by rw [h]
    rw [add_comm, Int.add_mul_emod_self, add_comm (y * N), Int.add_mul_emod_self,
      Int.emod_eq_of_lt hx0' hx', Int.emod_eq_of_lt hx0 hx] at h1
    subst h1
    have h2 : y' * N = y * N := by omega
    have hN : N ≠ 0 := by omega
    exact ⟨rfl, mul_right_cancel₀ hN h2⟩
  · rintro ⟨rfl, rfl⟩
    rfl

theorem newGrid_length {N : Int} (hN : 0 ≤ N) : ((newGrid N).length : Int) = N * N := by
  unfold newGrid
  rw [List.length_replicate, Int.toNat_of_nonneg (mul_nonneg hN hN)]

/-- C18: for every `N ≥ 1`, every grid `g` of length `N*N` (such as `newGrid` makes) and all
`(x, y)`, `(x', y')` in `[0, N)²`: `g.set(x, y, v)` succeeds and keeps the length, after it
`g.get(x, y)` returns `v` and `g.get(x', y')` returns what it returned before whenever
`(x', y')` differs from `(x, y)`; the map `(x, y) ↦ y*N + x` takes `[0, N)²` into
`[0, N*N)`, is injective there, and reaches every index of `[0, N*N)`. -/
theorem row_major_exact (N : Int) (hN : 1 ≤ N) (g : Grid) (hg : (g.length : Int) = N * N)
    (x y x' y' : Int) (hx0 : 0 ≤ x) (hx : x < N) (hy0 : 0 ≤ y) (hy : y < N)
    (hx0' : 0 ≤ x') (hx' : x' < N) (hy0' : 0 ≤ y') (hy' : y' < N) (v : Bool) :
    ((newGrid N).length : Int) = N * N
      ∧ (∃ g', Grid.set N g x y v = some g'
          ∧ g'.length = g.length
          ∧ Grid.get N g' x y = some v
          ∧ (¬ (x' = x ∧ y' = y) → Grid.get N g' x' y' = Grid.get N g x' y'))
      ∧ (0 ≤ y * N + x ∧ y * N + x < N * N)
      ∧ (y' * N + x' = y * N + x ↔ (x' = x ∧ y' = y))
      ∧ (∀ i : Int, 0 ≤ i → i < N * N →
          ∃ a b : Int, 0 ≤ a ∧ a < N ∧ 0 ≤ b ∧ b < N ∧ b * N + a = i) := by
  have hw := flat_bounds hx0 hx hy0 hy
  have hw' := flat_bounds hx0' hx' hy0' hy'
  have inj := flat_inj_int y y' hx0 hx hx0' hx'
  refine ⟨newGrid_length (by omega), ⟨List.set g (y * N + x).toNat v, ?_, ?_, ?_, ?_⟩, hw, inj, ?_⟩
  · unfold Grid.set assign
    rw [if_pos ⟨hw.1, by omega⟩]
  · simp
  · unfold Grid.get index
    rw [if_pos ⟨hw.1, by simp only [List.length_set]; omega⟩]
    rw [List.getElem?_set_self (by omega)]
  · intro hne
    unfold Grid.get index
    have hne2 : (y * N + x).toNat ≠ (y' * N + x').toNat := by
      intro h
      apply hne
      apply inj.mp
      omega
    simp only [List.length_set]
    rw [if_pos ⟨hw'.1, by omega⟩, if_pos ⟨hw'.1, by omega⟩, List.getElem?_set_ne hne2]
  · intro i hi0 hi
    have hNpos : 0 < N := by omega
    refine ⟨i % N, i / N, Int.emod_nonneg _ (by omega), Int.emod_lt_of_pos _ hNpos,
      Int.ediv_nonneg hi0 (by omega), ?_, ?_⟩
    · exact Int.ediv_lt_of_lt_mul hNpos hi
    · rw [mul_comm]
      exact Int.ediv_add_emod i N

theorem row_major_exact_witness :
    ((newGrid 3).length : Int) = 3 * 3
      ∧ (∃ g', Grid.set 3 (newGrid 3) 1 2 true = some g'
          ∧ g'.length = (newGrid 3).length
          ∧ Grid.get 3 g' 1 2 = some true
          ∧ (¬ ((2 : Int) = 1 ∧ (0 : Int) = 2) →
              Grid.get 3 g' 2 0 = Grid.get 3 (newGrid 3) 2 0))
      ∧ (0 ≤ (2 : Int) * 3 + 1 ∧ (2 : Int) * 3 + 1 < 3 * 3)
      ∧ ((0 : Int) * 3 + 2 = 2 * 3 + 1 ↔ ((2 : Int) = 1 ∧ (0 : Int) = 2))
      ∧ (∀ i : Int, 0 ≤ i → i < 3 * 3 →
          ∃ a b : Int, 0 ≤ a ∧ a < 3 ∧ 0 ≤ b ∧ b < 3 ∧ b * 3 + a = i) :=
  row_major_exact 3 (by decide) (newGrid 3) (by decide) 1 2 2 0 (by decide) (by decide)
    (by decide) (by decide) (by decide) (by decide) (by decide) (by decide) true

/-! ## stepFFT keeps no state between calls -/

/-- C14: for arbitrary transform primitives `F` (functions of their source argument, filling
their whole destination), every size `n ≥ 1`, every kernel spectrum and every `current` of the
shapes `initFFT` and `newGrid` give them, `stepFFT` runs to its end and the grid it writes
into `next` is the same for any two initial contents of the scratch buffers `freqBuf`,
`colBuf`, `realBuf` (and of `next`); a second call on the memory the first call leaves, with
the same `current` and any buffer as `next`, writes that same grid again. -/
theorem stepFFT_no_hidden_state [LinearOrderedField R] (F : Fourier R) (n : Nat) (hn : 0 < n)
    (ni : R) (kf fb fb' cb cb' : List (Cplx R)) (rb rb' : List R) (cur nx nx' nx2 : Grid)
    (hkf : kf.length = n * (n / 2 + 1))
    (hfb : fb.length = n * (n / 2 + 1)) (hfb' : fb'.length = n * (n / 2 + 1))
    (hcb : cb.length = n) (hcb' : cb'.length = n) (hrb : rb.length = n) (hrb' : rb'.length = n)
    (hcur : cur.length = n * n)
    (hnx : nx.length = n * n) (hnx' : nx'.length = n * n) (hnx2 : nx2.length = n * n) :
    (stepFFT F (mem n ni kf fb cb rb cur nx)).finished = true
      ∧ (stepFFT F (mem n ni kf fb' cb' rb' cur nx')).finished = true
      ∧ (stepFFT F (mem n ni kf fb cb rb cur nx)).mem.next
          = (stepFFT F (mem n ni kf fb' cb' rb' cur nx')).mem.next
      ∧ (stepFFT F ((stepFFT F (mem n ni kf fb cb rb cur nx)).mem.setNext nx2)).finished = true
      ∧ (stepFFT F ((stepFFT F (mem n ni kf fb cb rb cur nx)).mem.setNext nx2)).mem.next
          = (stepFFT F (mem n ni kf fb cb rb cur nx)).mem.next := by
  rw [stepFFT_eq F hn ni kf fb cb rb cur nx hkf hfb hcb hrb hcur hnx,
    stepFFT_eq F hn ni kf fb' cb' rb' cur nx' hkf hfb' hcb' hrb' hcur hnx']
  simp only [Run.mem, Run.finished, FFTMem.setNext]
  rw [stepFFT_eq F hn ni kf _ _ _ cur nx2 hkf (by simp [convSpectrum, colTransform])
    (by simp) (by simp) hcur hnx2]
  simp only [Run.mem, Run.finished, and_self]

theorem stepFFT_no_hidden_state_witness :
    (stepFFT (exactDFT minusOne)
        (mem 2 (1 / 4) [⟨7, 0⟩, ⟨-1, 0⟩, ⟨-1, 0⟩, ⟨-1, 0⟩] [0, 0, 0, 0] [0, 0] [0, 0]
          [true, false, false, false] (newGrid 2))).finished = true
      ∧ (stepFFT (exactDFT minusOne)
        (mem 2 (1 / 4) [⟨7, 0⟩, ⟨-1, 0⟩, ⟨-1, 0⟩, ⟨-1, 0⟩] [1, 2, 3, 4] [5, 6] [7, 8]
          [true, false, false, false] [true, true, true, true])).finished = true
      ∧ (stepFFT (exactDFT minusOne)
        (mem 2 (1 / 4) [⟨7, 0⟩, ⟨-1, 0⟩, ⟨-1, 0⟩, ⟨-1, 0⟩] [0, 0, 0, 0] [0, 0] [0, 0]
          [true, false, false, false] (newGrid 2))).mem.next
          = (stepFFT (exactDFT minusOne)
        (mem 2 (1 / 4) [⟨7, 0⟩, ⟨-1, 0⟩, ⟨-1, 0⟩, ⟨-1, 0⟩] [1, 2, 3, 4] [5, 6] [7, 8]
          [true, false, false, false] [true, true, true, true])).mem.next
      ∧ (stepFFT (exactDFT minusOne) ((stepFFT (exactDFT minusOne)
        (mem 2 (1 / 4) [⟨7, 0⟩, ⟨-1, 0⟩, ⟨-1, 0⟩, ⟨-1, 0⟩] [0, 0, 0, 0] [0, 0] [0, 0]
          [true, false, false, false] (newGrid 2))).mem.setNext
            [true, false, true, false])).finished = true
      ∧ (stepFFT (exactDFT minusOne) ((stepFFT (exactDFT minusOne)
        (mem 2 (1 / 4) [⟨7, 0⟩, ⟨-1, 0⟩, ⟨-1, 0⟩, ⟨-1, 0⟩] [0, 0, 0, 0] [0, 0] [0, 0]
          [true, false, false, false] (newGrid 2))).mem.setNext
            [true, false, true, false])).mem.next
          = (stepFFT (exactDFT minusOne)
        (mem 2 (1 / 4) [⟨7, 0⟩, ⟨-1, 0⟩, ⟨-1, 0⟩, ⟨-1, 0⟩] [0, 0, 0, 0] [0, 0] [0, 0]
          [true, false, false, false] (newGrid 2))).mem.next :=
  stepFFT_no_hidden_state (exactDFT minusOne) 2 (by decide) (1 / 4)
    [⟨7, 0⟩, ⟨-1, 0⟩, ⟨-1, 0⟩, ⟨-1, 0⟩] [0, 0, 0, 0] [1, 2, 3, 4] [0, 0] [5, 6] [0, 0] [7, 8]
    [true, false, false, false] (newGrid 2) [true, true, true, true] [true, false, true, false]
    (by decide) (by decide) (by decide) (by decide) (by decide) (by decide) (by decide)
    (by decide) (by decide) (by decide) (by decide)

/-! ## Toroidal translation -/

theorem shiftN_lt {n : Nat} (hn : 0 < n) (x : Nat) (a : Int) : shiftN n x a < n := by
  unfold shiftN
  have h1 : 0 ≤ ((x : Int) + a) % n := Int.emod_nonneg _ (by omega)
  have h2 : ((x : Int) + a) % n < n := Int.emod_lt_of_pos _ (by omega)
  omega

theorem shiftN_wrapN {n : Nat} (hn : 0 < n) (x : Nat) (a d : Int) :
    shiftN n (wrapN n x d) a = wrapN n (shiftN n x a) d := by
  unfold shiftN wrapN
  have h1 : 0 ≤ ((x : Int) + d + n) % n := Int.emod_nonneg _ (by omega)
  have h2 : 0 ≤ ((x : Int) + a) % n := Int.emod_nonneg _ (by omega)
  rw [Int.toNat_of_nonneg h1, Int.toNat_of_nonneg h2]
  congr 1
  rw [Int.emod_add_emod, add_assoc (((x : Int) + a) % n), Int.emod_add_emod]
  congr 1
  ring

theorem shiftGrid_length (n : Nat) (a b : Int) (g : Grid) :
    (shiftGrid n a b g).length = n * n := by
  simp [shiftGrid]

theorem cell_shiftGrid {n : Nat} (a b : Int) (g : Grid) {x y : Nat} (hx : x < n) (hy : y < n) :
    cell n (shiftGrid n a b g) x y = cell n g (shiftN n x a) (shiftN n y b) := by
  unfold cell shiftGrid
  rw [getD_tab _ _ _ _ (flat_lt hx hy), flat_mod hx, flat_div hx]
  rfl

theorem liveCount_shiftGrid {n : Nat} (hn : 0 < n) (a b : Int) (g : Grid) (x y : Nat) :
    liveCount n (shiftGrid n a b g) x y = liveCount n g (shiftN n x a) (shiftN n y b) := by
  unfold liveCount
  simp only [cell_shiftGrid a b g (wrapN_lt hn _) (wrapN_lt hn _), shiftN_wrapN hn]

theorem shiftGrid_map {n : Nat} (hn : 0 < n) (a b : Int) (g : Grid) (f : Bool → Int → Bool) :
    (List.range (n * n)).map (fun i =>
        f (cell n (shiftGrid n a b g) (i % n) (i / n))
          (liveCount n (shiftGrid n a b g) (i % n) (i / n)))
      = shiftGrid n a b ((List.range (n * n)).map (fun i =>
          f (cell n g (i % n) (i / n)) (liveCount n g (i % n) (i / n)))) := by
  show tab (n * n) _ = tab (n * n) _
  apply tab_congr
  intro i hi
  have hx : i % n < n := Nat.mod_lt _ hn
  have hy : i / n < n := Nat.div_lt_of_lt_mul hi
  have sx := shiftN_lt hn (i % n) a
  have sy := shiftN_lt hn (i / n) b
  rw [cell_shiftGrid a b g hx hy, liveCount_shiftGrid hn]
  unfold cell
  show _ = (tab (n * n) _).getD _ false
  rw [getD_tab _ _ _ _ (flat_lt sx sy), flat_mod sx, flat_div sx]

/-- C17: for every `n ≥ 1`, every grid `g` of length `n*n` and all integer offsets `(a, b)`:
`stepTraditional` and `stepConvolution` run to their end on `g` and on the translated grid
`shiftGrid n a b g`, and the grid written for the translated input is the translation by
`(a, b)` of the grid written for `g`. -/
theorem step_commutes_with_shift (n : Nat) (hn : 0 < n) (a b : Int) (g next next' : Grid)
    (hg : g.length = n * n) (hnext : next.length = n * n) (hnext' : next'.length = n * n) :
    (∃ out, stepTraditional (n : Int) ⟨g, next⟩ = .done ⟨g, out⟩
        ∧ stepTraditional (n : Int) ⟨shiftGrid n a b g, next'⟩
          = .done ⟨shiftGrid n a b g, shiftGrid n a b out⟩)
      ∧ (∃ out, stepConvolution (n : Int) ⟨g, next⟩ = .done ⟨g, out⟩
        ∧ stepConvolution (n : Int) ⟨shiftGrid n a b g, next'⟩
          = .done ⟨shiftGrid n a b g, shiftGrid n a b out⟩) := by
  have hs := shiftGrid_length n a b g
  constructor
  · refine ⟨_, stepTraditional_eq hn hg hnext, ?_⟩
    rw [stepTraditional_eq hn hs hnext']
    exact congrArg (fun o => Run.done (Bufs.mk (shiftGrid n a b g) o))
      (shiftGrid_map hn a b g (fun c k => ruleTraditional c k))
  · refine ⟨_, stepConvolution_eq hn hg hnext, ?_⟩
    rw [stepConvolution_eq hn hs hnext']
    exact congrArg (fun o => Run.done (Bufs.mk (shiftGrid n a b g) o))
      (shiftGrid_map hn a b g (fun c k => ruleConvolution (2 * k + b2i c)))

theorem step_commutes_with_shift_witness :
    (∃ out, stepTraditional ((4 : Nat) : Int) ⟨blinker4, newGrid 4⟩ = .done ⟨blinker4, out⟩
        ∧ stepTraditional ((4 : Nat) : Int) ⟨shiftGrid 4 1 (-2) blinker4, newGrid 4⟩
          = .done ⟨shiftGrid 4 1 (-2) blinker4, shiftGrid 4 1 (-2) out⟩)
      ∧ (∃ out, stepConvolution ((4 : Nat) : Int) ⟨blinker4, newGrid 4⟩ = .done ⟨blinker4, out⟩
        ∧ stepConvolution ((4 : Nat) : Int) ⟨shiftGrid 4 1 (-2) blinker4, newGrid 4⟩
          = .done ⟨shiftGrid 4 1 (-2) blinker4, shiftGrid 4 1 (-2) out⟩) :=
  step_commutes_with_shift 4 (by decide) 1 (-2) blinker4 (newGrid 4) (newGrid 4) (by decide)
    (by decide) (by decide)

/-! ## Size validation of the FFT program -/

theorem land_double_succ (m : Nat) : (2 * m + 1) &&& (2 * m) = 2 * m := by
  have h := Nat.land_bit true m false m
  simp only [Nat.bit_val, Bool.toNat_true, Bool.toNat_false, Bool.and_false, add_zero,
    Nat.and_self] at h
  exact h

theorem land_double_pred (m : Nat) (hm : 0 < m) :
    (2 * m) &&& (2 * m - 1) = 2 * (m &&& (m - 1)) := by
  have h := Nat.land_bit false m true (m - 1)
  simp only [Nat.bit_val, Bool.toNat_true, Bool.toNat_false, Bool.false_and, add_zero] at h
  have e : 2 * (m - 1) + 1 = 2 * m - 1 := by omega
  rw [e] at h
  exact h

theorem pow_two_odd {m k : Nat} (h : 2 * m + 1 = 2 ^ k) : m = 0 := by
  cases k with
  | zero => simp at h; exact h
  | succ k => rw [pow_succ] at h; omega

theorem land_pred_eq_zero_iff :
    ∀ n : Nat, 0 < n → (n &&& (n - 1) = 0 ↔ ∃ k : Nat, n = 2 ^ k) := by
  intro n
  induction n using Nat.strong_induction_on with
  | _ n ih =>
    intro hn
    rcases Nat.even_or_odd' n with ⟨m, rfl | rfl⟩
    · have hm : 0 < m := by omega
      rw [land_double_pred m hm]
      have := ih m (by omega) hm
      constructor
      · intro h
        obtain ⟨k, hk⟩ := this.mp (by omega)
        exact ⟨k + 1, by rw [hk, pow_succ]; ring⟩
      · rintro ⟨k, hk⟩
        cases k with
        | zero => simp at hk
        | succ k =>
          have : m = 2 ^ k := by rw [pow_succ] at hk; omega
          have h0 := (ih m (by omega) hm).mpr ⟨k, this⟩
          omega
    · rw [show 2 * m + 1 - 1 = 2 * m by omega, land_double_succ]
      constructor
      · intro h
        have : m = 0 := by omega
        subst this
        exact ⟨0, rfl⟩
      · rintro ⟨k, hk⟩
        have := pow_two_odd hk
        omega

theorem goAnd_pred_eq_zero_iff (s : Int) (hs : 0 < s) :
    goAnd s (s - 1) = 0 ↔ ∃ k : Nat, s = 2 ^ k := by
  obtain ⟨n, rfl⟩ := Int.eq_ofNat_of_zero_le (le_of_lt hs)
  have hn : 0 < n := by exact_mod_cast hs
  have e : ((n : Int) - 1) = ((n - 1 : Nat) : Int) := by omega
  have hl : goAnd (n : Int) ((n : Int) - 1) = ((n &&& (n - 1) : Nat) : Int) := by
    rw [e]
    rfl
  rw [hl, Int.natCast_eq_zero, land_pred_eq_zero_iff n hn]
  constructor
  · rintro ⟨k, hk⟩
    exact ⟨k, by rw [hk]; push_cast; rfl⟩
  · rintro ⟨k, hk⟩
    exact ⟨k, by exact_mod_cast hk⟩

/-- The size test of `main` for every `int` `s > 0`: `s&(s-1) != 0` is false if and only if
`s = 2^k` for some `k ≥ 0`.  A power of two is stored in `size` unchanged, whatever is answered
at the prompt; for any other `s`, `main` returns without storing a size or stores what
`nextPow2(s)` returns. -/
theorem size_check_iff_power_of_two (E : FloatEnv) (s : Int) (hs : 0 < s) :
    (goAnd s (s - 1) = 0 ↔ ∃ k : Nat, s = 2 ^ k)
      ∧ ((∃ k : Nat, s = 2 ^ k) → ∀ answer, chooseSize E (some s) answer = some s)
      ∧ ((¬ ∃ k : Nat, s = 2 ^ k) → ∀ answer,
          chooseSize E (some s) answer
            = (if declines answer then none else some (nextPow2 E s))) := by
  have key := goAnd_pred_eq_zero_iff s hs
  have hpos : ¬ s ≤ 0 := by omega
  refine ⟨key, ?_, ?_⟩
  · intro hp answer
    have h0 := key.mpr hp
    simp only [chooseSize, if_neg hpos, h0, ne_eq, not_true_eq_false, if_false]
  · intro hp answer
    have h0 : goAnd s (s - 1) ≠ 0 := fun h => hp (key.mp h)
    simp only [chooseSize, if_neg hpos, if_pos h0]

theorem leadingBit_le (n : Nat) (e : Nat) (h : n < 2 ^ (e + 1)) :
    ∀ fuel, leadingBit n fuel ≤ e := by
  intro fuel
  induction fuel with
  | zero => exact Nat.zero_le _
  | succ f ih =>
    unfold leadingBit
    split
    · next hle =>
      by_contra hc
      have h1 : e + 1 ≤ f + 1 := by omega
      have h2 : 2 ^ (e + 1) ≤ 2 ^ (f + 1) := Nat.pow_le_pow_right (by decide) h1
      omega
    · exact ih

theorem leadingBit_two_pow (k : Nat) : ∀ fuel, k ≤ fuel → leadingBit (2 ^ k) fuel = k := by
  intro fuel
  induction fuel with
  | zero =>
    intro h
    have : k = 0 := by omega
    subst this
    rfl
  | succ f ih =>
    intro h
    unfold leadingBit
    split
    · next hle =>
      have : f + 1 ≤ k := (Nat.pow_le_pow_iff_right (by decide)).mp hle
      omega
    · next hlt =>
      have hk : k ≠ f + 1 := by
        intro e
        subst e
        exact hlt (le_refl _)
      exact ih (by omega)

theorem toFloat64_of_small (n : Nat) (h : n < 2 ^ 53) : toFloat64 n = n := by
  unfold toFloat64
  have he : leadingBit n 64 ≤ 52 := leadingBit_le n 52 h 64
  simp only [if_pos he]

/-- For a size below `2^53` that is not a power of two the result of `nextPow2` is decided by
what `math.Ceil(math.Log2(float64(s)))` returns: the conversion to `float64` is exact and the
exact branch of `math.Log2` is not taken. -/
theorem nextPow2_of_small (E : FloatEnv) (s : Nat) (hs : s < 2 ^ 53)
    (hp : ¬ ∃ k : Nat, s = 2 ^ k) :
    nextPow2 E (s : Int)
      = if E.ceilLog2 s < 0 then 0
        else if E.ceilLog2 s < 63 then 2 ^ (E.ceilLog2 s).toNat
        else E.intOfLarge (E.ceilLog2 s).toNat := by
  unfold nextPow2
  simp only [Int.toNat_natCast, toFloat64_of_small s hs]
  rw [if_neg (fun h => hp ⟨_, h⟩)]

/-- The size `2^49 + 1`: when `math.Ceil(math.Log2(float64(s)))` comes out as `49`, as it
does when the sum in `math.Log2` rounds to `49`, `nextPow2` returns `2^49`, a power of two
below `s`. -/
theorem nextPow2_rounded_log (E : FloatEnv) (h : E.ceilLog2 (2 ^ 49 + 1) = 49) :
    nextPow2 E (2 ^ 49 + 1) = 2 ^ 49 := by
  have hp : ¬ ∃ k : Nat, (2 ^ 49 + 1 : Nat) = 2 ^ k := by
    rintro ⟨k, hk⟩
    have := pow_two_odd (m := 2 ^ 48) (k := k) (by rw [← hk]; norm_num)
    norm_num at this
  have key := nextPow2_of_small E (2 ^ 49 + 1) (by norm_num) hp
  rw [h] at key
  have e : (((2 ^ 49 + 1 : Nat) : Int)) = 2 ^ 49 + 1 := by norm_num
  rw [e] at key
  rw [key, if_neg (by decide), if_pos (by decide)]
  rfl

/-- C15 at its failing input: `s = 2^63 - 1`, an `int` that is not a power of two, answered
with `y` or with an empty line at the prompt `Use that? [Y/n]`.  The test `s&(s-1) != 0` is
true, `float64(s)` rounds to `2^63`, `math.Log2` of it is exactly `63` and `math.Pow(2, 63)` is
`2^63`, which `int` cannot represent: `main` stores in `size` whatever the platform's
conversion returns.  That is `-2^63` where the conversion gives the smallest `int` (amd64) and
`2^63 - 1` where it saturates; neither is a power of two. -/
theorem size_check_overflows_at_max :
    inInt64 (2 ^ 63 - 1)
      ∧ goAnd (2 ^ 63 - 1) (2 ^ 63 - 1 - 1) ≠ 0
      ∧ toFloat64 (2 ^ 63 - 1) = 2 ^ 63
      ∧ (∀ E : FloatEnv, nextPow2 E (2 ^ 63 - 1) = E.intOfLarge 63)
      ∧ (∀ E : FloatEnv,
          chooseSize E (some (2 ^ 63 - 1)) "y" = some (E.intOfLarge 63)
            ∧ chooseSize E (some (2 ^ 63 - 1)) "" = some (E.intOfLarge 63))
      ∧ (∀ c : Nat → Int,
          chooseSize ⟨c, fun _ => -2 ^ 63⟩ (some (2 ^ 63 - 1)) "y" = some (-2 ^ 63))
      ∧ (∀ c : Nat → Int,
          chooseSize ⟨c, fun _ => 2 ^ 63 - 1⟩ (some (2 ^ 63 - 1)) "y" = some (2 ^ 63 - 1))
      ∧ (¬ ∃ k : Nat, (-2 ^ 63 : Int) = 2 ^ k)
      ∧ (¬ ∃ k : Nat, (2 ^ 63 - 1 : Int) = 2 ^ k) := by
  have hf : toFloat64 (2 ^ 63 - 1) = 2 ^ 63 := by decide
  have hand : goAnd (2 ^ 63 - 1) (2 ^ 63 - 1 - 1) ≠ 0 := by decide!
  have hnp : ∀ E : FloatEnv, nextPow2 E (2 ^ 63 - 1) = E.intOfLarge 63 := by
    intro E
    have ht : ((2 : Int) ^ 63 - 1).toNat = 2 ^ 63 - 1 := by decide!
    have hl : leadingBit (2 ^ 63) 64 = 63 := leadingBit_two_pow 63 64 (by decide)
    unfold nextPow2
    simp only [ht, hf, hl, if_true]
    rw [if_neg (by omega), if_neg (by omega), Int.toNat_natCast]
  have hch : ∀ (E : FloatEnv) (answer : String), declines answer = false →
      chooseSize E (some (2 ^ 63 - 1)) answer = some (E.intOfLarge 63) := by
    intro E answer ha
    simp only [chooseSize, if_neg (by decide : ¬ ((2 : Int) ^ 63 - 1 ≤ 0)), if_pos hand, ha,
      hnp E]
    rfl
  have hy : declines "y" = false := by decide
  have he : declines "" = false := by decide
  refine ⟨by decide, hand, hf, hnp, fun E => ⟨hch E _ hy, hch E _ he⟩,
    fun c => hch _ _ hy, fun c => hch _ _ hy, ?_, ?_⟩
  · rintro ⟨k, hk⟩
    have : (0 : Int) < 2 ^ k := by positivity
    omega
  · intro h
    exact hand ((goAnd_pred_eq_zero_iff _ (by decide)).mpr h)

theorem chooseSize_examples (E : FloatEnv) :
    chooseSize E (some 8) "n" = some 8 ∧ chooseSize E (some 1) "" = some 1
      ∧ chooseSize E (some 6) "no" = none
      ∧ chooseSize E (some 6) "yes" = some (nextPow2 E 6)
      ∧ chooseSize E (some 0) "" = none ∧ chooseSize E none "" = none
      ∧ goAnd 6 5 = 4 ∧ goAnd 8 7 = 0 ∧ goAnd 1 0 = 0
      ∧ toFloat64 (2 ^ 53 + 1) = 2 ^ 53 ∧ toFloat64 (2 ^ 53 + 3) = 2 ^ 53 + 4
      ∧ toFloat64 (2 ^ 49 + 1) = 2 ^ 49 + 1 := by
  refine ⟨rfl, rfl, rfl, rfl, rfl, rfl, by decide, by decide, by decide, by decide,
    by decide, by decide⟩

/-! ## Loops that stop at a panic -/

theorem loopFrom_mem_inv {σ : Type} (body : Int → σ → Run σ) (P : σ → Prop)
    (hP : ∀ i s, P s → P (body i s).mem) :
    ∀ (k : Nat) (i : Int) (s : σ), P s → P (loopFrom body k i s).mem := by
  intro k
  induction k with
  | zero =>
    intro i s h
    exact h
  | succ k ih =>
    intro i s h
    have hb := hP i s h
    unfold loopFrom
    cases hbs : body i s with
    | done s' =>
      rw [hbs] at hb
      exact ih _ _ hb
    | panic s' =>
      rw [hbs] at hb
      exact hb

theorem loopFrom_stops {σ : Type} (body : Int → σ → Run σ) (P : σ → Prop)
    (hP : ∀ i s, P s → P (body i s).mem) :
    ∀ (k : Nat) (i : Int) (j : Nat), j < k →
      (∀ s, P s → (body (i + j) s).finished = false) →
      ∀ s, P s → (loopFrom body k i s).finished = false := by
  intro k
  induction k with
  | zero =>
    intro i j hj
    omega
  | succ k ih =>
    intro i j hj hbad s h
    have hb := hP i s h
    unfold loopFrom
    cases hbs : body i s with
    | panic s' => rfl
    | done s' =>
      rw [hbs] at hb
      cases j with
      | zero =>
        have := hbad s h
        rw [Nat.cast_zero, add_zero, hbs] at this
        exact absurd this (by simp [Run.finished])
      | succ j =>
        refine ih (i + 1) j (by omega) ?_ s' hb
        intro t ht
        have := hbad t ht
        rw [show i + ((j + 1 : Nat) : Int) = i + 1 + (j : Int) by push_cast; ring] at this
        exact this

theorem eq_panic_of_not_finished {σ : Type} (r : Run σ) (h : r.finished = false) :
    r = .panic r.mem := by
  cases r with
  | done s => simp [Run.finished] at h
  | panic s => rfl

theorem andThen_mem_inv {σ : Type} (P : σ → Prop) (r : Run σ) (f : σ → Run σ) (hr : P r.mem)
    (hf : ∀ s, P s → P (f s).mem) : P (r.andThen f).mem := by
  cases r with
  | done s => exact hf s hr
  | panic s => exact hr

theorem andThen_stops {σ : Type} (r : Run σ) (f : σ → Run σ) (h : r.finished = false) :
    (r.andThen f).finished = false := by
  rw [eq_panic_of_not_finished r h]
  rfl

/-! ## A `current` that is too short -/

theorem goMod_pred {n : Nat} (hn : 0 < n) : goMod (0 + -1 + (n : Int)) n = (n : Int) - 1 := by
  unfold goMod
  rw [Int.tmod_eq_emod (by omega) (by omega)]
  rw [show (0 : Int) + -1 + n = (n : Int) - 1 by ring]
  exact Int.emod_eq_of_lt (by omega) (by omega)

theorem get_last_none {n : Nat} (hn : 0 < n) {cur : Grid} (hcur : cur.length < n * n) :
    Grid.get (n : Int) cur (goMod (0 + -1 + (n : Int)) n) (goMod (0 + -1 + (n : Int)) n)
      = none := by
  rw [goMod_pred hn, Grid.get, index_none_iff]
  right
  have h1 : ((cur.length : Nat) : Int) < (n : Int) * n := by exact_mod_cast hcur
  have h2 : ((n : Int) - 1) * n + (n - 1) = (n : Int) * n - 1 := by ring
  omega

theorem countNeighbours_none {n : Nat} (hn : 0 < n) {cur : Grid} (hcur : cur.length < n * n) :
    countNeighbours (n : Int) cur 0 0 = none := by
  have h := get_last_none hn hcur
  simp only [countNeighbours, offsets, List.foldlM_cons, List.foldlM_nil]
  rw [if_neg (by decide), h]
  rfl

theorem kernelSum_none {n : Nat} (hn : 0 < n) {cur : Grid} (hcur : cur.length < n * n) :
    kernelSum (n : Int) cur 0 0 = none := by
  have h := get_last_none hn hcur
  simp only [kernelSum, offsets, List.foldlM_cons, List.foldlM_nil]
  rw [h]
  rfl

/-- With a `current` of fewer than `n*n` cells `stepTraditional` stops at the first cell it
reads, the wrapped neighbour `(n-1, n-1)` of cell `(0, 0)`, and `next` is as it was. -/
theorem stepTraditional_stops_of_short {n : Nat} (hn : 0 < n) {cur : Grid} (next : Grid)
    (hcur : cur.length < n * n) :
    stepTraditional (n : Int) ⟨cur, next⟩ = .panic ⟨cur, next⟩ := by
  obtain ⟨k, rfl⟩ : ∃ k, n = k + 1 := ⟨n - 1, by omega⟩
  have inner : forRange ((k + 1 : Nat) : Int)
      (fun x => cellTraditional ((k + 1 : Nat) : Int) 0 x) ⟨cur, next⟩ = .panic ⟨cur, next⟩ := by
    unfold forRange
    rw [Int.toNat_natCast, loopFrom]
    simp only [cellTraditional, countNeighbours_none hn hcur]
  unfold stepTraditional
  rw [forRange, Int.toNat_natCast, loopFrom]
  simp only [inner]

/-- With a `current` of fewer than `n*n` cells `stepConvolution` stops at the first cell it
reads and `next` is as it was. -/
theorem stepConvolution_stops_of_short {n : Nat} (hn : 0 < n) {cur : Grid} (next : Grid)
    (hcur : cur.length < n * n) :
    stepConvolution (n : Int) ⟨cur, next⟩ = .panic ⟨cur, next⟩ := by
  obtain ⟨k, rfl⟩ : ∃ k, n = k + 1 := ⟨n - 1, by omega⟩
  have inner : forRange ((k + 1 : Nat) : Int)
      (fun x => cellConvolution ((k + 1 : Nat) : Int) 0 x) ⟨cur, next⟩ = .panic ⟨cur, next⟩ := by
    unfold forRange
    rw [Int.toNat_natCast, loopFrom]
    simp only [cellConvolution, kernelSum_none hn hcur]
  unfold stepConvolution
  rw [forRange, Int.toNat_natCast, loopFrom]
  simp only [inner]

theorem loadCell_frame [Field R] (m : FFTMem R) (y x : Int) (s : FFTMem R)
    (h : sameFrame m s) : sameFrame m (loadCell y x s).mem := by
  unfold loadCell
  split
  · exact h
  · split
    · exact h
    · exact h

theorem realCoefficientsCall_frame [Field R] (F : Fourier R) (m : FFTMem R) (lo hi : Int)
    (seq : List R) (s : FFTMem R) (h : sameFrame m s) :
    sameFrame m (realCoefficientsCall F .freqBuf lo hi seq s).mem := by
  unfold realCoefficientsCall
  split_ifs
  · exact h
  · exact h
  · exact h
  · exact h

theorem rowForwardBody_frame [Field R] (F : Fourier R) (m : FFTMem R) (y : Int)
    (s : FFTMem R) (h : sameFrame m s) : sameFrame m (rowForwardBody F y s).mem := by
  unfold rowForwardBody
  apply andThen_mem_inv (sameFrame m)
  · exact loopFrom_mem_inv _ (sameFrame m) (fun x t ht => loadCell_frame m y x t ht) _ _ _ h
  · intro t ht
    exact realCoefficientsCall_frame F m _ _ _ t ht

theorem rowForwardBody_stops [Field R] (F : Fourier R) (m : FFTMem R) {n : Nat} (hn : 0 < n)
    (hsize : m.size = n) (hfft : m.fftN = n) (s : FFTMem R) (h : sameFrame m s) :
    (rowForwardBody F (0 + ((m.current.length / n : Nat) : Int)) s).finished = false := by
  unfold rowForwardBody
  apply andThen_stops
  unfold forRange
  rw [h.2.1, hfft, Int.toNat_natCast]
  refine loopFrom_stops _ (sameFrame m) (fun x t ht => loadCell_frame m _ x t ht) n 0
    (m.current.length % n) (Nat.mod_lt _ hn) ?_ s h
  intro t ht
  have hL : m.current.length / n * n + m.current.length % n = m.current.length :=
    Nat.div_add_mod' _ _
  have hLi : ((m.current.length / n : Nat) : Int) * n + ((m.current.length % n : Nat) : Int)
      = (m.current.length : Int) := by exact_mod_cast hL
  have hnone : Grid.get t.size t.current (0 + ((m.current.length % n : Nat) : Int))
      (0 + ((m.current.length / n : Nat) : Int)) = none := by
    rw [Grid.get, index_none_iff, ht.1, ht.2.2.1, hsize]
    right
    rw [zero_add, zero_add]
    omega
  unfold loadCell
  rw [hnone]
  rfl

/-- With `size = fftN = n` and a `current` of fewer than `n*n` cells, `stepFFT` stops in its
forward row pass, at the first cell of `current` that does not exist; `next` and `current`
are as they were. -/
theorem stepFFT_stops_of_short [LinearOrderedField R] (F : Fourier R) (m : FFTMem R) {n : Nat}
    (hn : 0 < n) (hsize : m.size = n) (hfft : m.fftN = n)
    (hcur : m.current.length < n * n) :
    ∃ p, stepFFT F m = .panic p ∧ p.next = m.next ∧ p.current = m.current := by
  have hy : m.current.length / n < n := Nat.div_lt_of_lt_mul hcur
  have hframe : sameFrame m (forRange m.fftN (fun y => rowForwardBody F y) m).mem :=
    loopFrom_mem_inv _ (sameFrame m) (fun y t ht => rowForwardBody_frame F m y t ht) _ _ _
      ⟨rfl, rfl, rfl, rfl⟩
  have hstop : (forRange m.fftN (fun y => rowForwardBody F y) m).finished = false := by
    unfold forRange
    rw [hfft, Int.toNat_natCast]
    exact loopFrom_stops _ (sameFrame m) (fun y t ht => rowForwardBody_frame F m y t ht) n 0
      (m.current.length / n) hy
      (fun t ht => rowForwardBody_stops F m hn hsize hfft t ht) m ⟨rfl, rfl, rfl, rfl⟩
  refine ⟨(forRange m.fftN (fun y => rowForwardBody F y) m).mem, ?_, hframe.2.2.2,
    hframe.2.2.1⟩
  unfold stepFFT
  rw [eq_panic_of_not_finished _ hstop]
  rfl

/-! ## Loops that stop at a known iteration -/

theorem loopFrom_panic_at {σ : Type} (body : Int → σ → Run σ) (p : σ) :
    ∀ (k : Nat) (i : Int) (st : Nat → σ) (j : Nat), j < k →
      (∀ t, t < j → body (i + t) (st t) = .done (st (t + 1))) →
      body (i + j) (st j) = .panic p →
      loopFrom body k i (st 0) = .panic p := by
  intro k
  induction k with
  | zero =>
    intro i st j hj
    omega
  | succ k ih =>
    intro i st j hj hdone hpanic
    unfold loopFrom
    cases j with
    | zero =>
      rw [Nat.cast_zero, add_zero] at hpanic
      rw [hpanic]
    | succ j =>
      have h0 := hdone 0 (by omega)
      rw [Nat.cast_zero, add_zero] at h0
      rw [h0]
      refine ih (i + 1) (fun t => st (t + 1)) j (by omega) ?_ ?_
      · intro t ht
        have := hdone (t + 1) (by omega)
        rw [show i + ((t + 1 : Nat) : Int) = i + 1 + (t : Int) by push_cast; ring] at this
        exact this
      · rw [show i + ((j + 1 : Nat) : Int) = i + 1 + (j : Int) by push_cast; ring] at hpanic
        exact hpanic

theorem forRange_panic_at {σ : Type} (body : Int → σ → Run σ) (n : Nat) (st : Nat → σ)
    (j : Nat) (hj : j < n) (p : σ)
    (hdone : ∀ t, t < j → body (t : Int) (st t) = .done (st (t + 1)))
    (hpanic : body (j : Int) (st j) = .panic p) :
    forRange (n : Int) body (st 0) = .panic p := by
  unfold forRange
  rw [Int.toNat_natCast]
  refine loopFrom_panic_at body p n 0 st j hj ?_ ?_
  · intro t ht
    rw [zero_add]
    exact hdone t ht
  · rw [zero_add]
    exact hpanic

/-! ## Writing `next` cell by cell -/

theorem set_inrange_of_lt {n : Nat} {g : Grid} {x y : Nat} (h : y * n + x < g.length)
    (v : Bool) :
    Grid.set (n : Int) g (x : Int) (y : Int) v = some (List.set g (y * n + x) v) := by
  have hcast : (y : Int) * n + x = ((y * n + x : Nat) : Int) := by push_cast; ring
  unfold Grid.set
  rw [hcast, assign_inrange _ _ _ h]

theorem set_none_of_le {n : Nat} {g : Grid} {x y : Nat} (h : g.length ≤ y * n + x)
    (v : Bool) : Grid.set (n : Int) g (x : Int) (y : Int) v = none := by
  have hcast : (y : Int) * n + x = ((y * n + x : Nat) : Int) := by push_cast; ring
  unfold Grid.set
  rw [hcast, assign_none_iff]
  right
  exact_mod_cast h

theorem filled_length_self (f : Nat → Bool) (next : Grid) :
    filled f next.length next = ((List.range next.length).map f) := by
  simp [filled]

theorem map_range_take (f : Nat → Bool) {m k : Nat} (h : m ≤ k) :
    ((List.range k).map f).take m = (List.range m).map f := by
  rw [← List.map_take, List.take_range, min_eq_left h]

/-- One row of a loop that writes `next` cell by cell, the memory being `mk next`: from `next`
with the cells before `y*n` written, the row is written to its end when `next` has the cells
for it, and otherwise the loop stops at the first cell `next` does not have. -/
theorem row_run {σ : Type} (n : Nat) (mk : Grid → σ) (body : Int → σ → Run σ)
    (G : Nat → Bool) (y : Nat)
    (hok : ∀ x nx, x < n → y * n + x < nx.length →
      body (x : Int) (mk nx) = .done (mk (List.set nx (y * n + x) (G (y * n + x)))))
    (hbad : ∀ x nx, x < n → nx.length ≤ y * n + x → body (x : Int) (mk nx) = .panic (mk nx))
    (next : Grid) (hrow : y * n ≤ next.length) :
    forRange (n : Int) body (mk (filled G (y * n) next))
      = if (y + 1) * n ≤ next.length
        then .done (mk (filled G ((y + 1) * n) next))
        else .panic (mk (filled G next.length next)) := by
  have step : ∀ x, x < n → y * n + x < next.length →
      body (x : Int) (mk (filled G (y * n + x) next))
        = .done (mk (filled G (y * n + (x + 1)) next)) := by
    intro x hx hlt
    rw [hok x _ hx (by rw [filled_length _ (by omega)]; exact hlt),
      filled_set G (y * n + x) next hlt]
    rfl
  have e : (y + 1) * n = y * n + n := by ring
  split
  · next hfull =>
    have inner := forRange_done body n (fun x => mk (filled G (y * n + x) next))
      (fun x hx => step x hx (by omega))
    simp only [Nat.add_zero] at inner
    rw [inner, e]
  · next hshort =>
    have hx0 : next.length - y * n < n := by omega
    have inner := forRange_panic_at body n (fun x => mk (filled G (y * n + x) next))
      (next.length - y * n) hx0 (mk (filled G next.length next))
      (fun x hx => step x (by omega) (by omega))
      (by
        have hL : y * n + (next.length - y * n) = next.length := by omega
        show body ((next.length - y * n : Nat) : Int) _ = _
        rw [hbad _ _ hx0 (by rw [filled_length _ (by omega)]; omega), hL])
    simp only [Nat.add_zero] at inner
    exact inner

/-- Rows of a loop that writes `next` cell by cell: when row `y` starts from the memory
`st y next'` with `next'` the buffer with the cells before `y*n` written, all `n*n` cells are
written if `next` has them, and otherwise the loop stops in row `next.length / n` at the
first cell `next` does not have. -/
theorem rows_run {σ : Type} (n : Nat) (hn : 0 < n) (st : Nat → Grid → σ)
    (body : Int → σ → Run σ) (stop : Grid → σ) (G : Nat → Bool) (next : Grid)
    (hrow : ∀ y, y < n → y * n ≤ next.length →
      body (y : Int) (st y (filled G (y * n) next))
        = if (y + 1) * n ≤ next.length
          then .done (st (y + 1) (filled G ((y + 1) * n) next))
          else .panic (stop (filled G next.length next))) :
    forRange (n : Int) body (st 0 next)
      = if n * n ≤ next.length
        then .done (st n ((List.range (n * n)).map G ++ next.drop (n * n)))
        else .panic (stop (((List.range (n * n)).map G).take next.length)) := by
  split
  · next hfull =>
    have key := forRange_done body n (fun y => st y (filled G (y * n) next)) (by
        intro y hy
        have hle : (y + 1) * n ≤ next.length :=
          le_trans (Nat.mul_le_mul_right n (by omega)) hfull
        have := hrow y hy (le_trans (Nat.mul_le_mul_right n (by omega)) hle)
        rw [if_pos hle] at this
        exact this)
    simp only [Nat.zero_mul, filled_zero] at key
    rw [key]
    rfl
  · next hshort =>
    have hlt : next.length < n * n := by omega
    have hy0 : next.length / n < n := Nat.div_lt_of_lt_mul hlt
    have hdm : next.length / n * n + next.length % n = next.length := Nat.div_add_mod' _ _
    have hmod : next.length % n < n := Nat.mod_lt _ hn
    have key := forRange_panic_at body n (fun y => st y (filled G (y * n) next))
      (next.length / n) hy0 (stop (filled G next.length next)) (by
        intro y hy
        have hle : (y + 1) * n ≤ next.length := by
          have : (y + 1) * n ≤ next.length / n * n := Nat.mul_le_mul_right n (by omega)
          omega
        have := hrow y (by omega) (le_trans (Nat.mul_le_mul_right n (by omega)) hle)
        rw [if_pos hle] at this
        exact this) (by
        have := hrow (next.length / n) hy0 (by omega)
        rw [if_neg (by
          have : (next.length / n + 1) * n = next.length / n * n + n := by ring
          omega)] at this
        exact this)
    simp only [Nat.zero_mul, filled_zero] at key
    rw [key, filled_length_self, map_range_take _ (le_of_lt hlt)]

/-- The two cell loops of an integer stepper on a `next` of any length: all `n*n` cells are
written when `next` has them, and otherwise the loops stop at the first cell `next` does not
have, the cells before it being written. -/
theorem cells_run (n : Nat) (hn : 0 < n) (cur : Grid) (body : Int → Int → Bufs → Run Bufs)
    (f : Nat → Nat → Bool)
    (hok : ∀ x y nx, x < n → y < n → y * n + x < nx.length →
      body (y : Int) (x : Int) ⟨cur, nx⟩ = .done ⟨cur, List.set nx (y * n + x) (f x y)⟩)
    (hbad : ∀ x y nx, x < n → y < n → nx.length ≤ y * n + x →
      body (y : Int) (x : Int) ⟨cur, nx⟩ = .panic ⟨cur, nx⟩)
    (next : Grid) :
    forRange (n : Int) (fun y => forRange (n : Int) (fun x => body y x)) ⟨cur, next⟩
      = if n * n ≤ next.length
        then .done ⟨cur, (List.range (n * n)).map (fun i => f (i % n) (i / n))
          ++ next.drop (n * n)⟩
        else .panic ⟨cur, ((List.range (n * n)).map (fun i => f (i % n) (i / n))).take
          next.length⟩ := by
  refine rows_run n hn (fun _ nx => (⟨cur, nx⟩ : Bufs)) _ (fun nx => (⟨cur, nx⟩ : Bufs))
    (fun i => f (i % n) (i / n)) next ?_
  intro y hy hrow
  refine row_run n (fun nx => (⟨cur, nx⟩ : Bufs)) (fun x => body (y : Int) x)
    (fun i => f (i % n) (i / n)) y ?_ ?_ next hrow
  · intro x nx hx hlt
    show body (y : Int) (x : Int) _ = _
    rw [hok x y nx hx hy hlt]
    simp only [flat_mod hx, flat_div hx]
  · intro x nx hx hle
    exact hbad x y nx hx hy hle

/-- `stepTraditional` on a `current` of at least `n*n` cells and a `next` of any length. -/
theorem stepTraditional_run {n : Nat} (hn : 0 < n) {cur : Grid} (hcur : n * n ≤ cur.length)
    (next : Grid) :
    stepTraditional (n : Int) ⟨cur, next⟩
      = if n * n ≤ next.length
        then .done ⟨cur, (List.range (n * n)).map (fun i =>
            ruleTraditional (cell n cur (i % n) (i / n)) (liveCount n cur (i % n) (i / n)))
          ++ next.drop (n * n)⟩
        else .panic ⟨cur, ((List.range (n * n)).map (fun i =>
            ruleTraditional (cell n cur (i % n) (i / n))
              (liveCount n cur (i % n) (i / n)))).take next.length⟩ := by
  unfold stepTraditional
  apply cells_run n hn cur (cellTraditional (n : Int))
    (fun x y => ruleTraditional (cell n cur x y) (liveCount n cur x y))
  · intro x y nx hx hy hlt
    simp only [cellTraditional, countNeighbours_eq_of_le hn hcur, get_inrange_of_le hx hy hcur,
      set_inrange_of_lt hlt]
  · intro x y nx hx hy hle
    simp only [cellTraditional, countNeighbours_eq_of_le hn hcur, get_inrange_of_le hx hy hcur,
      set_none_of_le hle]

/-- `stepConvolution` on a `current` of at least `n*n` cells and a `next` of any length. -/
theorem stepConvolution_run {n : Nat} (hn : 0 < n) {cur : Grid} (hcur : n * n ≤ cur.length)
    (next : Grid) :
    stepConvolution (n : Int) ⟨cur, next⟩
      = if n * n ≤ next.length
        then .done ⟨cur, (List.range (n * n)).map (fun i => ruleConvolution
            (2 * liveCount n cur (i % n) (i / n) + b2i (cell n cur (i % n) (i / n))))
          ++ next.drop (n * n)⟩
        else .panic ⟨cur, ((List.range (n * n)).map (fun i => ruleConvolution
            (2 * liveCount n cur (i % n) (i / n)
              + b2i (cell n cur (i % n) (i / n))))).take next.length⟩ := by
  unfold stepConvolution
  apply cells_run n hn cur (cellConvolution (n : Int))
    (fun x y => ruleConvolution (2 * liveCount n cur x y + b2i (cell n cur x y)))
  · intro x y nx hx hy hlt
    simp only [cellConvolution, kernelSum_eq_of_le hn hx hy hcur, set_inrange_of_lt hlt]
  · intro x y nx hx hy hle
    simp only [cellConvolution, kernelSum_eq_of_le hn hx hy hcur, set_none_of_le hle]

/-! ## The inverse row pass of `stepFFT` on a `next` of any length -/

theorem thresholdCell_ok [LinearOrderedField R] {n x y : Nat} (hx : x < n) (ni : R)
    (kf fb cb : List (Cplx R)) (rb : List R) (cur nx : Grid) (hrb : rb.length = n)
    (hlt : y * n + x < nx.length) :
    thresholdCell (y : Int) (x : Int) (mem n ni kf fb cb rb cur nx)
      = .done (mem n ni kf fb cb rb cur
          (List.set nx (y * n + x) (ruleFFT (rb.getD x 0 * ni)))) := by
  simp only [thresholdCell]
  rw [index_inrange rb 0 x (by omega)]
  simp only
  rw [set_inrange_of_lt hlt]
  rfl

theorem thresholdCell_bad [LinearOrderedField R] {n x y : Nat} (hx : x < n) (ni : R)
    (kf fb cb : List (Cplx R)) (rb : List R) (cur nx : Grid) (hrb : rb.length = n)
    (hle : nx.length ≤ y * n + x) :
    thresholdCell (y : Int) (x : Int) (mem n ni kf fb cb rb cur nx)
      = .panic (mem n ni kf fb cb rb cur nx) := by
  simp only [thresholdCell]
  rw [index_inrange rb 0 x (by omega)]
  simp only
  rw [set_none_of_le hle]

/-- The inverse row pass of `stepFFT` on a `next` of any length: all `n*n` cells are written
when `next` has them (further cells are left alone), and otherwise the pass stops in row
`next.length / n` at the first cell `next` does not have, the cells before it being
written. -/
theorem rowInverse_run [LinearOrderedField R] (F : Fourier R) {n : Nat} (hn : 0 < n) (ni : R)
    (kf fb cb : List (Cplx R)) (rb : List R) (cur nx : Grid)
    (hfb : fb.length = n * (n / 2 + 1)) (hrb : rb.length = n) :
    forRange (n : Int) (fun y => rowInverseBody F y) (mem n ni kf fb cb rb cur nx)
      = if n * n ≤ nx.length
        then .done (mem n ni kf fb cb
          (tab n (fun i => (F.realSequence n (rowOf (n / 2 + 1) fb (n - 1))).getD i 0))
          cur (thresholdGrid F n ni fb ++ nx.drop (n * n)))
        else .panic (mem n ni kf fb cb
          (tab n (fun i =>
            (F.realSequence n (rowOf (n / 2 + 1) fb (nx.length / n))).getD i 0))
          cur ((thresholdGrid F n ni fb).take nx.length)) := by
  have key := rows_run n hn
    (fun y g => mem n ni kf fb cb
      (match y with
        | 0 => rb
        | y + 1 => tab n (fun i => (F.realSequence n (rowOf (n / 2 + 1) fb y)).getD i 0))
      cur g)
    (fun y => rowInverseBody F y)
    (fun g => mem n ni kf fb cb
      (tab n (fun i => (F.realSequence n (rowOf (n / 2 + 1) fb (nx.length / n))).getD i 0))
      cur g)
    (fun i => ruleFFT ((F.realSequence n (rowOf (n / 2 + 1) fb (i / n))).getD (i % n) 0 * ni))
    nx (by
      intro y hy hrow
      have hl : (match y with
          | 0 => rb
          | y + 1 => tab n (fun i =>
              (F.realSequence n (rowOf (n / 2 + 1) fb y)).getD i 0)).length = n := by
        cases y with
        | zero => exact hrb
        | succ y => simp
      simp only [rowInverseBody]
      rw [realSequenceCall_done F hy ni kf fb cb _ cur _ hfb hl, andThen_done]
      have hr := row_run n
        (fun g => mem n ni kf fb cb
          (tab n (fun i => (F.realSequence n (rowOf (n / 2 + 1) fb y)).getD i 0)) cur g)
        (fun x => thresholdCell (R := R) (y : Int) x)
        (fun i =>
          ruleFFT ((F.realSequence n (rowOf (n / 2 + 1) fb (i / n))).getD (i % n) 0 * ni))
        y (by
          intro x g hx hlt
          show thresholdCell (y : Int) (x : Int) _ = _
          rw [thresholdCell_ok hx ni kf fb cb _ cur g (by simp) hlt, getD_tab _ _ _ _ hx]
          simp only [flat_mod hx, flat_div hx]) (by
          intro x g hx hle
          exact thresholdCell_bad hx ni kf fb cb _ cur g (by simp) hle) nx hrow
      show forRange (n : Int) (fun x => thresholdCell (y : Int) x) _ = _
      rw [hr]
      split
      · rfl
      · next hshort =>
        have e : (y + 1) * n = y * n + n := by ring
        have hy0 : nx.length / n = y := by
          apply Nat.div_eq_of_lt_le
          · exact hrow
          · omega
        rw [hy0])
  have e : thresholdGrid F n ni fb = (List.range (n * n)).map (fun i =>
      ruleFFT ((F.realSequence n (rowOf (n / 2 + 1) fb (i / n))).getD (i % n) 0 * ni)) := rfl
  rw [e]
  obtain ⟨k, rfl⟩ : ∃ k, n = k + 1 := ⟨n - 1, by omega⟩
  exact key

/-- `stepFFT` on a memory shaped by `initFFT` for size `n ≥ 1`, a `current` of at least `n*n`
cells and a `next` of any length: the four passes on the spectrum run to their end, and the
inverse row pass writes `next` cell by cell as far as `next` has cells. -/
theorem stepFFT_run [LinearOrderedField R] (F : Fourier R) {n : Nat} (hn : 0 < n) (ni : R)
    (kf fb cb : List (Cplx R)) (rb : List R) (cur nx : Grid)
    (hkf : kf.length = n * (n / 2 + 1)) (hfb : fb.length = n * (n / 2 + 1))
    (hcb : cb.length = n) (hrb : rb.length = n) (hcur : n * n ≤ cur.length) :
    (stepFFT F (mem n ni kf fb cb rb cur nx)).finished = decide (n * n ≤ nx.length)
      ∧ (stepFFT F (mem n ni kf fb cb rb cur nx)).mem.current = cur
      ∧ (stepFFT F (mem n ni kf fb cb rb cur nx)).mem.next
        = if n * n ≤ nx.length
          then thresholdGrid F n ni (convSpectrum F n kf cur) ++ nx.drop (n * n)
          else (thresholdGrid F n ni (convSpectrum F n kf cur)).take nx.length := by
  unfold stepFFT
  rw [show (mem n ni kf fb cb rb cur nx).fftN = (n : Int) from rfl,
    rowForward_done_of_le F hn ni kf fb cb rb cur nx hfb hrb hcur, andThen_done,
    columnPass_done F.cmplxCoefficients .freqBuf (Nat.succ_pos _) _ rfl rfl rfl hcb
      (by simp [FFTMem.spectrum, rowSpectrum]), andThen_done]
  simp only [FFTMem.spectrum, FFTMem.setSpectrum, FFTMem.setColBuf]
  rw [multiply_done ni kf _ _ _ cur nx (by simp [colTransform, hkf]), andThen_done,
    columnPass_done F.cmplxSequence .freqBuf (Nat.succ_pos _) _ rfl rfl rfl (by simp)
      (by simp [FFTMem.spectrum, pointwise, colTransform]), andThen_done]
  simp only [FFTMem.spectrum, FFTMem.setSpectrum, FFTMem.setColBuf]
  rw [rowInverse_run F hn ni kf _ _ _ cur nx (by simp [colTransform]) (by simp [rowVals])]
  by_cases h : n * n ≤ nx.length
  · rw [if_pos h, if_pos h, decide_eq_true h]
    exact ⟨rfl, rfl, rfl⟩
  · rw [if_neg h, if_neg h, decide_eq_false h]
    exact ⟨rfl, rfl, rfl⟩

/-! ## Atomicity and shape -/

theorem cell_take {n : Nat} (cur : Grid) {x y : Nat} (hx : x < n) (hy : y < n) :
    cell n (cur.take (n * n)) x y = cell n cur x y := by
  unfold cell
  rw [List.getD_eq_getElem?_getD, List.getD_eq_getElem?_getD, List.getElem?_take,
    if_pos (flat_lt hx hy)]

theorem rowSpectrum_take [Field R] (F : Fourier R) (n : Nat) (cur : Grid) :
    rowSpectrum F n (cur.take (n * n)) = rowSpectrum F n cur := by
  unfold rowSpectrum
  apply tab_congr
  intro i hi
  have hy : i / (n / 2 + 1) < n := Nat.div_lt_of_lt_mul (by rw [Nat.mul_comm]; exact hi)
  have hr : rowVals (R := R) n (cur.take (n * n)) (i / (n / 2 + 1))
      = rowVals n cur (i / (n / 2 + 1)) := by
    unfold rowVals
    apply tab_congr
    intro x hx
    rw [cell_take cur hx hy]
  rw [hr]

theorem convSpectrum_take [Field R] (F : Fourier R) (n : Nat)
    (kf : List (Cplx R)) (cur : Grid) :
    convSpectrum F n kf (cur.take (n * n)) = convSpectrum F n kf cur := by
  unfold convSpectrum
  rw [rowSpectrum_take F n]

/-- C13, as the code has it, for every `n ≥ 1` and buffers of any lengths (`stepFFT` on a
memory shaped as `initFFT` shapes it).  With a `current` of fewer than `n*n` cells each of
`stepTraditional`, `stepConvolution` and `stepFFT` stops with a bounds panic before its first
write: `next`, whatever its length, is exactly as it was.  With a `current` of at least `n*n`
cells there are grids `outT`, `outC`, `outF` of `n*n` cells, the same for every `next`, such
that: on a `next` of at least `n*n` cells the stepper runs to its end having overwritten the
cells `0 .. n*n-1` of `next` with that grid, further cells being left alone; on a `next` of
`L < n*n` cells the stepper stops with a bounds panic at the write of cell `L`, the cells
`0 .. L-1` being written.  So `next` is left as it was only for `L = 0`; for `0 < L < n*n` the
step has failed after writing some cells. -/
theorem step_all_or_nothing [LinearOrderedField R] (F : Fourier R) (n : Nat) (hn : 0 < n)
    (ni : R) (kf fb cb : List (Cplx R)) (rb : List R) (cur : Grid)
    (hkf : kf.length = n * (n / 2 + 1)) (hfb : fb.length = n * (n / 2 + 1))
    (hcb : cb.length = n) (hrb : rb.length = n) :
    (cur.length < n * n → ∀ next : Grid,
        stepTraditional (n : Int) ⟨cur, next⟩ = .panic ⟨cur, next⟩
        ∧ stepConvolution (n : Int) ⟨cur, next⟩ = .panic ⟨cur, next⟩
        ∧ ∃ p, stepFFT F (mem n ni kf fb cb rb cur next) = .panic p
            ∧ p.next = next ∧ p.current = cur)
      ∧ (n * n ≤ cur.length →
        ∃ outT outC outF : Grid,
          outT.length = n * n ∧ outC.length = n * n ∧ outF.length = n * n
          ∧ ∀ next : Grid,
            (n * n ≤ next.length →
              stepTraditional (n : Int) ⟨cur, next⟩
                  = .done ⟨cur, outT ++ next.drop (n * n)⟩
                ∧ stepConvolution (n : Int) ⟨cur, next⟩
                  = .done ⟨cur, outC ++ next.drop (n * n)⟩
                ∧ (stepFFT F (mem n ni kf fb cb rb cur next)).finished = true
                ∧ (stepFFT F (mem n ni kf fb cb rb cur next)).mem.next
                  = outF ++ next.drop (n * n)
                ∧ (stepFFT F (mem n ni kf fb cb rb cur next)).mem.current = cur)
            ∧ (next.length < n * n →
              stepTraditional (n : Int) ⟨cur, next⟩
                  = .panic ⟨cur, outT.take next.length⟩
                ∧ stepConvolution (n : Int) ⟨cur, next⟩
                  = .panic ⟨cur, outC.take next.length⟩
                ∧ (stepFFT F (mem n ni kf fb cb rb cur next)).finished = false
                ∧ (stepFFT F (mem n ni kf fb cb rb cur next)).mem.next
                  = outF.take next.length
                ∧ (stepFFT F (mem n ni kf fb cb rb cur next)).mem.current = cur)) := by
  constructor
  · intro hcur next
    exact ⟨stepTraditional_stops_of_short hn next hcur,
      stepConvolution_stops_of_short hn next hcur,
      stepFFT_stops_of_short F (mem n ni kf fb cb rb cur next) hn rfl rfl hcur⟩
  · intro hcur
    refine ⟨(List.range (n * n)).map (fun i =>
        ruleTraditional (cell n cur (i % n) (i / n)) (liveCount n cur (i % n) (i / n))),
      (List.range (n * n)).map (fun i => ruleConvolution
        (2 * liveCount n cur (i % n) (i / n) + b2i (cell n cur (i % n) (i / n)))),
      thresholdGrid F n ni (convSpectrum F n kf cur), ?_, ?_, ?_, ?_⟩
    · exact (List.length_map _ _).trans (List.length_range _)
    · exact (List.length_map _ _).trans (List.length_range _)
    · simp [thresholdGrid]
    · intro next
      have hT := stepTraditional_run hn hcur next
      have hC := stepConvolution_run hn hcur next
      obtain ⟨hF1, hF2, hF3⟩ := stepFFT_run F hn ni kf fb cb rb cur next hkf hfb hcb hrb hcur
      constructor
      · intro h
        rw [if_pos h] at hT hC hF3
        rw [decide_eq_true h] at hF1
        exact ⟨hT, hC, hF1, hF3, hF2⟩
      · intro h
        have h' : ¬ n * n ≤ next.length := by omega
        rw [if_neg h'] at hT hC hF3
        rw [decide_eq_false h'] at hF1
        exact ⟨hT, hC, hF1, hF3, hF2⟩

theorem step_all_or_nothing_witness :
    (∀ next : Grid,
        stepTraditional ((2 : Nat) : Int) ⟨[true, true, false], next⟩
          = .panic ⟨[true, true, false], next⟩
        ∧ stepConvolution ((2 : Nat) : Int) ⟨[true, true, false], next⟩
          = .panic ⟨[true, true, false], next⟩
        ∧ ∃ p, stepFFT (exactDFT minusOne) (mem 2 (1 / 4) [1, 2, 3, 4] [0, 0, 0, 0] [0, 0]
              [0, 0] [true, true, false] next) = .panic p
            ∧ p.next = next ∧ p.current = [true, true, false])
      ∧ (∃ outT outC outF : Grid,
          outT.length = 2 * 2 ∧ outC.length = 2 * 2 ∧ outF.length = 2 * 2
          ∧ ∀ next : Grid,
            (2 * 2 ≤ next.length →
              stepTraditional ((2 : Nat) : Int) ⟨[true, true, false, true, true], next⟩
                  = .done ⟨[true, true, false, true, true], outT ++ next.drop (2 * 2)⟩
                ∧ stepConvolution ((2 : Nat) : Int) ⟨[true, true, false, true, true], next⟩
                  = .done ⟨[true, true, false, true, true], outC ++ next.drop (2 * 2)⟩
                ∧ (stepFFT (exactDFT minusOne) (mem 2 (1 / 4) [1, 2, 3, 4] [0, 0, 0, 0] [0, 0]
                    [0, 0] [true, true, false, true, true] next)).finished = true
                ∧ (stepFFT (exactDFT minusOne) (mem 2 (1 / 4) [1, 2, 3, 4] [0, 0, 0, 0] [0, 0]
                    [0, 0] [true, true, false, true, true] next)).mem.next
                  = outF ++ next.drop (2 * 2)
                ∧ (stepFFT (exactDFT minusOne) (mem 2 (1 / 4) [1, 2, 3, 4] [0, 0, 0, 0] [0, 0]
                    [0, 0] [true, true, false, true, true] next)).mem.current
                  = [true, true, false, true, true])
            ∧ (next.length < 2 * 2 →
              stepTraditional ((2 : Nat) : Int) ⟨[true, true, false, true, true], next⟩
                  = .panic ⟨[true, true, false, true, true], outT.take next.length⟩
                ∧ stepConvolution ((2 : Nat) : Int) ⟨[true, true, false, true, true], next⟩
                  = .panic ⟨[true, true, false, true, true], outC.take next.length⟩
                ∧ (stepFFT (exactDFT minusOne) (mem 2 (1 / 4) [1, 2, 3, 4] [0, 0, 0, 0] [0, 0]
                    [0, 0] [true, true, false, true, true] next)).finished = false
                ∧ (stepFFT (exactDFT minusOne) (mem 2 (1 / 4) [1, 2, 3, 4] [0, 0, 0, 0] [0, 0]
                    [0, 0] [true, true, false, true, true] next)).mem.next
                  = outF.take next.length
                ∧ (stepFFT (exactDFT minusOne) (mem 2 (1 / 4) [1, 2, 3, 4] [0, 0, 0, 0] [0, 0]
                    [0, 0] [true, true, false, true, true] next)).mem.current
                  = [true, true, false, true, true])) :=
  ⟨(step_all_or_nothing (exactDFT minusOne) 2 (by decide) (1 / 4) [1, 2, 3, 4] [0, 0, 0, 0]
      [0, 0] [0, 0] [true, true, false] (by decide) (by decide) (by decide)
      (by decide)).1 (by decide),
    (step_all_or_nothing (exactDFT minusOne) 2 (by decide) (1 / 4) [1, 2, 3, 4] [0, 0, 0, 0]
      [0, 0] [0, 0] [true, true, false, true, true] (by decide) (by decide) (by decide)
      (by decide)).2 (by decide)⟩

/-- C13 at a failing input: size `2`, a `current` of four cells and a `next` of two cells
holding `true`.  Each of the three steppers writes the cells `(0,0)` and `(1,0)` of `next` and
then stops with a bounds panic at the write of cell `(0,1)`: `next` is not as it was before
the call, and not all `2*2` cells were written. -/
theorem step_not_atomic_counterexample :
    stepConvolution 2 ⟨[false, false, false, false], [true, true]⟩
        = .panic ⟨[false, false, false, false], [false, false]⟩
      ∧ stepTraditional 2 ⟨[false, false, false, false], [true, true]⟩
        = .panic ⟨[false, false, false, false], [false, false]⟩
      ∧ (runFFT minusOne 2 [false, false, false, false] [true, true]).finished = false
      ∧ (runFFT minusOne 2 [false, false, false, false] [true, true]).mem.next
        = [false, false] := by
  decide!

/-- C12, as the code has it: `stepFFT` makes no shape check.  `initFFT` sets `fftN` to `size`,
so after it the two agree.  On a memory shaped for `size = fftN = n`: with a `current` of
fewer than `n*n` cells `stepFFT` stops with a bounds panic in its forward row pass, `next` and
`current` being as they were; with a `current` of `n*n` cells or more it runs to its end and
writes into `next` the grid it writes for the first `n*n` cells of `current`, the cells
beyond them being ignored. -/
theorem stepFFT_shape_unchecked [LinearOrderedField R] (F : Fourier R) (n : Nat) (hn : 0 < n)
    (ni : R) (kf fb cb : List (Cplx R)) (rb : List R) (cur next : Grid)
    (hkf : kf.length = n * (n / 2 + 1)) (hfb : fb.length = n * (n / 2 + 1))
    (hcb : cb.length = n) (hrb : rb.length = n) (hnext : next.length = n * n) :
    (∀ m0 : FFTMem R, m0.size = (n : Int) →
        (initFFT F m0).finished = true
          ∧ (initFFT F m0).mem.fftN = (initFFT F m0).mem.size
          ∧ (initFFT F m0).mem.size = (n : Int)
          ∧ (initFFT F m0).mem.current = m0.current
          ∧ (initFFT F m0).mem.next = m0.next)
      ∧ (cur.length < n * n →
        ∃ p, stepFFT F (mem n ni kf fb cb rb cur next) = .panic p
          ∧ p.next = next ∧ p.current = cur)
      ∧ (n * n ≤ cur.length →
        (stepFFT F (mem n ni kf fb cb rb cur next)).finished = true
          ∧ (stepFFT F (mem n ni kf fb cb rb cur next)).mem.current = cur
          ∧ (stepFFT F (mem n ni kf fb cb rb (cur.take (n * n)) next)).finished = true
          ∧ (stepFFT F (mem n ni kf fb cb rb cur next)).mem.next
            = (stepFFT F (mem n ni kf fb cb rb (cur.take (n * n)) next)).mem.next) := by
  refine ⟨?_, ?_, ?_⟩
  · intro m0 hm0
    rw [initFFT_eq F hn m0 hm0]
    exact ⟨rfl, rfl, rfl, rfl, rfl⟩
  · intro hcur
    exact stepFFT_stops_of_short F (mem n ni kf fb cb rb cur next) hn rfl rfl hcur
  · intro hcur
    have htake : (cur.take (n * n)).length = n * n := by
      rw [List.length_take]
      exact min_eq_left hcur
    rw [stepFFT_eq_of_le F hn ni kf fb cb rb cur next hkf hfb hcb hrb hcur hnext,
      stepFFT_eq F hn ni kf fb cb rb (cur.take (n * n)) next hkf hfb hcb hrb htake hnext]
    refine ⟨rfl, rfl, rfl, ?_⟩
    show thresholdGrid F n ni (convSpectrum F n kf cur)
      = thresholdGrid F n ni (convSpectrum F n kf (cur.take (n * n)))
    rw [convSpectrum_take]

theorem stepFFT_shape_unchecked_witness :
    (∀ m0 : FFTMem ℚ, m0.size = ((2 : Nat) : Int) →
        (initFFT (exactDFT minusOne) m0).finished = true
          ∧ (initFFT (exactDFT minusOne) m0).mem.fftN = (initFFT (exactDFT minusOne) m0).mem.size
          ∧ (initFFT (exactDFT minusOne) m0).mem.size = ((2 : Nat) : Int)
          ∧ (initFFT (exactDFT minusOne) m0).mem.current = m0.current
          ∧ (initFFT (exactDFT minusOne) m0).mem.next = m0.next)
      ∧ (∃ p, stepFFT (exactDFT minusOne) (mem 2 (1 / 4) [1, 2, 3, 4] [0, 0, 0, 0] [0, 0]
              [0, 0] [true, true, false] [true, true, true, true]) = .panic p
          ∧ p.next = [true, true, true, true] ∧ p.current = [true, true, false])
      ∧ ((stepFFT (exactDFT minusOne) (mem 2 (1 / 4) [1, 2, 3, 4] [0, 0, 0, 0] [0, 0] [0, 0]
            [true, true, false, true, true] (newGrid 2))).finished = true
          ∧ (stepFFT (exactDFT minusOne) (mem 2 (1 / 4) [1, 2, 3, 4] [0, 0, 0, 0] [0, 0] [0, 0]
            [true, true, false, true, true] (newGrid 2))).mem.current
            = [true, true, false, true, true]
          ∧ (stepFFT (exactDFT minusOne) (mem 2 (1 / 4) [1, 2, 3, 4] [0, 0, 0, 0] [0, 0] [0, 0]
            (List.take (2 * 2) [true, true, false, true, true]) (newGrid 2))).finished = true
          ∧ (stepFFT (exactDFT minusOne) (mem 2 (1 / 4) [1, 2, 3, 4] [0, 0, 0, 0] [0, 0] [0, 0]
            [true, true, false, true, true] (newGrid 2))).mem.next
            = (stepFFT (exactDFT minusOne) (mem 2 (1 / 4) [1, 2, 3, 4] [0, 0, 0, 0] [0, 0]
              [0, 0] (List.take (2 * 2) [true, true, false, true, true])
              (newGrid 2))).mem.next) :=
  ⟨(stepFFT_shape_unchecked (exactDFT minusOne) 2 (by decide) (1 / 4) [1, 2, 3, 4]
      [0, 0, 0, 0] [0, 0] [0, 0] [true, true, false] [true, true, true, true] (by decide)
      (by decide) (by decide) (by decide) (by decide)).1,
    (stepFFT_shape_unchecked (exactDFT minusOne) 2 (by decide) (1 / 4) [1, 2, 3, 4]
      [0, 0, 0, 0] [0, 0] [0, 0] [true, true, false] [true, true, true, true] (by decide)
      (by decide) (by decide) (by decide) (by decide)).2.1 (by decide),
    (stepFFT_shape_unchecked (exactDFT minusOne) 2 (by decide) (1 / 4) [1, 2, 3, 4]
      [0, 0, 0, 0] [0, 0] [0, 0] [true, true, false, true, true] (newGrid 2) (by decide)
      (by decide) (by decide) (by decide) (by decide)).2.2 (by decide)⟩

/-- C12 at failing inputs, the transforms read as the exact DFT.  (a) `size = fftN = 2` and a
`current` of nine cells: `stepFFT` runs to its end and writes what it writes for the first four
cells.  (b) Kernel spectrum cached for `fftN = 4`, then `size = 2`, grids of sixteen cells:
`stepFFT` runs to its end, reading `current[y*2+x]` for `x, y < 4` and writing eight cells of
`next`.  (c) Kernel spectrum cached for `fftN = 2`, then `size = 4`, grids of sixteen cells:
`stepFFT` writes the cells `(0,0)` and `(1,0)` of `next` and then stops with a bounds panic
at `realBuf[2]`. -/
theorem stepFFT_shape_counterexample :
    ((runFFT minusOne 2 [true, true, true, false, true, true, true, true, true]
          (newGrid 2)).finished = true
        ∧ (runFFT minusOne 2 [true, true, true, false, true, true, true, true, true]
          (newGrid 2)).mem.next
          = (runFFT minusOne 2 [true, true, true, false] (newGrid 2)).mem.next)
      ∧ ((runFFTResized minusI 4 2 (List.replicate 16 true)
            (List.replicate 16 true)).finished = true
        ∧ (runFFTResized minusI 4 2 (List.replicate 16 true) (List.replicate 16 true)).mem.next
          = List.replicate 8 false ++ List.replicate 8 true)
      ∧ ((runFFTResized minusOne 2 4 (newGrid 4) (List.replicate 16 true)).finished = false
        ∧ (runFFTResized minusOne 2 4 (newGrid 4) (List.replicate 16 true)).mem.next
          = [false, false] ++ List.replicate 14 true) := by
  decide!

end ConvConway
